import Mathlib

/-!
Verification of the `smalloc` allocator (src/smalloc.c).

The allocator manages one contiguous region obtained at `my_init`.  Segment
headers (`mem_seg_t`) live in-band at the start of each segment; free segments
are linked in an address-ordered doubly linked list rooted at
`free_list_head`.  We embed the program shallowly: memory is modelled as an
association list from byte offsets (relative to `base_address`) to live
segment headers, kept in ascending address order exactly as the headers sit in
the region; the `next`/`prev` pointer fields of the C struct are modelled as
`Option Nat` offsets, and all free-list walks of the C code are translated
walk-for-walk (with a fuel bound large enough to cover any list that the
allocator can build, as proved below).

Machine remarks: on the LP64 target `sizeof(mem_seg_t)` is 24 (two 4-byte
ints and two 8-byte pointers, 8-aligned).  All sizes handled by the program
are non-negative C `int`s; we use `Nat`, on which C's `/` coincides with
natural division.
-/

namespace SMalloc

/-- The in-band segment header `mem_seg_t`: total size of the segment
(header + payload), the in-use flag, and the free-list links (`Option Nat`
offsets standing for the C pointers, `none` for `NULL`). -/
structure Seg where
  segSize : Nat
  inUse : Bool
  next : Option Nat
  prev : Option Nat
deriving Repr, DecidableEq

/-- One live header per segment, keyed by its byte offset from
`base_address`; the list is kept in ascending address order, mirroring the
physical layout of headers in the region. -/
abbrev Mem := List (Nat × Seg)

/-- The allocator's process-wide state: whether `base_address` is non-NULL,
the offset stored in `free_list_head` (`none` for `NULL`), `total_region`,
and the region's segment headers. -/
structure AllocState where
  baseInit : Bool
  freeHead : Option Nat
  totalRegion : Nat
  mem : Mem
deriving Repr, DecidableEq

/-- `sizeof(mem_seg_t)` on the LP64 target: 4 + 4 + 8 + 8 = 24. -/
def hdrSize : Nat := 24

/-- `align_value`: round `size` up to the nearest multiple of `factor`. -/
def align_value (size factor : Nat) : Nat :=
  ((size + factor - 1) / factor) * factor

/-- Read the header at offset `a` (dereferencing a `mem_seg_t *`). -/
def lookupSeg : Mem → Nat → Option Seg
  | [], _ => none
  | (b, s) :: rest, a => if b = a then some s else lookupSeg rest a

/-- Overwrite fields of the header at offset `a` (a store through a
`mem_seg_t *`); offsets without a live header are left unchanged. -/
def updateSeg : Mem → Nat → (Seg → Seg) → Mem
  | [], _, _ => []
  | (b, t) :: rest, a, f =>
    if b = a then (b, f t) :: updateSeg rest a f else (b, t) :: updateSeg rest a f

/-- Drop the header at offset `a`: the bytes there stop being interpreted
as a header once the segment is absorbed by a merge. -/
def removeSegEntry : Mem → Nat → Mem
  | [], _ => []
  | (b, t) :: rest, a =>
    if b = a then removeSegEntry rest a else (b, t) :: removeSegEntry rest a

/-- Record a fresh header at offset `a` (the split path writing a
`mem_seg_t` into the middle of a segment); insertion keeps ascending
address order, which is where the bytes physically sit. -/
def insertSegEntry : Mem → Nat → Seg → Mem
  | [], a, s => [(a, s)]
  | (b, t) :: rest, a, s =>
    if a < b then (a, s) :: (b, t) :: rest else (b, t) :: insertSegEntry rest a s

/-- The loop of `search_for_fit`: walk the free list from `cur`, stepping
to `->next` and bumping `*steps` after every segment that does not fit.
`fuel` bounds the walk; every call below supplies more fuel than the free
list has nodes, so the bound is never the reason the walk stops. -/
def search_aux (m : Mem) (needed : Nat) : Option Nat → Nat → Nat → Option Nat × Nat
  | none, steps, _ => (none, steps)
  | some _, steps, 0 => (none, steps)
  | some c, steps, fuel + 1 =>
    match lookupSeg m c with
    | none => (none, steps)
    | some s =>
      if needed ≤ s.segSize then (some c, steps)
      else search_aux m needed s.next (steps + 1) fuel

/-- `search_for_fit`: first-fit search returning the offset of the first
free-list node whose `seg_size` is at least `needed_size`, together with
the final value of `*steps`. -/
def search_for_fit (st : AllocState) (needed : Nat) : Option Nat × Nat :=
  search_aux st.mem needed st.freeHead 0 (st.mem.length + 1)

/-- The runner loop of `add_to_free_list`:
`while (runner->next != NULL && runner->next < seg) runner = runner->next;`. -/
def add_runner (m : Mem) (a : Nat) : Nat → Nat → Nat
  | r, 0 => r
  | r, fuel + 1 =>
    match lookupSeg m r with
    | none => r
    | some s =>
      match s.next with
      | none => r
      | some nx => if nx < a then add_runner m a nx fuel else r

/-- The pointer surgery at the end of `add_to_free_list`'s interior case:
`seg->next = runner->next; if (runner->next != NULL) runner->next->prev = seg;
runner->next = seg; seg->prev = runner;`. -/
def add_link_after (m0 : Mem) (a r : Nat) : Mem :=
  let rnext := match lookupSeg m0 r with
    | some s => s.next
    | none => none
  let m1 := updateSeg m0 a fun t => { t with next := rnext }
  let m2 := match rnext with
    | some nx => updateSeg m1 nx fun t => { t with prev := some a }
    | none => m1
  let m3 := updateSeg m2 r fun t => { t with next := some a }
  updateSeg m3 a fun t => { t with prev := some r }

/-- `add_to_free_list`: clear `in_use`, then link the segment at offset `a`
into the free list at its address-ordered position, mirroring the three
cases of the C code (empty list, new head, interior insertion). -/
def add_to_free_list (st : AllocState) (a : Nat) : AllocState :=
  let m0 := updateSeg st.mem a fun t => { t with inUse := false }
  match st.freeHead with
  | none =>
    { st with freeHead := some a,
              mem := updateSeg m0 a fun t => { t with next := none, prev := none } }
  | some h =>
    if a < h then
      let m1 := updateSeg m0 a fun t => { t with next := some h, prev := none }
      let m2 := updateSeg m1 h fun t => { t with prev := some a }
      { st with freeHead := some a, mem := m2 }
    else
      let r := add_runner m0 a h (m0.length + 1)
      { st with mem := add_link_after m0 a r }

/-- The pointer surgery of `remove_from_free_list`'s non-head case:
`if (seg->prev != NULL) seg->prev->next = seg->next;
if (seg->next != NULL) seg->next->prev = seg->prev;`. -/
def unlink (m : Mem) (s : Seg) : Mem :=
  let m1 := match s.prev with
    | some p => updateSeg m p fun t => { t with next := s.next }
    | none => m
  match s.next with
  | some nx => updateSeg m1 nx fun t => { t with prev := s.prev }
  | none => m1

/-- `remove_from_free_list`: unlink the segment at offset `a` using its own
`prev`/`next` links (special-casing the head), then null its links. -/
def remove_from_free_list (st : AllocState) (a : Nat) : AllocState :=
  match lookupSeg st.mem a with
  | none => st
  | some s =>
    let st1 :=
      if st.freeHead = some a then
        { st with freeHead := s.next
                  mem := (match s.next with
                    | some h => updateSeg st.mem h fun t => { t with prev := none }
                    | none => st.mem) }
      else { st with mem := unlink st.mem s }
    { st1 with mem := updateSeg st1.mem a fun t => { t with next := none, prev := none } }

/-- The predecessor scan of `merge_adjacent`: walk the free list looking
for a node `temp` with `temp + temp->seg_size == a`. -/
def scanPrev (m : Mem) (a : Nat) : Option Nat → Nat → Option Nat
  | none, _ => none
  | some _, 0 => none
  | some t, fuel + 1 =>
    match lookupSeg m t with
    | none => none
    | some s => if t + s.segSize = a then some t else scanPrev m a s.next fuel

/-- The forward half of `merge_adjacent`: the free address-successor at
`nextAddr` is unlinked and its size absorbed into the segment at `a`; its
header bytes stop being a header. -/
def absorb_next (st : AllocState) (a : Nat) (ns : Seg) (nextAddr : Nat) : AllocState :=
  let stA := remove_from_free_list st nextAddr
  { stA with
    mem := removeSegEntry
      (updateSeg stA.mem a fun t => { t with segSize := t.segSize + ns.segSize })
      nextAddr }

/-- The backward half of `merge_adjacent`: remove both the predecessor `p`
and the segment at `a` from the free list, add `a`'s size into `p`, and
re-insert `p`. -/
def merge_backward (st : AllocState) (a p : Nat) : AllocState :=
  let st2 := remove_from_free_list st p
  let st3 := remove_from_free_list st2 a
  let aSize := match lookupSeg st3.mem a with
    | some t => t.segSize
    | none => 0
  let st4 := { st3 with
    mem := removeSegEntry
      (updateSeg st3.mem p fun t => { t with segSize := t.segSize + aSize }) a }
  add_to_free_list st4 p

/-- The scan half of `merge_adjacent`: walk the free list looking for a
segment ending exactly at `a` and, if one is found, fold `a` into it. -/
def merge_scan (st1 : AllocState) (a : Nat) : AllocState × Nat :=
  match scanPrev st1.mem a st1.freeHead (st1.mem.length + 1) with
  | none => (st1, a)
  | some p => (merge_backward st1 a p, p)

/-- `merge_adjacent`: absorb the address-successor of the segment at `a` if
it lies inside the region and is free, then scan the free list for an
address-predecessor and, if one is found, fold the segment into it and
re-insert the survivor.  Returns the surviving segment's offset. -/
def merge_adjacent (st : AllocState) (a : Nat) : AllocState × Nat :=
  match lookupSeg st.mem a with
  | none => (st, a)
  | some s =>
    let st1 :=
      if a + s.segSize < st.totalRegion then
        match lookupSeg st.mem (a + s.segSize) with
        | none => st
        | some ns =>
          if ns.inUse = false then absorb_next st a ns (a + s.segSize) else st
      else st
    merge_scan st1 a

/-- `my_init`, success path: page-round the requested size, obtain the
zero-filled mapping, and install a single free segment spanning the whole
region.  (On mmap failure the C function returns -1 and the allocator stays
uninitialized; the claims below only concern successful initialization.) -/
def my_init (region_size : Nat) : AllocState :=
  let adjusted := align_value region_size 4096
  { baseInit := true
    freeHead := some 0
    totalRegion := adjusted
    mem := [(0, { segSize := adjusted, inUse := false, next := none, prev := none })] }

/-- The `Malloc_Status` out-record of `smalloc`. -/
structure Malloc_Status where
  success : Bool
  payload_offset : Int
  hops : Int
deriving Repr, DecidableEq

/-- The split branch of `smalloc`: write a fresh free header for the
remainder immediately after the `total_required` bytes being allocated,
shrink the chosen segment to exactly `total_required`, and insert the
remainder into the free list. -/
def split_seg (st : AllocState) (a total_required remaining : Nat) : AllocState :=
  let stA := { st with
    mem := insertSegEntry st.mem (a + total_required)
      { segSize := remaining, inUse := false, next := none, prev := none } }
  let stB := { stA with
    mem := updateSeg stA.mem a fun t => { t with segSize := total_required } }
  add_to_free_list stB (a + total_required)

/-- `smalloc`: first-fit allocation.  Returns the new state, the payload
offset handed to the caller (`none` for a NULL return), and the status
record.  The split branch mirrors the C code: it fires when the space left
after carving `total_required` bytes can hold a header. -/
def smalloc (st : AllocState) (payload_size : Nat) : AllocState × Option Nat × Malloc_Status :=
  if st.baseInit = false then
    (st, none, { success := false, payload_offset := -1, hops := -1 })
  else
    let total_required := align_value (hdrSize + payload_size) 8
    let found := search_for_fit st total_required
    match found.1 with
    | none => (st, none, { success := false, payload_offset := -1, hops := -1 })
    | some a =>
      match lookupSeg st.mem a with
      | none =>
        -- unreachable: `search_for_fit` only returns offsets whose header it read
        (st, none, { success := false, payload_offset := -1, hops := -1 })
      | some s =>
        let remaining := s.segSize - total_required
        let st1 := remove_from_free_list st a
        let st2 :=
          if hdrSize ≤ remaining then split_seg st1 a total_required remaining
          else st1
        let st3 := { st2 with mem := updateSeg st2.mem a fun t => { t with inUse := true } }
        (st3, some (a + hdrSize),
          { success := true, payload_offset := (a + hdrSize : Nat), hops := found.2 })

/-- `sfree`: release the payload at offset `ptr` (`none` models a NULL
pointer).  A handle below `hdrSize` would point outside the region in C
(undefined behaviour, never produced by `smalloc`); a handle whose header
offset carries no live header corresponds to reading a stale header, which
the allocator always leaves with `in_use == 0`, so the C code returns. -/
def sfree (st : AllocState) (ptr : Option Nat) : AllocState :=
  match ptr with
  | none => st
  | some pOff =>
    if st.baseInit = false then st
    else if pOff < hdrSize then st
    else
      let a := pOff - hdrSize
      match lookupSeg st.mem a with
      | none => st
      | some s =>
        if s.inUse = false then st
        else
          let st1 := add_to_free_list st a
          (merge_adjacent st1 a).1

/-- One externally visible call: an `smalloc` with an arbitrary payload
size, or an `sfree` with an arbitrary handle. -/
inductive Step : AllocState → AllocState → Prop
  | alloc (st : AllocState) (p : Nat) : Step st (smalloc st p).1
  | free (st : AllocState) (ptr : Option Nat) : Step st (sfree st ptr)

/-- States reachable from a successful `my_init s` (with `s > 0`: a
zero-size request would make `mmap` fail) by any sequence of calls. -/
def ReachableFrom (s : Nat) (st : AllocState) : Prop :=
  Relation.ReflTransGen Step (my_init s) st

/-- States reachable from some successful initialization. -/
def Reachable (st : AllocState) : Prop :=
  ∃ s, 0 < s ∧ ReachableFrom s st

/-! ## Invariant definitions -/

/-- Offsets of all live headers, in address order. -/
def segKeys (m : Mem) : List Nat := m.map Prod.fst

/-- Offsets of the free segments, in address order. -/
def freeAddrs (m : Mem) : List Nat :=
  (m.filter fun p => !p.2.inUse).map Prod.fst

/-- Total number of bytes covered by the recorded segments. -/
def sumSizes (m : Mem) : Nat := (m.map fun p => p.2.segSize).sum

/-- `Tiles total a m`: starting at offset `a`, the headers in `m` tile the
region gaplessly up to `total`: each segment starts where the previous one
ends, every size is positive, and the last segment ends at `total`. -/
def Tiles (total : Nat) : Nat → Mem → Prop
  | a, [] => a = total
  | a, (b, s) :: rest => b = a ∧ 0 < s.segSize ∧ Tiles total (a + s.segSize) rest

/-- No two address-adjacent segments are both free. -/
def NoAdjFree (m : Mem) : Prop :=
  List.Chain' (fun p q => p.2.inUse = true ∨ q.2.inUse = true) m

/-- `FLSeg m cur prv L cur2 prv2`: starting a free-list walk with
`current = cur` having arrived from `prv`, the walk visits exactly the
offsets in `L` (each a free header whose `prev` field points back to the
node we came from) and ends with `current = cur2`, arrived from `prv2`. -/
def FLSeg (m : Mem) : Option Nat → Option Nat → List Nat → Option Nat → Option Nat → Prop
  | cur, prv, [], cur2, prv2 => cur2 = cur ∧ prv2 = prv
  | cur, prv, a :: rest, cur2, prv2 =>
    cur = some a ∧ ∃ s, lookupSeg m a = some s ∧ s.inUse = false ∧ s.prev = prv ∧
      FLSeg m s.next (some a) rest cur2 prv2

/-- A complete free-list walk from `cur` visiting `L` and ending at `NULL`. -/
def FLChain (m : Mem) (cur prv : Option Nat) (L : List Nat) : Prop :=
  ∃ e, FLSeg m cur prv L none e

/-- `L` faithfully represents the free list of `st`: the pointer walk from
`free_list_head` visits exactly `L`, `L` is strictly ascending, and `L`
holds exactly the offsets of the free segments. -/
def FreeListRep (st : AllocState) (L : List Nat) : Prop :=
  FLChain st.mem st.freeHead none L ∧ List.Pairwise (· < ·) L ∧
    ∀ x, x ∈ L ↔ (lookupSeg st.mem x).map Seg.inUse = some false

/-- Every segment's size is a positive multiple of 8 covering its header. -/
def SizesOk (m : Mem) : Prop :=
  ∀ p ∈ m, p.2.segSize % 8 = 0 ∧ hdrSize ≤ p.2.segSize

/-- The allocator's inductive invariant. -/
structure Inv (st : AllocState) : Prop where
  init : st.baseInit = true
  tiles : Tiles st.totalRegion 0 st.mem
  sizesOk : SizesOk st.mem
  noAdj : NoAdjFree st.mem
  rep : ∃ L, FreeListRep st L

/-! ## Association-list lemmas -/

@[simp] theorem segKeys_nil : segKeys [] = [] := rfl

@[simp] theorem segKeys_cons (b : Nat) (t : Seg) (rest : Mem) :
    segKeys ((b, t) :: rest) = b :: segKeys rest := rfl

@[simp] theorem segKeys_append (m₁ m₂ : Mem) :
    segKeys (m₁ ++ m₂) = segKeys m₁ ++ segKeys m₂ := by
  simp [segKeys]

@[simp] theorem lookupSeg_nil (a : Nat) : lookupSeg [] a = none := rfl

theorem lookupSeg_cons (b : Nat) (t : Seg) (rest : Mem) (a : Nat) :
    lookupSeg ((b, t) :: rest) a = if b = a then some t else lookupSeg rest a := rfl

theorem lookupSeg_mem {m : Mem} {a : Nat} {s : Seg} (h : lookupSeg m a = some s) :
    (a, s) ∈ m := by
  induction m with
  | nil => simp at h
  | cons p rest ih =>
    obtain ⟨b, t⟩ := p
    rw [lookupSeg_cons] at h
    by_cases hba : b = a
    · rw [if_pos hba] at h
      cases h
      subst hba
      exact List.mem_cons_self _ _
    · rw [if_neg hba] at h
      exact List.mem_cons_of_mem _ (ih h)

theorem lookupSeg_isSome_of_mem_keys {m : Mem} {a : Nat} (h : a ∈ segKeys m) :
    ∃ s, lookupSeg m a = some s := by
  induction m with
  | nil => simp at h
  | cons p rest ih =>
    obtain ⟨b, t⟩ := p
    by_cases hba : b = a
    · exact ⟨t, by rw [lookupSeg_cons, if_pos hba]⟩
    · rw [segKeys_cons, List.mem_cons] at h
      rcases h with h | h
      · exact absurd h.symm hba
      · obtain ⟨s, hs⟩ := ih h
        exact ⟨s, by rw [lookupSeg_cons, if_neg hba]; exact hs⟩

theorem mem_keys_of_lookupSeg {m : Mem} {a : Nat} {s : Seg} (h : lookupSeg m a = some s) :
    a ∈ segKeys m :=
  List.mem_map_of_mem Prod.fst (lookupSeg_mem h)

theorem lookupSeg_eq_of_mem {m : Mem} {a : Nat} {s : Seg}
    (hnd : (segKeys m).Nodup) (h : (a, s) ∈ m) : lookupSeg m a = some s := by
  induction m with
  | nil => simp at h
  | cons p rest ih =>
    obtain ⟨b, t⟩ := p
    rw [segKeys_cons, List.nodup_cons] at hnd
    rcases List.mem_cons.mp h with h | h
    · cases h
      rw [lookupSeg_cons, if_pos rfl]
    · have hb : b ≠ a := by
        intro hba
        subst hba
        exact hnd.1 (List.mem_map_of_mem Prod.fst h)
      rw [lookupSeg_cons, if_neg hb]
      exact ih hnd.2 h

@[simp] theorem updateSeg_nil (a : Nat) (f : Seg → Seg) : updateSeg [] a f = [] := rfl

theorem updateSeg_cons (b : Nat) (t : Seg) (rest : Mem) (a : Nat) (f : Seg → Seg) :
    updateSeg ((b, t) :: rest) a f =
      if b = a then (b, f t) :: updateSeg rest a f else (b, t) :: updateSeg rest a f := rfl

theorem lookupSeg_updateSeg_self (m : Mem) (a : Nat) (f : Seg → Seg) :
    lookupSeg (updateSeg m a f) a = (lookupSeg m a).map f := by
  induction m with
  | nil => simp
  | cons p rest ih =>
    obtain ⟨b, t⟩ := p
    by_cases hba : b = a
    · rw [updateSeg_cons, if_pos hba, lookupSeg_cons, if_pos hba,
        lookupSeg_cons, if_pos hba]
      rfl
    · rw [updateSeg_cons, if_neg hba, lookupSeg_cons, if_neg hba,
        lookupSeg_cons, if_neg hba]
      exact ih

theorem lookupSeg_updateSeg_ne (m : Mem) {a b : Nat} (f : Seg → Seg) (h : b ≠ a) :
    lookupSeg (updateSeg m a f) b = lookupSeg m b := by
  induction m with
  | nil => simp
  | cons p rest ih =>
    obtain ⟨c, t⟩ := p
    by_cases hca : c = a
    · have hcb : c ≠ b := fun hc => h (hc ▸ hca)
      rw [updateSeg_cons, if_pos hca, lookupSeg_cons, if_neg hcb,
        lookupSeg_cons, if_neg hcb]
      exact ih
    · rw [updateSeg_cons, if_neg hca, lookupSeg_cons, lookupSeg_cons]
      by_cases hcb : c = b
      · rw [if_pos hcb, if_pos hcb]
      · rw [if_neg hcb, if_neg hcb]
        exact ih

theorem segKeys_updateSeg (m : Mem) (a : Nat) (f : Seg → Seg) :
    segKeys (updateSeg m a f) = segKeys m := by
  induction m with
  | nil => rfl
  | cons p rest ih =>
    obtain ⟨b, t⟩ := p
    by_cases hba : b = a
    · rw [updateSeg_cons, if_pos hba, segKeys_cons, segKeys_cons, ih]
    · rw [updateSeg_cons, if_neg hba, segKeys_cons, segKeys_cons, ih]

theorem length_updateSeg (m : Mem) (a : Nat) (f : Seg → Seg) :
    (updateSeg m a f).length = m.length := by
  induction m with
  | nil => rfl
  | cons p rest ih =>
    obtain ⟨b, t⟩ := p
    by_cases hba : b = a
    · rw [updateSeg_cons, if_pos hba, List.length_cons, List.length_cons, ih]
    · rw [updateSeg_cons, if_neg hba, List.length_cons, List.length_cons, ih]

theorem updateSeg_of_not_mem (m : Mem) {a : Nat} (f : Seg → Seg)
    (h : a ∉ segKeys m) : updateSeg m a f = m := by
  induction m with
  | nil => rfl
  | cons p rest ih =>
    obtain ⟨b, t⟩ := p
    rw [segKeys_cons, List.mem_cons] at h
    push_neg at h
    rw [updateSeg_cons, if_neg (Ne.symm h.1), ih h.2]

theorem updateSeg_append (m₁ m₂ : Mem) (a : Nat) (f : Seg → Seg) :
    updateSeg (m₁ ++ m₂) a f = updateSeg m₁ a f ++ updateSeg m₂ a f := by
  induction m₁ with
  | nil => rfl
  | cons p rest ih =>
    obtain ⟨b, t⟩ := p
    by_cases hba : b = a
    · rw [List.cons_append, updateSeg_cons, if_pos hba, updateSeg_cons, if_pos hba,
        List.cons_append, ih]
    · rw [List.cons_append, updateSeg_cons, if_neg hba, updateSeg_cons, if_neg hba,
        List.cons_append, ih]

@[simp] theorem removeSegEntry_nil (a : Nat) : removeSegEntry [] a = [] := rfl

theorem removeSegEntry_cons (b : Nat) (t : Seg) (rest : Mem) (a : Nat) :
    removeSegEntry ((b, t) :: rest) a =
      if b = a then removeSegEntry rest a else (b, t) :: removeSegEntry rest a := rfl

theorem removeSegEntry_append (m₁ m₂ : Mem) (a : Nat) :
    removeSegEntry (m₁ ++ m₂) a = removeSegEntry m₁ a ++ removeSegEntry m₂ a := by
  induction m₁ with
  | nil => rfl
  | cons p rest ih =>
    obtain ⟨b, t⟩ := p
    by_cases hba : b = a
    · rw [List.cons_append, removeSegEntry_cons, if_pos hba, removeSegEntry_cons,
        if_pos hba, ih]
    · rw [List.cons_append, removeSegEntry_cons, if_neg hba, removeSegEntry_cons,
        if_neg hba, List.cons_append, ih]

theorem removeSegEntry_of_not_mem (m : Mem) {a : Nat} (h : a ∉ segKeys m) :
    removeSegEntry m a = m := by
  induction m with
  | nil => rfl
  | cons p rest ih =>
    obtain ⟨b, t⟩ := p
    rw [segKeys_cons, List.mem_cons] at h
    push_neg at h
    rw [removeSegEntry_cons, if_neg (Ne.symm h.1), ih h.2]

@[simp] theorem insertSegEntry_nil (a : Nat) (s : Seg) :
    insertSegEntry [] a s = [(a, s)] := rfl

theorem insertSegEntry_cons (b : Nat) (t : Seg) (rest : Mem) (a : Nat) (s : Seg) :
    insertSegEntry ((b, t) :: rest) a s =
      if a < b then (a, s) :: (b, t) :: rest else (b, t) :: insertSegEntry rest a s := rfl

/-- Inserting at an offset greater than every key of `m₁` and smaller than
every key of `m₂` splices the entry in between. -/
theorem insertSegEntry_middle (m₁ m₂ : Mem) (a : Nat) (s : Seg)
    (h₁ : ∀ k ∈ segKeys m₁, ¬ a < k) (h₂ : ∀ k ∈ segKeys m₂, a < k) :
    insertSegEntry (m₁ ++ m₂) a s = m₁ ++ (a, s) :: m₂ := by
  induction m₁ with
  | nil =>
    cases m₂ with
    | nil => rfl
    | cons q rest =>
      obtain ⟨c, u⟩ := q
      have : a < c := h₂ c (by simp)
      simp [insertSegEntry_cons, this]
  | cons p rest ih =>
    obtain ⟨b, t⟩ := p
    have hb : ¬ a < b := h₁ b (by simp)
    rw [List.cons_append, insertSegEntry_cons, if_neg hb, List.cons_append]
    rw [ih fun k hk => h₁ k (by simp [hk])]

/-! ## Tiling lemmas -/

@[simp] theorem sumSizes_nil : sumSizes [] = 0 := rfl

@[simp] theorem sumSizes_cons (p : Nat × Seg) (m : Mem) :
    sumSizes (p :: m) = p.2.segSize + sumSizes m := rfl

@[simp] theorem sumSizes_append (m₁ m₂ : Mem) :
    sumSizes (m₁ ++ m₂) = sumSizes m₁ + sumSizes m₂ := by
  simp [sumSizes]

theorem Tiles_nil_iff {total a : Nat} : Tiles total a [] ↔ a = total := Iff.rfl

theorem Tiles_cons_iff {total a b : Nat} {s : Seg} {rest : Mem} :
    Tiles total a ((b, s) :: rest) ↔
      b = a ∧ 0 < s.segSize ∧ Tiles total (a + s.segSize) rest := Iff.rfl

theorem Tiles_append {total x : Nat} {m₁ m₂ : Mem} :
    Tiles total x (m₁ ++ m₂) ↔ ∃ y, Tiles y x m₁ ∧ Tiles total y m₂ := by
  induction m₁ generalizing x with
  | nil =>
    constructor
    · intro h
      exact ⟨x, rfl, h⟩
    · rintro ⟨y, hy, h⟩
      rw [Tiles_nil_iff] at hy
      subst hy
      exact h
  | cons p rest ih =>
    obtain ⟨b, s⟩ := p
    constructor
    · intro h
      rw [List.cons_append, Tiles_cons_iff] at h
      obtain ⟨hb, hs, h⟩ := h
      obtain ⟨y, h₁, h₂⟩ := ih.mp h
      exact ⟨y, ⟨hb, hs, h₁⟩, h₂⟩
    · rintro ⟨y, ⟨hb, hs, h₁⟩, h₂⟩
      exact ⟨hb, hs, ih.mpr ⟨y, h₁, h₂⟩⟩

theorem Tiles_sum {total x : Nat} {m : Mem} (h : Tiles total x m) :
    x + sumSizes m = total := by
  induction m generalizing x with
  | nil => simpa using h
  | cons p rest ih =>
    obtain ⟨b, s⟩ := p
    obtain ⟨hb, hs, h⟩ := h
    have := ih h
    simp only [sumSizes_cons]
    omega

theorem Tiles_key_bounds {total x : Nat} {m : Mem} (h : Tiles total x m)
    {a : Nat} {s : Seg} (hm : (a, s) ∈ m) : x ≤ a ∧ a + s.segSize ≤ total := by
  induction m generalizing x with
  | nil => simp at hm
  | cons p rest ih =>
    obtain ⟨b, t⟩ := p
    obtain ⟨hb, ht, h⟩ := h
    subst hb
    rcases List.mem_cons.mp hm with hm | hm
    · cases hm
      have := Tiles_sum h
      constructor
      · exact le_refl _
      · omega
    · have := ih h hm
      omega

theorem Tiles_mem_pos {total x : Nat} {m : Mem} (h : Tiles total x m)
    {a : Nat} {s : Seg} (hm : (a, s) ∈ m) : 0 < s.segSize := by
  induction m generalizing x with
  | nil => simp at hm
  | cons p rest ih =>
    obtain ⟨b, t⟩ := p
    obtain ⟨hb, ht, h⟩ := h
    rcases List.mem_cons.mp hm with hm | hm
    · obtain ⟨h1, h2⟩ := Prod.ext_iff.mp hm
      simp only at h2
      rw [h2]
      exact ht
    · exact ih h hm

theorem Tiles_keys_sorted {total x : Nat} {m : Mem} (h : Tiles total x m) :
    List.Pairwise (· < ·) (segKeys m) := by
  induction m generalizing x with
  | nil => simp
  | cons p rest ih =>
    obtain ⟨b, t⟩ := p
    obtain ⟨hb, ht, h⟩ := h
    subst hb
    rw [segKeys_cons, List.pairwise_cons]
    refine ⟨?_, ih h⟩
    intro k hk
    obtain ⟨s, hs⟩ := lookupSeg_isSome_of_mem_keys hk
    have := Tiles_key_bounds h (lookupSeg_mem hs)
    omega

theorem Tiles_keys_nodup {total x : Nat} {m : Mem} (h : Tiles total x m) :
    (segKeys m).Nodup :=
  (Tiles_keys_sorted h).imp fun hlt => Nat.ne_of_lt hlt

/-- In a tiling, the only entry ending exactly at key `a` is the entry
immediately preceding `(a, sa)`; this exhibits the two as consecutive. -/
theorem Tiles_consecutive {total x : Nat} {m : Mem} (h : Tiles total x m)
    {t a : Nat} {s sa : Seg} (hts : (t, s) ∈ m) (has : (a, sa) ∈ m)
    (hend : t + s.segSize = a) :
    ∃ m₁ m₂, m = m₁ ++ (t, s) :: (a, sa) :: m₂ := by
  induction m generalizing x with
  | nil => simp at hts
  | cons p rest ih =>
    obtain ⟨b, u⟩ := p
    obtain ⟨hb, hu, hrest⟩ := h
    rcases List.mem_cons.mp hts with hts' | hts'
    · obtain ⟨h1, h2⟩ := Prod.ext_iff.mp hts'
      simp only at h1 h2
      have h2sz : s.segSize = u.segSize := by rw [h2]
      -- the head is `(t, s)`; the successor must head `rest`
      have hrest' : Tiles total a rest := by
        have : x + u.segSize = a := by omega
        rwa [this] at hrest
      have ha_rest : (a, sa) ∈ rest := by
        rcases List.mem_cons.mp has with h' | h'
        · obtain ⟨h3, h4⟩ := Prod.ext_iff.mp h'
          simp only at h3 h4
          omega
        · exact h'
      cases rest with
      | nil => simp at ha_rest
      | cons q rest' =>
        obtain ⟨c, v⟩ := q
        obtain ⟨hc, hv, hrest2⟩ := hrest'
        rcases List.mem_cons.mp ha_rest with h' | h'
        · obtain ⟨h3, h4⟩ := Prod.ext_iff.mp h'
          simp only at h3 h4
          refine ⟨[], rest', ?_⟩
          simp only [List.nil_append, List.cons.injEq]
          refine ⟨Prod.ext_iff.mpr ⟨h1.symm, h2.symm⟩, Prod.ext_iff.mpr ⟨?_, h4.symm⟩, trivial⟩
          simp only
          omega
        · have hbound := (Tiles_key_bounds hrest2 h').1
          omega
    · have ha_rest : (a, sa) ∈ rest := by
        rcases List.mem_cons.mp has with h' | h'
        · obtain ⟨h3, h4⟩ := Prod.ext_iff.mp h'
          simp only at h3 h4
          have hta := (Tiles_key_bounds hrest hts').1
          omega
        · exact h'
      obtain ⟨m₁, m₂, hm⟩ := ih hrest hts' ha_rest
      exact ⟨(b, u) :: m₁, m₂, by rw [hm]; rfl⟩

/-- In a tiling, an entry that does not end at `total` has an immediate
successor entry keyed at its end address. -/
theorem Tiles_next_exists {total x : Nat} {m : Mem} (h : Tiles total x m)
    {a : Nat} {s : Seg} (ha : (a, s) ∈ m) (hlt : a + s.segSize < total) :
    ∃ t m₁ m₂, m = m₁ ++ (a, s) :: (a + s.segSize, t) :: m₂ := by
  induction m generalizing x with
  | nil => simp at ha
  | cons p rest ih =>
    obtain ⟨b, u⟩ := p
    obtain ⟨hb, hu, hrest⟩ := h
    rcases List.mem_cons.mp ha with ha' | ha'
    · obtain ⟨h1, h2⟩ := Prod.ext_iff.mp ha'
      simp only at h1 h2
      have h2sz : s.segSize = u.segSize := by rw [h2]
      cases rest with
      | nil =>
        rw [Tiles_nil_iff] at hrest
        omega
      | cons q rest' =>
        obtain ⟨c, v⟩ := q
        obtain ⟨hc, hv, hrest'⟩ := hrest
        refine ⟨v, [], rest', ?_⟩
        simp only [List.nil_append, List.cons.injEq]
        refine ⟨Prod.ext_iff.mpr ⟨h1.symm, h2.symm⟩, Prod.ext_iff.mpr ⟨?_, rfl⟩, trivial⟩
        simp only
        omega
    · obtain ⟨t, m₁, m₂, hm⟩ := ih hrest ha'
      exact ⟨t, (b, u) :: m₁, m₂, by rw [hm]; rfl⟩

/-! ## Free-list chain lemmas -/

theorem FLSeg_nil_iff {m : Mem} {cur prv cur2 prv2 : Option Nat} :
    FLSeg m cur prv [] cur2 prv2 ↔ cur2 = cur ∧ prv2 = prv := Iff.rfl

theorem FLSeg_cons_iff {m : Mem} {cur prv cur2 prv2 : Option Nat} {a : Nat} {rest : List Nat} :
    FLSeg m cur prv (a :: rest) cur2 prv2 ↔
      cur = some a ∧ ∃ s, lookupSeg m a = some s ∧ s.inUse = false ∧ s.prev = prv ∧
        FLSeg m s.next (some a) rest cur2 prv2 := Iff.rfl

theorem FLSeg_append {m : Mem} {cur prv cur2 prv2 : Option Nat} {L₁ L₂ : List Nat} :
    FLSeg m cur prv (L₁ ++ L₂) cur2 prv2 ↔
      ∃ c e, FLSeg m cur prv L₁ c e ∧ FLSeg m c e L₂ cur2 prv2 := by
  induction L₁ generalizing cur prv with
  | nil =>
    constructor
    · intro h
      exact ⟨cur, prv, ⟨rfl, rfl⟩, by simpa using h⟩
    · rintro ⟨c, e, ⟨hc, he⟩, h⟩
      subst hc
      subst he
      simpa using h
  | cons a rest ih =>
    constructor
    · rintro ⟨hcur, s, hs, hfree, hprev, h⟩
      obtain ⟨c, e, h₁, h₂⟩ := ih.mp h
      exact ⟨c, e, ⟨hcur, s, hs, hfree, hprev, h₁⟩, h₂⟩
    · rintro ⟨c, e, ⟨hcur, s, hs, hfree, hprev, h₁⟩, h₂⟩
      exact ⟨hcur, s, hs, hfree, hprev, ih.mpr ⟨c, e, h₁, h₂⟩⟩

theorem FLSeg_frame {m m' : Mem} {cur prv cur2 prv2 : Option Nat} {L : List Nat}
    (hsame : ∀ x ∈ L, lookupSeg m' x = lookupSeg m x)
    (h : FLSeg m cur prv L cur2 prv2) : FLSeg m' cur prv L cur2 prv2 := by
  induction L generalizing cur prv with
  | nil => exact h
  | cons a rest ih =>
    obtain ⟨hcur, s, hs, hfree, hprev, h⟩ := h
    refine ⟨hcur, s, ?_, hfree, hprev, ?_⟩
    · rw [hsame a (by simp)]
      exact hs
    · exact ih (fun x hx => hsame x (by simp [hx])) h

theorem FLSeg_mem_free {m : Mem} {cur prv cur2 prv2 : Option Nat} {L : List Nat}
    (h : FLSeg m cur prv L cur2 prv2) {x : Nat} (hx : x ∈ L) :
    ∃ s, lookupSeg m x = some s ∧ s.inUse = false := by
  induction L generalizing cur prv with
  | nil => simp at hx
  | cons a rest ih =>
    obtain ⟨hcur, s, hs, hfree, hprev, h⟩ := h
    rcases List.mem_cons.mp hx with hx' | hx'
    · subst hx'
      exact ⟨s, hs, hfree⟩
    · exact ih h hx'

theorem FLSeg_last_prv {m : Mem} {cur prv cur2 prv2 : Option Nat} {L : List Nat}
    (h : FLSeg m cur prv L cur2 prv2) :
    (L = [] ∧ cur2 = cur ∧ prv2 = prv) ∨ ∃ y, L.getLast? = some y ∧ prv2 = some y := by
  induction L generalizing cur prv with
  | nil => exact Or.inl ⟨rfl, h.1, h.2⟩
  | cons a rest ih =>
    obtain ⟨hcur, s, hs, hfree, hprev, h⟩ := h
    rcases ih h with ⟨h1, _, h3⟩ | ⟨y, hy, hprv⟩
    · subst h1
      exact Or.inr ⟨a, rfl, h3⟩
    · refine Or.inr ⟨y, ?_, hprv⟩
      cases rest with
      | nil => simp at hy
      | cons b rest' => simpa using hy

theorem FLChain_none {m : Mem} {prv : Option Nat} {L : List Nat}
    (h : FLChain m none prv L) : L = [] := by
  cases L with
  | nil => rfl
  | cons a rest =>
    obtain ⟨e, hcur, _⟩ := h
    cases hcur

theorem FLChain_cons_head {m : Mem} {h0 : Nat} {prv : Option Nat} {L : List Nat}
    (h : FLChain m (some h0) prv L) : ∃ L', L = h0 :: L' := by
  cases L with
  | nil =>
    obtain ⟨e, hcur, _⟩ := h
    cases hcur
  | cons a rest =>
    obtain ⟨e, hcur, _⟩ := h
    cases hcur
    exact ⟨rest, rfl⟩

theorem FLChain_length_le {m : Mem} {cur prv : Option Nat} {L : List Nat}
    (h : FLChain m cur prv L) (hnd : L.Nodup) : L.length ≤ m.length := by
  obtain ⟨e, hseg⟩ := h
  have hsub : L ⊆ segKeys m := by
    intro x hx
    obtain ⟨s, hs, _⟩ := FLSeg_mem_free hseg hx
    exact mem_keys_of_lookupSeg hs
  have := (List.subperm_of_subset hnd hsub).length_le
  simpa [segKeys] using this

/-! ## Walk characterizations -/

theorem search_aux_none {m : Mem} {needed : Nat} {cur prv prv2 : Option Nat}
    {L : List Nat} {steps fuel : Nat}
    (h : FLSeg m cur prv L none prv2) (hfuel : L.length < fuel)
    (hmiss : ∀ x ∈ L, ∀ s, lookupSeg m x = some s → s.segSize < needed) :
    search_aux m needed cur steps fuel = (none, steps + L.length) := by
  induction L generalizing cur prv steps fuel with
  | nil =>
    obtain ⟨hc, _⟩ := h
    subst hc
    cases fuel with
    | zero => simp at hfuel
    | succ f => simp [search_aux]
  | cons a rest ih =>
    obtain ⟨hcur, s, hs, hfree, hprev, h⟩ := h
    subst hcur
    cases fuel with
    | zero => simp at hfuel
    | succ f =>
      have hlt : s.segSize < needed := hmiss a (by simp) s hs
      simp only [search_aux, hs]
      rw [if_neg (Nat.not_le.mpr hlt)]
      have hrec : search_aux m needed s.next (steps + 1) f = (none, steps + 1 + rest.length) :=
        ih h (by simpa using Nat.lt_of_succ_lt_succ hfuel)
          (fun x hx => hmiss x (by simp [hx]))
      rw [hrec]
      simp only [List.length_cons]
      congr 1
      omega

theorem search_aux_found {m : Mem} {needed : Nat} {cur prv prv2 : Option Nat}
    {L₁ L₂ : List Nat} {a : Nat} {steps fuel : Nat}
    (h : FLSeg m cur prv (L₁ ++ a :: L₂) none prv2)
    (hfuel : (L₁ ++ a :: L₂).length < fuel)
    (hmiss : ∀ x ∈ L₁, ∀ s, lookupSeg m x = some s → s.segSize < needed)
    (hfit : ∀ s, lookupSeg m a = some s → needed ≤ s.segSize) :
    search_aux m needed cur steps fuel = (some a, steps + L₁.length) := by
  induction L₁ generalizing cur prv steps fuel with
  | nil =>
    obtain ⟨hcur, s, hs, hfree, hprev, h⟩ := h
    subst hcur
    cases fuel with
    | zero => simp at hfuel
    | succ f =>
      simp only [search_aux, hs]
      rw [if_pos (hfit s hs)]
      simp
  | cons b rest ih =>
    obtain ⟨hcur, s, hs, hfree, hprev, h⟩ := h
    subst hcur
    cases fuel with
    | zero => simp at hfuel
    | succ f =>
      have hlt : s.segSize < needed := hmiss b (by simp) s hs
      simp only [search_aux, hs]
      rw [if_neg (Nat.not_le.mpr hlt)]
      have hrec : search_aux m needed s.next (steps + 1) f = (some a, steps + 1 + rest.length) :=
        ih h (by simpa using Nat.lt_of_succ_lt_succ hfuel)
          (fun x hx => hmiss x (by simp [hx]))
      rw [hrec]
      simp only [List.length_cons]
      congr 1
      omega

theorem scanPrev_none {m : Mem} {a : Nat} {cur prv prv2 : Option Nat}
    {L : List Nat} {fuel : Nat}
    (h : FLSeg m cur prv L none prv2) (hfuel : L.length < fuel)
    (hmiss : ∀ x ∈ L, ∀ s, lookupSeg m x = some s → x + s.segSize ≠ a) :
    scanPrev m a cur fuel = none := by
  induction L generalizing cur prv fuel with
  | nil =>
    obtain ⟨hc, _⟩ := h
    subst hc
    cases fuel with
    | zero => simp at hfuel
    | succ f => simp [scanPrev]
  | cons b rest ih =>
    obtain ⟨hcur, s, hs, hfree, hprev, h⟩ := h
    subst hcur
    cases fuel with
    | zero => simp at hfuel
    | succ f =>
      simp only [scanPrev, hs]
      rw [if_neg (hmiss b (by simp) s hs)]
      exact ih h (by simpa using Nat.lt_of_succ_lt_succ hfuel)
        (fun x hx => hmiss x (by simp [hx]))

theorem scanPrev_found {m : Mem} {a : Nat} {cur prv prv2 : Option Nat}
    {L₁ L₂ : List Nat} {t : Nat} {fuel : Nat}
    (h : FLSeg m cur prv (L₁ ++ t :: L₂) none prv2)
    (hfuel : (L₁ ++ t :: L₂).length < fuel)
    (hmiss : ∀ x ∈ L₁, ∀ s, lookupSeg m x = some s → x + s.segSize ≠ a)
    (hfit : ∀ s, lookupSeg m t = some s → t + s.segSize = a) :
    scanPrev m a cur fuel = some t := by
  induction L₁ generalizing cur prv fuel with
  | nil =>
    obtain ⟨hcur, s, hs, hfree, hprev, h⟩ := h
    subst hcur
    cases fuel with
    | zero => simp at hfuel
    | succ f =>
      simp only [scanPrev, hs]
      rw [if_pos (hfit s hs)]
  | cons b rest ih =>
    obtain ⟨hcur, s, hs, hfree, hprev, h⟩ := h
    subst hcur
    cases fuel with
    | zero => simp at hfuel
    | succ f =>
      simp only [scanPrev, hs]
      rw [if_neg (hmiss b (by simp) s hs)]
      exact ih h (by simpa using Nat.lt_of_succ_lt_succ hfuel)
        (fun x hx => hmiss x (by simp [hx]))

theorem add_runner_spec {m : Mem} {a : Nat} :
    ∀ {L₂ : List Nat} {h0 : Nat} {prv prv2 : Option Nat} {fuel : Nat},
    FLSeg m (some h0) prv (h0 :: L₂) none prv2 → h0 < a → L₂.length < fuel →
    ∃ P Q, h0 :: L₂ = P ++ add_runner m a h0 fuel :: Q ∧
      (∀ x ∈ P, x < a) ∧ add_runner m a h0 fuel < a ∧
      ∃ sr, lookupSeg m (add_runner m a h0 fuel) = some sr ∧
        ((Q = [] ∧ sr.next = none) ∨
          (∃ q Q2, Q = q :: Q2 ∧ sr.next = some q ∧ ¬ q < a)) := by
  intro L₂
  induction L₂ with
  | nil =>
    intro h0 prv prv2 fuel h hlt hfuel
    obtain ⟨hcur, s, hs, hfree, hprev, h⟩ := h
    obtain ⟨hnone, _⟩ := h
    cases fuel with
    | zero => simp at hfuel
    | succ f =>
      have hr : add_runner m a h0 (f + 1) = h0 := by
        simp only [add_runner, hs, ← hnone]
      rw [hr]
      exact ⟨[], [], rfl, by simp, hlt, s, hs, Or.inl ⟨rfl, hnone.symm⟩⟩
  | cons h₂ L₃ ih =>
    intro h0 prv prv2 fuel h hlt hfuel
    obtain ⟨hcur, s, hs, hfree, hprev, h⟩ := h
    have hnext : s.next = some h₂ := h.1
    cases fuel with
    | zero => simp at hfuel
    | succ f =>
      by_cases hh2 : h₂ < a
      · have hchain : FLSeg m (some h₂) (some h0) (h₂ :: L₃) none prv2 := by
          rw [← hnext]
          exact ⟨hnext, h.2⟩
        have hf : L₃.length < f := by simpa using Nat.lt_of_succ_lt_succ hfuel
        obtain ⟨P, Q, hPQ, hPlt, hrlt, sr, hsr, hrest⟩ := ih hchain hh2 hf
        have hr : add_runner m a h0 (f + 1) = add_runner m a h₂ f := by
          simp only [add_runner, hs, hnext]
          rw [if_pos hh2]
        rw [hr]
        refine ⟨h0 :: P, Q, by rw [List.cons_append, ← hPQ], ?_, hrlt, sr, hsr, hrest⟩
        intro x hx
        rcases List.mem_cons.mp hx with hx | hx
        · subst hx
          exact hlt
        · exact hPlt x hx
      · have hr : add_runner m a h0 (f + 1) = h0 := by
          simp only [add_runner, hs, hnext]
          rw [if_neg hh2]
        rw [hr]
        exact ⟨[], h₂ :: L₃, rfl, by simp, hlt, s, hs, Or.inr ⟨h₂, L₃, rfl, hnext, hh2⟩⟩

/-! ## Shape equivalence

Pointer surgery on the free list never moves, resizes, or re-flags a
segment.  `SameShape` records that two memories agree on everything except
the `next`/`prev` fields; the region-level invariants (`Tiles`,
`NoAdjFree`, size bounds) are shape-determined and transport across it. -/

def SameShape (m σ : Mem) : Prop :=
  segKeys m = segKeys σ ∧
    (∀ x, (lookupSeg m x).map Seg.segSize = (lookupSeg σ x).map Seg.segSize) ∧
    (∀ x, (lookupSeg m x).map Seg.inUse = (lookupSeg σ x).map Seg.inUse)

theorem SameShape.refl (m : Mem) : SameShape m m := ⟨rfl, fun _ => rfl, fun _ => rfl⟩

theorem SameShape.trans {m₁ m₂ m₃ : Mem} (h₁ : SameShape m₁ m₂) (h₂ : SameShape m₂ m₃) :
    SameShape m₁ m₃ :=
  ⟨h₁.1.trans h₂.1, fun x => (h₁.2.1 x).trans (h₂.2.1 x), fun x => (h₁.2.2 x).trans (h₂.2.2 x)⟩

theorem SameShape.symm {m₁ m₂ : Mem} (h : SameShape m₁ m₂) : SameShape m₂ m₁ :=
  ⟨h.1.symm, fun x => (h.2.1 x).symm, fun x => (h.2.2 x).symm⟩

/-- A pointer-only header update does not change the shape. -/
theorem SameShape_update_ptr (m : Mem) (a : Nat) {f : Seg → Seg}
    (hf : ∀ s, (f s).segSize = s.segSize ∧ (f s).inUse = s.inUse) :
    SameShape (updateSeg m a f) m := by
  refine ⟨segKeys_updateSeg m a f, fun x => ?_, fun x => ?_⟩
  · by_cases hx : x = a
    · subst hx
      rw [lookupSeg_updateSeg_self]
      cases lookupSeg m x with
      | none => rfl
      | some s => simp [(hf s).1]
    · rw [lookupSeg_updateSeg_ne m f hx]
  · by_cases hx : x = a
    · subst hx
      rw [lookupSeg_updateSeg_self]
      cases lookupSeg m x with
      | none => rfl
      | some s => simp [(hf s).2]
    · rw [lookupSeg_updateSeg_ne m f hx]

/-- A shape-congruent update (its effect on size and flag depends only on
size and flag) applied to shape-equal memories keeps them shape-equal. -/
theorem SameShape_update {m σ : Mem} (h : SameShape m σ) (a : Nat) {f : Seg → Seg}
    (hf : ∀ s s', s.segSize = s'.segSize → s.inUse = s'.inUse →
      (f s).segSize = (f s').segSize ∧ (f s).inUse = (f s').inUse) :
    SameShape (updateSeg m a f) (updateSeg σ a f) := by
  obtain ⟨hk, hsz, hfl⟩ := h
  refine ⟨by rw [segKeys_updateSeg, segKeys_updateSeg]; exact hk, fun x => ?_, fun x => ?_⟩
  · by_cases hx : x = a
    · subst hx
      rw [lookupSeg_updateSeg_self, lookupSeg_updateSeg_self, Option.map_map, Option.map_map]
      cases hm : lookupSeg m x with
      | none =>
        cases hσ : lookupSeg σ x with
        | none => rfl
        | some s' =>
          have := hsz x
          rw [hm, hσ] at this
          simp at this
      | some s =>
        cases hσ : lookupSeg σ x with
        | none =>
          have := hsz x
          rw [hm, hσ] at this
          simp at this
        | some s' =>
          have h1 := hsz x
          have h2 := hfl x
          rw [hm, hσ] at h1 h2
          simp at h1 h2
          simp [Function.comp, (hf s s' h1 h2).1]
    · rw [lookupSeg_updateSeg_ne m f hx, lookupSeg_updateSeg_ne σ f hx]
      exact hsz x
  · by_cases hx : x = a
    · subst hx
      rw [lookupSeg_updateSeg_self, lookupSeg_updateSeg_self, Option.map_map, Option.map_map]
      cases hm : lookupSeg m x with
      | none =>
        cases hσ : lookupSeg σ x with
        | none => rfl
        | some s' =>
          have := hsz x
          rw [hm, hσ] at this
          simp at this
      | some s =>
        cases hσ : lookupSeg σ x with
        | none =>
          have := hsz x
          rw [hm, hσ] at this
          simp at this
        | some s' =>
          have h1 := hsz x
          have h2 := hfl x
          rw [hm, hσ] at h1 h2
          simp at h1 h2
          simp [Function.comp, (hf s s' h1 h2).2]
    · rw [lookupSeg_updateSeg_ne m f hx, lookupSeg_updateSeg_ne σ f hx]
      exact hfl x

theorem segKeys_removeSegEntry (m : Mem) (a : Nat) :
    segKeys (removeSegEntry m a) = (segKeys m).filter fun k => decide ¬ k = a := by
  induction m with
  | nil => rfl
  | cons p rest ih =>
    obtain ⟨b, t⟩ := p
    by_cases hba : b = a
    · rw [removeSegEntry_cons, if_pos hba, segKeys_cons, ih, List.filter_cons]
      simp [hba]
    · rw [removeSegEntry_cons, if_neg hba, segKeys_cons, segKeys_cons, ih, List.filter_cons]
      simp [hba]

theorem lookupSeg_removeSegEntry_self (m : Mem) (a : Nat) :
    lookupSeg (removeSegEntry m a) a = none := by
  induction m with
  | nil => rfl
  | cons p rest ih =>
    obtain ⟨b, t⟩ := p
    by_cases hba : b = a
    · rw [removeSegEntry_cons, if_pos hba]
      exact ih
    · rw [removeSegEntry_cons, if_neg hba, lookupSeg_cons, if_neg hba]
      exact ih

theorem lookupSeg_removeSegEntry_ne (m : Mem) {a b : Nat} (h : b ≠ a) :
    lookupSeg (removeSegEntry m a) b = lookupSeg m b := by
  induction m with
  | nil => rfl
  | cons p rest ih =>
    obtain ⟨c, t⟩ := p
    by_cases hca : c = a
    · have : c ≠ b := fun hc => h (hc ▸ hca)
      rw [removeSegEntry_cons, if_pos hca, lookupSeg_cons, if_neg this]
      exact ih
    · rw [removeSegEntry_cons, if_neg hca, lookupSeg_cons, lookupSeg_cons]
      by_cases hcb : c = b
      · rw [if_pos hcb, if_pos hcb]
      · rw [if_neg hcb, if_neg hcb]
        exact ih

theorem SameShape_remove {m σ : Mem} (h : SameShape m σ) (a : Nat) :
    SameShape (removeSegEntry m a) (removeSegEntry σ a) := by
  obtain ⟨hk, hsz, hfl⟩ := h
  refine ⟨by rw [segKeys_removeSegEntry, segKeys_removeSegEntry, hk], fun x => ?_, fun x => ?_⟩
  · by_cases hx : x = a
    · subst hx
      rw [lookupSeg_removeSegEntry_self, lookupSeg_removeSegEntry_self]
    · rw [lookupSeg_removeSegEntry_ne m hx, lookupSeg_removeSegEntry_ne σ hx]
      exact hsz x
  · by_cases hx : x = a
    · subst hx
      rw [lookupSeg_removeSegEntry_self, lookupSeg_removeSegEntry_self]
    · rw [lookupSeg_removeSegEntry_ne m hx, lookupSeg_removeSegEntry_ne σ hx]
      exact hfl x

/-- Keys of an ordered insertion, described on the key list alone. -/
def keysInsert : List Nat → Nat → List Nat
  | [], a => [a]
  | b :: rest, a => if a < b then a :: b :: rest else b :: keysInsert rest a

theorem segKeys_insertSegEntry (m : Mem) (a : Nat) (s : Seg) :
    segKeys (insertSegEntry m a s) = keysInsert (segKeys m) a := by
  induction m with
  | nil => rfl
  | cons p rest ih =>
    obtain ⟨b, t⟩ := p
    by_cases hab : a < b
    · rw [insertSegEntry_cons, if_pos hab]
      simp [keysInsert, hab, segKeys]
    · rw [insertSegEntry_cons, if_neg hab, segKeys_cons, segKeys_cons, keysInsert, if_neg hab, ih]

theorem lookupSeg_insertSegEntry_self (m : Mem) {a : Nat} (s : Seg)
    (h : a ∉ segKeys m) : lookupSeg (insertSegEntry m a s) a = some s := by
  induction m with
  | nil => rw [insertSegEntry_nil, lookupSeg_cons, if_pos rfl]
  | cons p rest ih =>
    obtain ⟨b, t⟩ := p
    rw [segKeys_cons, List.mem_cons] at h
    push_neg at h
    by_cases hab : a < b
    · rw [insertSegEntry_cons, if_pos hab, lookupSeg_cons, if_pos rfl]
    · rw [insertSegEntry_cons, if_neg hab, lookupSeg_cons, if_neg (Ne.symm h.1)]
      exact ih h.2

theorem lookupSeg_insertSegEntry_ne (m : Mem) {a b : Nat} (s : Seg) (h : b ≠ a) :
    lookupSeg (insertSegEntry m a s) b = lookupSeg m b := by
  induction m with
  | nil =>
    rw [insertSegEntry_nil, lookupSeg_cons, if_neg (Ne.symm h), lookupSeg_nil]
  | cons p rest ih =>
    obtain ⟨c, t⟩ := p
    by_cases hac : a < c
    · rw [insertSegEntry_cons, if_pos hac, lookupSeg_cons, if_neg (Ne.symm h), lookupSeg_cons]
    · rw [insertSegEntry_cons, if_neg hac, lookupSeg_cons, lookupSeg_cons]
      by_cases hcb : c = b
      · rw [if_pos hcb, if_pos hcb]
      · rw [if_neg hcb, if_neg hcb]
        exact ih

theorem SameShape_insert {m σ : Mem} (h : SameShape m σ) (a : Nat) (s : Seg)
    (hm : a ∉ segKeys m) : SameShape (insertSegEntry m a s) (insertSegEntry σ a s) := by
  obtain ⟨hk, hsz, hfl⟩ := h
  have hσ : a ∉ segKeys σ := hk ▸ hm
  refine ⟨by rw [segKeys_insertSegEntry, segKeys_insertSegEntry, hk], fun x => ?_, fun x => ?_⟩
  · by_cases hx : x = a
    · subst hx
      rw [lookupSeg_insertSegEntry_self m s hm, lookupSeg_insertSegEntry_self σ s hσ]
    · rw [lookupSeg_insertSegEntry_ne m s hx, lookupSeg_insertSegEntry_ne σ s hx]
      exact hsz x
  · by_cases hx : x = a
    · subst hx
      rw [lookupSeg_insertSegEntry_self m s hm, lookupSeg_insertSegEntry_self σ s hσ]
    · rw [lookupSeg_insertSegEntry_ne m s hx, lookupSeg_insertSegEntry_ne σ s hx]
      exact hfl x

/-! ### Transport of shape-determined predicates -/

/-- Entrywise equality of offset, size and flag. -/
def EqShape (p q : Nat × Seg) : Prop :=
  p.1 = q.1 ∧ p.2.segSize = q.2.segSize ∧ p.2.inUse = q.2.inUse

theorem sameShape_forall₂ {m σ : Mem} (h : SameShape m σ) (hnd : (segKeys σ).Nodup) :
    List.Forall₂ EqShape m σ := by
  induction σ generalizing m with
  | nil =>
    obtain ⟨hk, _, _⟩ := h
    cases m with
    | nil => exact List.Forall₂.nil
    | cons p rest =>
      obtain ⟨b, t⟩ := p
      simp at hk
  | cons q σrest ih =>
    obtain ⟨hk, hsz, hfl⟩ := h
    obtain ⟨c, u⟩ := q
    cases m with
    | nil => simp at hk
    | cons p mrest =>
      obtain ⟨b, t⟩ := p
      rw [segKeys_cons, segKeys_cons] at hk
      have hbc : b = c := by injection hk
      have hkrest : segKeys mrest = segKeys σrest := by injection hk
      subst hbc
      rw [segKeys_cons, List.nodup_cons] at hnd
      have hszb := hsz b
      have hflb := hfl b
      rw [lookupSeg_cons, if_pos rfl, lookupSeg_cons, if_pos rfl] at hszb hflb
      simp at hszb hflb
      refine List.Forall₂.cons ⟨rfl, hszb, hflb⟩ (ih ?_ hnd.2)
      refine ⟨hkrest, fun x => ?_, fun x => ?_⟩
      · by_cases hxb : b = x
        · subst hxb
          have h1 : lookupSeg mrest b = none := by
            cases hl : lookupSeg mrest b with
            | none => rfl
            | some s =>
              exact absurd (hkrest ▸ mem_keys_of_lookupSeg hl) hnd.1
          have h2 : lookupSeg σrest b = none := by
            cases hl : lookupSeg σrest b with
            | none => rfl
            | some s => exact absurd (mem_keys_of_lookupSeg hl) hnd.1
          rw [h1, h2]
        · have := hsz x
          rw [lookupSeg_cons, if_neg hxb, lookupSeg_cons, if_neg hxb] at this
          exact this
      · by_cases hxb : b = x
        · subst hxb
          have h1 : lookupSeg mrest b = none := by
            cases hl : lookupSeg mrest b with
            | none => rfl
            | some s =>
              exact absurd (hkrest ▸ mem_keys_of_lookupSeg hl) hnd.1
          have h2 : lookupSeg σrest b = none := by
            cases hl : lookupSeg σrest b with
            | none => rfl
            | some s => exact absurd (mem_keys_of_lookupSeg hl) hnd.1
          rw [h1, h2]
        · have := hfl x
          rw [lookupSeg_cons, if_neg hxb, lookupSeg_cons, if_neg hxb] at this
          exact this

theorem Tiles_forall₂ {m σ : Mem} (h : List.Forall₂ EqShape m σ) {total x : Nat}
    (ht : Tiles total x σ) : Tiles total x m := by
  induction h generalizing x with
  | nil => exact ht
  | cons hpq hrest ih =>
    obtain ⟨h1, h2, h3⟩ := hpq
    obtain ⟨hb, hs, ht⟩ := ht
    exact ⟨by omega, by omega, by rw [h2]; exact ih ht⟩

theorem NoAdjFree_forall₂ {m σ : Mem} (h : List.Forall₂ EqShape m σ)
    (hn : NoAdjFree σ) : NoAdjFree m := by
  induction h with
  | nil => exact hn
  | cons hpq hrest ih =>
    rename_i p q mrest σrest
    cases hrest with
    | nil => exact List.chain'_singleton _
    | cons hpq2 hrest2 =>
      rename_i p2 q2 mrest2 σrest2
      simp only [NoAdjFree, List.chain'_cons] at hn ⊢
      refine ⟨?_, ih hn.2⟩
      rcases hn.1 with h' | h'
      · exact Or.inl (hpq.2.2.trans h')
      · exact Or.inr (hpq2.2.2.trans h')

theorem sizesOk_forall₂ {m σ : Mem} (h : List.Forall₂ EqShape m σ)
    (hs : ∀ p ∈ σ, p.2.segSize % 8 = 0 ∧ hdrSize ≤ p.2.segSize) :
    ∀ p ∈ m, p.2.segSize % 8 = 0 ∧ hdrSize ≤ p.2.segSize := by
  induction h with
  | nil => exact hs
  | cons hpq hrest ih =>
    rename_i p q mrest σrest
    intro r hr
    rcases List.mem_cons.mp hr with hr | hr
    · subst hr
      have := hs q (by simp)
      rw [hpq.2.1]
      exact this
    · exact ih (fun r' hr' => hs r' (by simp [hr'])) r hr

/-! ## Small list helpers -/

theorem freeFlagIff {m : Mem} {x : Nat} :
    (lookupSeg m x).map Seg.inUse = some false ↔
      ∃ s, lookupSeg m x = some s ∧ s.inUse = false := by
  cases h : lookupSeg m x with
  | none => simp
  | some s => simp

theorem exists_append_singleton_of_getLast {α : Type} {l : List α} {y : α}
    (h : l.getLast? = some y) : ∃ l2, l = l2 ++ [y] := by
  induction l with
  | nil => simp at h
  | cons x rest ih =>
    cases rest with
    | nil =>
      simp at h
      subst h
      exact ⟨[], rfl⟩
    | cons z rest' =>
      rw [List.getLast?_cons_cons] at h
      obtain ⟨l2, hl2⟩ := ih h
      exact ⟨x :: l2, by rw [List.cons_append, ← hl2]⟩

theorem split_at_key {m : Mem} {a : Nat} {sa : Seg}
    (hnd : (segKeys m).Nodup) (ha : lookupSeg m a = some sa) :
    ∃ m₁ m₂, m = m₁ ++ (a, sa) :: m₂ ∧ a ∉ segKeys m₁ ∧ a ∉ segKeys m₂ := by
  induction m with
  | nil => simp at ha
  | cons p rest ih =>
    obtain ⟨b, t⟩ := p
    rw [segKeys_cons, List.nodup_cons] at hnd
    by_cases hba : b = a
    · subst hba
      rw [lookupSeg_cons, if_pos rfl] at ha
      cases ha
      exact ⟨[], rest, rfl, by simp, hnd.1⟩
    · rw [lookupSeg_cons, if_neg hba] at ha
      obtain ⟨m₁, m₂, hm, h₁, h₂⟩ := ih hnd.2 ha
      refine ⟨(b, t) :: m₁, m₂, by rw [hm]; rfl, ?_, h₂⟩
      rw [segKeys_cons, List.mem_cons]
      push_neg
      exact ⟨Ne.symm hba, h₁⟩

theorem split_unique_key {m : Mem} {a : Nat} {s s' : Seg} {l₁ l₂ l₃ l₄ : Mem}
    (hnd : (segKeys m).Nodup) (h1 : m = l₁ ++ (a, s) :: l₂) (h2 : m = l₃ ++ (a, s') :: l₄) :
    l₁ = l₃ ∧ s = s' ∧ l₂ = l₄ := by
  induction l₁ generalizing m l₃ with
  | nil =>
    cases l₃ with
    | nil =>
      rw [List.nil_append] at h1 h2
      rw [h1] at h2
      obtain ⟨hh, hts⟩ := List.cons.injEq .. ▸ h2
      exact ⟨rfl, (Prod.ext_iff.mp hh).2, hts⟩
    | cons q l₃' =>
      rw [List.nil_append] at h1
      subst h1
      obtain ⟨hq, hrest⟩ := List.cons.injEq .. ▸ h2
      subst hq
      rw [segKeys_cons, List.nodup_cons] at hnd
      exfalso
      apply hnd.1
      rw [hrest]
      simp
  | cons p l₁' ih =>
    cases l₃ with
    | nil =>
      rw [List.nil_append] at h2
      subst h2
      obtain ⟨hq, hrest⟩ := List.cons.injEq .. ▸ h1
      subst hq
      rw [segKeys_cons, List.nodup_cons] at hnd
      exfalso
      apply hnd.1
      rw [hrest]
      simp
    | cons q l₃' =>
      rw [List.cons_append] at h1 h2
      subst h1
      obtain ⟨hq, hrest⟩ := List.cons.injEq .. ▸ h2
      subst hq
      rw [segKeys_cons, List.nodup_cons] at hnd
      obtain ⟨he1, he2, he3⟩ := ih hnd.2 rfl hrest
      exact ⟨by rw [he1], he2, he3⟩

/-! ## Pointer-surgery lemmas -/

theorem add_link_after_shape (m0 : Mem) (a r : Nat) :
    SameShape (add_link_after m0 a r) m0 := by
  simp only [add_link_after]
  refine (SameShape_update_ptr _ a ?_).trans ((SameShape_update_ptr _ r ?_).trans ?_)
  · intro s
    exact ⟨rfl, rfl⟩
  · intro s
    exact ⟨rfl, rfl⟩
  · split
    · refine (SameShape_update_ptr _ _ ?_).trans (SameShape_update_ptr _ a ?_)
      · intro s
        exact ⟨rfl, rfl⟩
      · intro s
        exact ⟨rfl, rfl⟩
    · refine SameShape_update_ptr _ a ?_
      intro s
      exact ⟨rfl, rfl⟩

theorem add_link_after_lookup_a {m0 : Mem} {a r : Nat} {sr : Seg}
    (hsr : lookupSeg m0 r = some sr) (hra : r ≠ a)
    (hnxa : ∀ nx, sr.next = some nx → nx ≠ a) :
    lookupSeg (add_link_after m0 a r) a =
      (lookupSeg m0 a).map fun t => { t with next := sr.next, prev := some r } := by
  simp only [add_link_after, hsr]
  rw [lookupSeg_updateSeg_self, lookupSeg_updateSeg_ne _ _ (Ne.symm hra)]
  split
  · rename_i nx hn
    rw [lookupSeg_updateSeg_ne _ _ (Ne.symm (hnxa nx hn)), lookupSeg_updateSeg_self]
    cases lookupSeg m0 a with
    | none => rfl
    | some t => rfl
  · rw [lookupSeg_updateSeg_self]
    cases lookupSeg m0 a with
    | none => rfl
    | some t => rfl

theorem add_link_after_lookup_r {m0 : Mem} {a r : Nat} {sr : Seg}
    (hsr : lookupSeg m0 r = some sr) (hra : r ≠ a)
    (hnxr : ∀ nx, sr.next = some nx → nx ≠ r) :
    lookupSeg (add_link_after m0 a r) r = some { sr with next := some a } := by
  simp only [add_link_after, hsr]
  rw [lookupSeg_updateSeg_ne _ _ hra, lookupSeg_updateSeg_self]
  split
  · rename_i nx hn
    rw [lookupSeg_updateSeg_ne _ _ (Ne.symm (hnxr nx hn)),
      lookupSeg_updateSeg_ne _ _ hra, hsr]
    rfl
  · rw [lookupSeg_updateSeg_ne _ _ hra, hsr]
    rfl

theorem add_link_after_lookup_nx {m0 : Mem} {a r nx : Nat} {sr : Seg}
    (hsr : lookupSeg m0 r = some sr) (hn : sr.next = some nx)
    (hnxa : nx ≠ a) (hnxr : nx ≠ r) :
    lookupSeg (add_link_after m0 a r) nx =
      (lookupSeg m0 nx).map fun t => { t with prev := some a } := by
  simp only [add_link_after, hsr, hn]
  rw [lookupSeg_updateSeg_ne _ _ hnxa, lookupSeg_updateSeg_ne _ _ hnxr,
    lookupSeg_updateSeg_self, lookupSeg_updateSeg_ne _ _ hnxa]

theorem add_link_after_lookup_other {m0 : Mem} {a r x : Nat} {sr : Seg}
    (hsr : lookupSeg m0 r = some sr) (hxa : x ≠ a) (hxr : x ≠ r)
    (hxnx : ∀ nx, sr.next = some nx → x ≠ nx) :
    lookupSeg (add_link_after m0 a r) x = lookupSeg m0 x := by
  simp only [add_link_after, hsr]
  rw [lookupSeg_updateSeg_ne _ _ hxa, lookupSeg_updateSeg_ne _ _ hxr]
  split
  · rename_i nx hn
    rw [lookupSeg_updateSeg_ne _ _ (hxnx nx hn), lookupSeg_updateSeg_ne _ _ hxa]
  · rw [lookupSeg_updateSeg_ne _ _ hxa]

theorem unlink_shape (m : Mem) (s : Seg) : SameShape (unlink m s) m := by
  simp only [unlink]
  split
  · refine (SameShape_update_ptr _ _ ?_).trans ?_
    · intro t
      exact ⟨rfl, rfl⟩
    · split
      · refine SameShape_update_ptr _ _ ?_
        intro t
        exact ⟨rfl, rfl⟩
      · exact SameShape.refl m
  · split
    · refine SameShape_update_ptr _ _ ?_
      intro t
      exact ⟨rfl, rfl⟩
    · exact SameShape.refl m

theorem unlink_lookup_prev {m : Mem} {s : Seg} {p : Nat}
    (hp : s.prev = some p) (hpnx : ∀ nx, s.next = some nx → nx ≠ p) :
    lookupSeg (unlink m s) p = (lookupSeg m p).map fun t => { t with next := s.next } := by
  simp only [unlink, hp]
  split
  · rename_i nx hn
    rw [lookupSeg_updateSeg_ne _ _ (Ne.symm (hpnx nx hn)), lookupSeg_updateSeg_self]
  · rw [lookupSeg_updateSeg_self]

theorem unlink_lookup_next {m : Mem} {s : Seg} {nx : Nat}
    (hn : s.next = some nx) (hpnx : ∀ p, s.prev = some p → nx ≠ p) :
    lookupSeg (unlink m s) nx = (lookupSeg m nx).map fun t => { t with prev := s.prev } := by
  simp only [unlink, hn]
  split
  · rename_i p hp
    rw [lookupSeg_updateSeg_self, lookupSeg_updateSeg_ne _ _ (hpnx p hp)]
  · rw [lookupSeg_updateSeg_self]

theorem unlink_lookup_other {m : Mem} {s : Seg} {x : Nat}
    (hxp : ∀ p, s.prev = some p → x ≠ p) (hxn : ∀ nx, s.next = some nx → x ≠ nx) :
    lookupSeg (unlink m s) x = lookupSeg m x := by
  simp only [unlink]
  split
  · rename_i nx hn
    split
    · rename_i p hp
      rw [lookupSeg_updateSeg_ne _ _ (hxn nx hn), lookupSeg_updateSeg_ne _ _ (hxp p hp)]
    · rw [lookupSeg_updateSeg_ne _ _ (hxn nx hn)]
  · split
    · rename_i p hp
      rw [lookupSeg_updateSeg_ne _ _ (hxp p hp)]
    · rfl

/-! ## Characterization of `add_to_free_list` -/

theorem add_to_free_list_spec {st : AllocState} {L : List Nat} {a : Nat} {sa : Seg}
    (hchain : FLChain st.mem st.freeHead none L)
    (hsorted : List.Pairwise (· < ·) L)
    (hnotin : a ∉ L)
    (ha : lookupSeg st.mem a = some sa) :
    (add_to_free_list st a).baseInit = st.baseInit ∧
    (add_to_free_list st a).totalRegion = st.totalRegion ∧
    SameShape (add_to_free_list st a).mem
      (updateSeg st.mem a fun t => { t with inUse := false }) ∧
    ∃ L', FLChain (add_to_free_list st a).mem (add_to_free_list st a).freeHead none L' ∧
      List.Pairwise (· < ·) L' ∧ (∀ x, x ∈ L' ↔ x ∈ L ∨ x = a) := by
  have hLm : ∀ x ∈ L, x ≠ a := fun x hx hxa => hnotin (hxa ▸ hx)
  obtain ⟨e, hseg⟩ := hchain
  have hm0a : lookupSeg (updateSeg st.mem a fun t => { t with inUse := false }) a =
      some { sa with inUse := false } := by
    rw [lookupSeg_updateSeg_self, ha]
    rfl
  have hm0ne : ∀ x, x ≠ a →
      lookupSeg (updateSeg st.mem a fun t => { t with inUse := false }) x =
        lookupSeg st.mem x := fun x hx => lookupSeg_updateSeg_ne st.mem _ hx
  have hsegm0 : FLSeg (updateSeg st.mem a fun t => { t with inUse := false })
      st.freeHead none L none e :=
    FLSeg_frame (fun x hx => hm0ne x (hLm x hx)) hseg
  cases hh : st.freeHead with
  | none =>
    have hLnil : L = [] := by
      cases L with
      | nil => rfl
      | cons b rest =>
        rw [hh] at hseg
        exact absurd hseg.1 (by simp)
    subst hLnil
    have hst' : add_to_free_list st a =
        { st with freeHead := some a
                  mem := updateSeg (updateSeg st.mem a fun t => { t with inUse := false }) a
                    fun t => { t with next := none, prev := none } } := by
      simp only [add_to_free_list, hh]
    rw [hst']
    refine ⟨rfl, rfl, ?_, [a], ?_, ?_, ?_⟩
    · refine SameShape_update_ptr _ a ?_
      intro s
      exact ⟨rfl, rfl⟩
    · refine ⟨some a, rfl, { sa with inUse := false, next := none, prev := none }, ?_, rfl, rfl, rfl, rfl⟩
      rw [lookupSeg_updateSeg_self, hm0a]
      rfl
    · simp
    · simp
  | some h0 =>
    have hL : ∃ L₂, L = h0 :: L₂ := by
      cases L with
      | nil =>
        rw [hh] at hseg
        exact absurd hseg.1.symm (by simp)
      | cons b rest =>
        rw [hh] at hseg
        have : some h0 = some b := hseg.1
        injection this with hb
        exact ⟨rest, by rw [hb]⟩
    obtain ⟨L₂, hL⟩ := hL
    subst hL
    have hah0 : a ≠ h0 := fun hq => hnotin (hq ▸ List.mem_cons_self _ _)
    rw [hh] at hsegm0 hseg
    by_cases hah : a < h0
    · -- front insertion: a becomes the new free-list head
      have hst' : add_to_free_list st a =
          { st with freeHead := some a
                    mem := updateSeg
                      (updateSeg (updateSeg st.mem a fun t => { t with inUse := false }) a
                        fun t => { t with next := some h0, prev := none }) h0
                      fun t => { t with prev := some a } } := by
        simp only [add_to_free_list, hh]
        rw [if_pos hah]
      rw [hst']
      obtain ⟨hcur, sh, hsh, hshfree, hshprev, hseg2⟩ := hsegm0
      refine ⟨rfl, rfl, ?_, a :: h0 :: L₂, ?_, ?_, ?_⟩
      · refine (SameShape_update_ptr _ h0 ?_).trans (SameShape_update_ptr _ a ?_)
        · intro s
          exact ⟨rfl, rfl⟩
        · intro s
          exact ⟨rfl, rfl⟩
      · refine ⟨e, rfl,
          { sa with inUse := false, next := some h0, prev := none }, ?_, rfl, rfl, ?_⟩
        · rw [lookupSeg_updateSeg_ne _ _ hah0, lookupSeg_updateSeg_self, hm0a]
          rfl
        · refine ⟨rfl, { sh with prev := some a }, ?_, hshfree, rfl, ?_⟩
          · rw [lookupSeg_updateSeg_self, lookupSeg_updateSeg_ne _ _ (Ne.symm hah0), hsh]
            rfl
          · refine FLSeg_frame (fun x hx => ?_) hseg2
            have hxa : x ≠ a := hLm x (by simp [hx])
            have hxh : x ≠ h0 := by
              rw [List.pairwise_cons] at hsorted
              exact Nat.ne_of_gt (hsorted.1 x hx)
            rw [lookupSeg_updateSeg_ne _ _ hxh, lookupSeg_updateSeg_ne _ _ hxa,
              hm0ne x hxa]
      · rw [List.pairwise_cons]
        refine ⟨?_, hsorted⟩
        intro x hx
        rcases List.mem_cons.mp hx with hx | hx
        · subst hx
          exact hah
        · exact Nat.lt_trans hah ((List.pairwise_cons.mp hsorted).1 x hx)
      · intro x
        simp only [List.mem_cons]
        tauto
    · -- interior insertion driven by the runner walk
      have hh0a : h0 < a := by
        rcases Nat.lt_trichotomy a h0 with h' | h' | h'
        · exact absurd h' hah
        · exact absurd h' hah0
        · exact h'
      have hnd : (h0 :: L₂).Nodup := hsorted.imp fun hlt => Nat.ne_of_lt hlt
      have hfuel : L₂.length <
          (updateSeg st.mem a fun t => { t with inUse := false }).length + 1 := by
        have h1 : (h0 :: L₂).length ≤
            (updateSeg st.mem a fun t => { t with inUse := false }).length :=
          FLChain_length_le ⟨e, hsegm0⟩ hnd
        simp only [List.length_cons] at h1
        omega
      obtain ⟨P, Q, hPQ, hPlt, hrlt, sr, hsr, hQcase⟩ :=
        add_runner_spec hsegm0 hh0a hfuel
      have hst' : add_to_free_list st a =
          { st with mem :=
              (add_link_after (updateSeg st.mem a fun t => { t with inUse := false }) a
                (add_runner (updateSeg st.mem a fun t => { t with inUse := false }) a h0
                  ((updateSeg st.mem a fun t => { t with inUse := false }).length + 1))) } := by
        simp only [add_to_free_list, hh]
        rw [if_neg hah, ← hh]
      rw [hst']
      set m0 := updateSeg st.mem a fun t => { t with inUse := false } with hm0def
      set r := add_runner m0 a h0 (m0.length + 1) with hrdef
      -- distinctness facts
      have har : r ≠ a := Nat.ne_of_lt hrlt
      have hsortP : List.Pairwise (· < ·) (P ++ r :: Q) := hPQ ▸ hsorted
      rw [List.pairwise_append] at hsortP
      obtain ⟨hsP, hsRQ, hcross⟩ := hsortP
      have hrQ : ∀ y ∈ Q, r < y := (List.pairwise_cons.mp hsRQ).1
      have hsQ : List.Pairwise (· < ·) Q := (List.pairwise_cons.mp hsRQ).2
      have haP : ∀ x ∈ P, x ≠ a := by
        intro x hx
        exact hLm x (by rw [hPQ]; simp [hx])
      have haQ : ∀ x ∈ Q, x ≠ a := by
        intro x hx
        exact hLm x (by rw [hPQ]; simp [hx])
      have hnxa : ∀ nx, sr.next = some nx → nx ≠ a := by
        intro nx hn
        rcases hQcase with ⟨hQnil, hnone⟩ | ⟨q, Q2, hQeq, hnq, hqa⟩
        · rw [hnone] at hn
          cases hn
        · rw [hnq] at hn
          injection hn with hq
          subst hq
          exact haQ q (by rw [hQeq]; simp)
      have hnxr : ∀ nx, sr.next = some nx → nx ≠ r := by
        intro nx hn
        rcases hQcase with ⟨hQnil, hnone⟩ | ⟨q, Q2, hQeq, hnq, hqa⟩
        · rw [hnone] at hn
          cases hn
        · rw [hnq] at hn
          injection hn with hq
          subst hq
          exact Nat.ne_of_gt (hrQ q (by rw [hQeq]; simp))
      -- decompose the original chain at the runner
      rw [hPQ] at hsegm0
      obtain ⟨c1, e1, hchainP, hchainRQ⟩ := FLSeg_append.mp hsegm0
      obtain ⟨hc1, sr', hsr', hsrfree, hsrprev, hchainQ⟩ := hchainRQ
      subst hc1
      have hsrsr : sr' = sr := by
        rw [hsr'] at hsr
        injection hsr
      rw [hsrsr] at hsr' hsrfree hsrprev hchainQ
      -- lookups in the new memory
      have hMa : lookupSeg (add_link_after m0 a r) a =
          some { sa with inUse := false, next := sr.next, prev := some r } := by
        rw [add_link_after_lookup_a hsr har hnxa, hm0a]
        rfl
      have hMr : lookupSeg (add_link_after m0 a r) r = some { sr with next := some a } :=
        add_link_after_lookup_r hsr har hnxr
      refine ⟨rfl, rfl, add_link_after_shape m0 a r, P ++ r :: a :: Q, ?_, ?_, ?_⟩
      · -- the new chain
        refine ⟨(if Q = [] then some a else e), ?_⟩
        simp only [hh]
        refine FLSeg_append.mpr ⟨some r, e1, ?_, ?_⟩
        · refine FLSeg_frame (fun x hx => ?_) hchainP
          have hxa : x ≠ a := haP x hx
          have hxr : x ≠ r := Nat.ne_of_lt (hcross x hx r (by simp))
          have hxnx : ∀ nx, sr.next = some nx → x ≠ nx := by
            intro nx hn
            rcases hQcase with ⟨hQnil, hnone⟩ | ⟨q, Q2, hQeq, hnq, hqa⟩
            · rw [hnone] at hn
              cases hn
            · rw [hnq] at hn
              injection hn with hq
              subst hq
              exact Nat.ne_of_lt (hcross x hx q (by rw [hQeq]; simp))
          exact add_link_after_lookup_other hsr hxa hxr hxnx
        · refine ⟨rfl, { sr with next := some a }, hMr, hsrfree, hsrprev, ?_⟩
          refine ⟨rfl, { sa with inUse := false, next := sr.next, prev := some r },
            hMa, rfl, rfl, ?_⟩
          rcases hQcase with ⟨hQnil, hnone⟩ | ⟨q, Q2, hQeq, hnq, hqa⟩
          · subst hQnil
            simp only [if_pos rfl]
            rw [hnone]
            exact ⟨rfl, rfl⟩
          · subst hQeq
            simp only [if_neg (List.cons_ne_nil q Q2)]
            rw [hnq]
            rw [hnq] at hchainQ
            obtain ⟨hcq, sq, hsq, hsqfree, hsqprev, hchainQ2⟩ := hchainQ
            have hqa2 : q ≠ a := haQ q (by simp)
            have hqr : q ≠ r := Nat.ne_of_gt (hrQ q (by simp))
            refine ⟨rfl, { sq with prev := some a }, ?_, hsqfree, rfl, ?_⟩
            · rw [add_link_after_lookup_nx hsr hnq hqa2 hqr, hsq]
              rfl
            · refine FLSeg_frame (fun x hx => ?_) hchainQ2
              have hxa : x ≠ a := haQ x (by simp [hx])
              have hxr : x ≠ r := Nat.ne_of_gt (hrQ x (by simp [hx]))
              have hxq : x ≠ q := by
                rw [List.pairwise_cons] at hsQ
                exact Nat.ne_of_gt (hsQ.1 x hx)
              have hxnx : ∀ nx, sr.next = some nx → x ≠ nx := by
                intro nx hn
                rw [hnq] at hn
                injection hn with hq2
                subst hq2
                exact hxq
              exact add_link_after_lookup_other hsr hxa hxr hxnx
      · -- sortedness of the extended list
        rw [List.pairwise_append]
        refine ⟨hsP, ?_, ?_⟩
        · rw [List.pairwise_cons]
          constructor
          · intro y hy
            rcases List.mem_cons.mp hy with hy | hy
            · subst hy
              exact hrlt
            · exact hrQ y hy
          · rw [List.pairwise_cons]
            constructor
            · intro y hy
              rcases hQcase with ⟨hQnil, hnone⟩ | ⟨q, Q2, hQeq, hnq, hqa⟩
              · subst hQnil
                simp at hy
              · subst hQeq
                rcases List.mem_cons.mp hy with hy | hy
                · subst hy
                  have : y ≠ a := haQ y (by simp)
                  omega
                · have hqy : q < y := (List.pairwise_cons.mp hsQ).1 y hy
                  have : q ≠ a := haQ q (by simp)
                  omega
            · exact hsQ
        · intro x hx y hy
          rcases List.mem_cons.mp hy with hy | hy
          · subst hy
            exact hcross x hx r (by simp)
          rcases List.mem_cons.mp hy with hy | hy
          · subst hy
            exact hPlt x hx
          · exact hcross x hx y (by simp [hy])
      · intro x
        rw [hPQ]
        simp only [List.mem_append, List.mem_cons]
        tauto

/-! ## Characterization of `remove_from_free_list` -/

theorem remove_from_free_list_spec {st : AllocState} {L : List Nat} {a : Nat}
    (hchain : FLChain st.mem st.freeHead none L)
    (hsorted : List.Pairwise (· < ·) L)
    (hmem : a ∈ L) :
    (remove_from_free_list st a).baseInit = st.baseInit ∧
    (remove_from_free_list st a).totalRegion = st.totalRegion ∧
    SameShape (remove_from_free_list st a).mem st.mem ∧
    ∃ L', FLChain (remove_from_free_list st a).mem (remove_from_free_list st a).freeHead none L' ∧
      List.Pairwise (· < ·) L' ∧ (∀ x, x ∈ L' ↔ x ∈ L ∧ x ≠ a) := by
  obtain ⟨L₁, L₂, hL⟩ := List.append_of_mem hmem
  subst hL
  obtain ⟨e, hseg⟩ := hchain
  obtain ⟨c1, e1, hchain1, hchain2⟩ := FLSeg_append.mp hseg
  obtain ⟨hc1, sa, hsa, hsafree, hsaprev, hchainQ⟩ := hchain2
  subst hc1
  -- ordering facts
  have hsorted' := hsorted
  rw [List.pairwise_append] at hsorted'
  obtain ⟨hsL₁, hsAL₂, hcross⟩ := hsorted'
  have haL₂ : ∀ y ∈ L₂, a < y := (List.pairwise_cons.mp hsAL₂).1
  have hsL₂ : List.Pairwise (· < ·) L₂ := (List.pairwise_cons.mp hsAL₂).2
  have hL₁a : ∀ x ∈ L₁, x < a := fun x hx => hcross x hx a (by simp)
  have hL'sorted : List.Pairwise (· < ·) (L₁ ++ L₂) :=
    List.Pairwise.sublist ((List.sublist_cons_of_sublist a (List.Sublist.refl L₂)).append_left L₁) hsorted
  have hL'mem : ∀ x, x ∈ L₁ ++ L₂ ↔ x ∈ L₁ ++ a :: L₂ ∧ x ≠ a := by
    intro x
    simp only [List.mem_append, List.mem_cons]
    constructor
    · rintro (hx | hx)
      · exact ⟨Or.inl hx, Nat.ne_of_lt (hL₁a x hx)⟩
      · exact ⟨Or.inr (Or.inr hx), Nat.ne_of_gt (haL₂ x hx)⟩
    · rintro ⟨(hx | hx | hx), hxa⟩
      · exact Or.inl hx
      · exact absurd hx hxa
      · exact Or.inr hx
  by_cases hL1nil : L₁ = []
  · subst hL1nil
    -- a is the head of the free list
    obtain ⟨hhead, he1⟩ := hchain1
    have hhead' : st.freeHead = some a := hhead.symm
    subst he1
    cases hL₂ : L₂ with
    | nil =>
      subst hL₂
      obtain ⟨hnext, hePrv⟩ := hchainQ
      have hst' : remove_from_free_list st a =
          { st with freeHead := none
                    mem := updateSeg st.mem a fun t => { t with next := none, prev := none } } := by
        simp only [remove_from_free_list, hsa]
        rw [if_pos hhead', ← hnext]
      rw [hst']
      refine ⟨rfl, rfl, ?_, [], ⟨none, rfl, rfl⟩, by simp, by simp⟩
      refine SameShape_update_ptr _ a ?_
      intro s
      exact ⟨rfl, rfl⟩
    | cons h2 L₂' =>
      subst hL₂
      obtain ⟨hnext, sh, hsh, hshfree, hshprev, hchainQ2⟩ := hchainQ
      have hh2a : h2 ≠ a := Nat.ne_of_gt (haL₂ h2 (by simp))
      have hst' : remove_from_free_list st a =
          { st with freeHead := some h2
                    mem := updateSeg (updateSeg st.mem h2 fun t => { t with prev := none }) a
                      fun t => { t with next := none, prev := none } } := by
        simp only [remove_from_free_list, hsa]
        rw [if_pos hhead', hnext]
      rw [hst']
      refine ⟨rfl, rfl, ?_, h2 :: L₂', ?_, hsL₂, ?_⟩
      · refine (SameShape_update_ptr _ a ?_).trans (SameShape_update_ptr _ h2 ?_)
        · intro s
          exact ⟨rfl, rfl⟩
        · intro s
          exact ⟨rfl, rfl⟩
      · refine ⟨e, rfl, { sh with prev := none }, ?_, hshfree, rfl, ?_⟩
        · rw [lookupSeg_updateSeg_ne _ _ hh2a, lookupSeg_updateSeg_self, hsh]
          rfl
        · refine FLSeg_frame (fun x hx => ?_) hchainQ2
          have hxa : x ≠ a := Nat.ne_of_gt (haL₂ x (by simp [hx]))
          have hxh : x ≠ h2 := by
            rw [List.pairwise_cons] at hsL₂
            exact Nat.ne_of_gt (hsL₂.1 x hx)
          rw [lookupSeg_updateSeg_ne _ _ hxa, lookupSeg_updateSeg_ne _ _ hxh]
      · intro x
        have := hL'mem x
        simpa using this
  · -- a is an interior node; its prev is the last element of L₁
    have hlast := FLSeg_last_prv hchain1
    rcases hlast with ⟨hnil, _, _⟩ | ⟨y, hy, he1⟩
    · exact absurd hnil hL1nil
    subst he1
    obtain ⟨L₁'', hL₁''⟩ := exists_append_singleton_of_getLast hy
    have hya : y < a := hL₁a y (by rw [hL₁'']; simp)
    -- split the L₁ chain at its last node y
    rw [hL₁''] at hchain1
    obtain ⟨cY, eY, hchainP, hchainY⟩ := FLSeg_append.mp hchain1
    obtain ⟨hcY, sy, hsy, hsyfree, hsyprev, hchainYnil⟩ := hchainY
    subst hcY
    obtain ⟨hsynext, _⟩ := hchainYnil
    -- the head is not a
    have hheadne : st.freeHead ≠ some a := by
      cases hc12 : L₁'' with
      | nil =>
        rw [hc12] at hchainP
        obtain ⟨hcur, _⟩ := hchainP
        rw [← hcur]
        intro hq
        injection hq with hq2
        exact absurd hq2 (Nat.ne_of_lt hya)
      | cons z zrest =>
        rw [hc12] at hchainP
        obtain ⟨hcur, _⟩ := hchainP
        rw [hcur]
        intro hq
        injection hq with hq2
        refine absurd hq2 (Nat.ne_of_lt (hL₁a z ?_))
        rw [hL₁'', hc12]
        simp
    have hst' : remove_from_free_list st a =
        { st with mem := (updateSeg (unlink st.mem sa) a
            fun t => { t with next := none, prev := none }) } := by
      simp only [remove_from_free_list, hsa]
      rw [if_neg hheadne]
    rw [hst']
    -- lookups after the unlink
    have hyne_next : ∀ nx, sa.next = some nx → nx ≠ y := by
      intro nx hn
      cases L₂ with
      | nil =>
        obtain ⟨hnone, _⟩ := hchainQ
        rw [← hnone] at hn
        cases hn
      | cons h2 L₂' =>
        obtain ⟨hnext, _⟩ := hchainQ
        rw [hnext] at hn
        injection hn with hq
        subst hq
        exact Nat.ne_of_gt (Nat.lt_trans hya (haL₂ h2 (by simp)))
    have hMy : lookupSeg (updateSeg (unlink st.mem sa) a
        fun t => { t with next := none, prev := none }) y =
        some { sy with next := sa.next } := by
      rw [lookupSeg_updateSeg_ne _ _ (Nat.ne_of_lt hya),
        unlink_lookup_prev hsaprev hyne_next, hsy]
      rfl
    refine ⟨rfl, rfl, ?_, L₁ ++ L₂, ?_, hL'sorted, hL'mem⟩
    · refine (SameShape_update_ptr _ a ?_).trans (unlink_shape st.mem sa)
      intro s
      exact ⟨rfl, rfl⟩
    · refine ⟨(if L₂ = [] then some y else e), ?_⟩
      rw [hL₁'', List.append_assoc]
      refine FLSeg_append.mpr ⟨some y, eY, ?_, ?_⟩
      · refine FLSeg_frame (fun x hx => ?_) hchainP
        have hxy : x < y := by
          have := hsL₁
          rw [hL₁'', List.pairwise_append] at this
          exact this.2.2 x hx y (by simp)
        have hxa : x ≠ a := Nat.ne_of_lt (hL₁a x (by rw [hL₁'']; simp [hx]))
        rw [lookupSeg_updateSeg_ne _ _ hxa]
        refine unlink_lookup_other ?_ ?_
        · intro p hp
          rw [hsaprev] at hp
          injection hp with hp'
          subst hp'
          exact Nat.ne_of_lt hxy
        · intro nx hn
          cases L₂ with
          | nil =>
            obtain ⟨hnone, _⟩ := hchainQ
            rw [← hnone] at hn
            cases hn
          | cons h2 L₂' =>
            obtain ⟨hnext, _⟩ := hchainQ
            rw [hnext] at hn
            injection hn with hq
            subst hq
            exact Nat.ne_of_lt (Nat.lt_trans hxy (Nat.lt_trans hya (haL₂ h2 (by simp))))
      · -- node y followed by L₂
        simp only [List.singleton_append]
        refine ⟨rfl, { sy with next := sa.next }, hMy, hsyfree, hsyprev, ?_⟩
        cases hL₂ : L₂ with
        | nil =>
          subst hL₂
          obtain ⟨hnone, _⟩ := hchainQ
          simp only [if_pos rfl]
          rw [← hnone]
          exact ⟨rfl, rfl⟩
        | cons h2 L₂' =>
          subst hL₂
          obtain ⟨hnext, sh, hsh, hshfree, hshprev, hchainQ2⟩ := hchainQ
          simp only [if_neg (List.cons_ne_nil h2 L₂')]
          rw [hnext]
          have hh2a : h2 ≠ a := Nat.ne_of_gt (haL₂ h2 (by simp))
          have hh2y : h2 ≠ y := Nat.ne_of_gt (Nat.lt_trans hya (haL₂ h2 (by simp)))
          refine ⟨rfl, { sh with prev := some y }, ?_, hshfree, ?_, ?_⟩
          · rw [lookupSeg_updateSeg_ne _ _ hh2a,
              unlink_lookup_next hnext ?_, hsh, hsaprev]
            · rfl
            · intro p hp
              rw [hsaprev] at hp
              injection hp with hp'
              subst hp'
              exact hh2y
          · rfl
          · refine FLSeg_frame (fun x hx => ?_) hchainQ2
            have hxa : x ≠ a := Nat.ne_of_gt (haL₂ x (by simp [hx]))
            have hxy : x ≠ y := Nat.ne_of_gt (Nat.lt_trans hya (haL₂ x (by simp [hx])))
            have hxh : x ≠ h2 := by
              rw [List.pairwise_cons] at hsL₂
              exact Nat.ne_of_gt (hsL₂.1 x hx)
            rw [lookupSeg_updateSeg_ne _ _ hxa]
            refine unlink_lookup_other ?_ ?_
            · intro p hp
              rw [hsaprev] at hp
              injection hp with hp'
              subst hp'
              exact hxy
            · intro nx hn
              rw [hnext] at hn
              injection hn with hq
              subst hq
              exact hxh

/-! ## Alignment arithmetic -/

theorem align_value_8_mod (n : Nat) : align_value n 8 % 8 = 0 :=
  Nat.mul_mod_left _ 8

theorem le_align_value_8 (n : Nat) : n ≤ align_value n 8 := by
  have h1 := Nat.div_add_mod (n + 7) 8
  have h2 : (n + 7) % 8 < 8 := Nat.mod_lt _ (by omega)
  simp only [align_value]
  omega

theorem align_value_8_le (n m : Nat) (h : n ≤ m) (hm : m % 8 = 0) :
    align_value n 8 ≤ m := by
  have h1 := Nat.div_add_mod (n + 7) 8
  have h2 : (n + 7) % 8 < 8 := Nat.mod_lt _ (by omega)
  have h3 := Nat.div_add_mod m 8
  simp only [align_value]
  omega

theorem align_value_4096_pos {n : Nat} (h : 0 < n) : 4096 ≤ align_value n 4096 := by
  have h1 := Nat.div_add_mod (n + 4095) 4096
  have h2 : (n + 4095) % 4096 < 4096 := Nat.mod_lt _ (by omega)
  simp only [align_value]
  omega

theorem align_value_4096_mod8 (n : Nat) : align_value n 4096 % 8 = 0 := by
  have h : ((n + 4096 - 1) / 4096) * 4096 = ((n + 4096 - 1) / 4096) * 512 * 8 := by
    ring
  simp only [align_value]
  rw [h]
  exact Nat.mul_mod_left _ 8

theorem hdrSize_le_align (p : Nat) : hdrSize ≤ align_value (hdrSize + p) 8 :=
  Nat.le_trans (Nat.le_add_right _ _) (le_align_value_8 _)

/-! ## More chain and tiling utilities -/

/-- Frame rule for chains through updates that keep the flag and both links
of every node on the chain. -/
theorem FLSeg_frame2 {m m' : Mem} {cur prv cur2 prv2 : Option Nat} {L : List Nat}
    (hsame : ∀ x ∈ L,
      (lookupSeg m' x).map Seg.inUse = (lookupSeg m x).map Seg.inUse ∧
      (lookupSeg m' x).map Seg.prev = (lookupSeg m x).map Seg.prev ∧
      (lookupSeg m' x).map Seg.next = (lookupSeg m x).map Seg.next)
    (h : FLSeg m cur prv L cur2 prv2) : FLSeg m' cur prv L cur2 prv2 := by
  induction L generalizing cur prv with
  | nil => exact h
  | cons a rest ih =>
    obtain ⟨hcur, s, hs, hfree, hprev, h⟩ := h
    obtain ⟨h1, h2, h3⟩ := hsame a (by simp)
    rw [hs] at h1 h2 h3
    cases hl : lookupSeg m' a with
    | none =>
      rw [hl] at h1
      simp at h1
    | some s' =>
      rw [hl] at h1 h2 h3
      simp at h1 h2 h3
      refine ⟨hcur, s', hl, by rw [h1]; exact hfree, by rw [h2]; exact hprev, ?_⟩
      rw [h3]
      exact ih (fun x hx => hsame x (by simp [hx])) h

/-- Every list splits at the first element satisfying `p`, or has none. -/
theorem exists_first_split {α : Type} (p : α → Prop) [DecidablePred p] (L : List α) :
    (∀ x ∈ L, ¬ p x) ∨
      ∃ L₁ x L₂, L = L₁ ++ x :: L₂ ∧ (∀ y ∈ L₁, ¬ p y) ∧ p x := by
  induction L with
  | nil => exact Or.inl (by simp)
  | cons a rest ih =>
    by_cases hp : p a
    · exact Or.inr ⟨[], a, rest, rfl, by simp, hp⟩
    · rcases ih with h | ⟨L₁, x, L₂, hL, h₁, h₂⟩
      · refine Or.inl ?_
        intro x hx
        rcases List.mem_cons.mp hx with hx | hx
        · subst hx
          exact hp
        · exact h x hx
      · refine Or.inr ⟨a :: L₁, x, L₂, by rw [hL]; rfl, ?_, h₂⟩
        intro y hy
        rcases List.mem_cons.mp hy with hy | hy
        · subst hy
          exact hp
        · exact h₁ y hy

/-- In a tiling, physically adjacent entries have abutting extents. -/
theorem Tiles_adjacent_eq {total x : Nat} {m mp mq : Mem} {p q : Nat × Seg}
    (h : Tiles total x m) (hm : m = mp ++ p :: q :: mq) : q.1 = p.1 + p.2.segSize := by
  subst hm
  obtain ⟨y, h₁, h₂⟩ := Tiles_append.mp h
  obtain ⟨c, u⟩ := p
  obtain ⟨d, v⟩ := q
  obtain ⟨hc, hu, h₂⟩ := h₂
  obtain ⟨hd, _, _⟩ := h₂
  simp only
  omega

/-- In a tiling, at most one entry ends at a given live offset `a`. -/
theorem Tiles_pred_unique {total : Nat} {m : Mem} (h : Tiles total 0 m)
    {x t a : Nat} {sx st' sa : Seg}
    (hx : (x, sx) ∈ m) (ht : (t, st') ∈ m) (ha : (a, sa) ∈ m)
    (hxe : x + sx.segSize = a) (hte : t + st'.segSize = a) : x = t := by
  obtain ⟨m₁, m₂, hm1⟩ := Tiles_consecutive h hx ha hxe
  obtain ⟨m₃, m₄, hm2⟩ := Tiles_consecutive h ht ha hte
  have hnd := Tiles_keys_nodup h
  have hm1' : m = (m₁ ++ [(x, sx)]) ++ (a, sa) :: m₂ := by
    rw [hm1]
    simp
  have hm2' : m = (m₃ ++ [(t, st')]) ++ (a, sa) :: m₄ := by
    rw [hm2]
    simp
  obtain ⟨heq, _, _⟩ := split_unique_key hnd hm1' hm2'
  have := congrArg List.getLast? heq
  rw [List.getLast?_concat, List.getLast?_concat] at this
  injection this with this
  exact congrArg Prod.fst this

theorem Tiles_updateSeg {total x a : Nat} {m : Mem} {f : Seg → Seg}
    (hf : ∀ s, (f s).segSize = s.segSize) (h : Tiles total x m) :
    Tiles total x (updateSeg m a f) := by
  induction m generalizing x with
  | nil => exact h
  | cons p rest ih =>
    obtain ⟨b, t⟩ := p
    obtain ⟨hb, ht, h⟩ := h
    by_cases hba : b = a
    · rw [updateSeg_cons, if_pos hba]
      exact ⟨hb, by rw [hf]; exact ht, by rw [hf]; exact ih h⟩
    · rw [updateSeg_cons, if_neg hba]
      exact ⟨hb, ht, ih h⟩

theorem sizesOk_updateSeg {a : Nat} {m : Mem} {f : Seg → Seg}
    (hf : ∀ s, (f s).segSize = s.segSize)
    (h : ∀ p ∈ m, p.2.segSize % 8 = 0 ∧ hdrSize ≤ p.2.segSize) :
    ∀ p ∈ updateSeg m a f, p.2.segSize % 8 = 0 ∧ hdrSize ≤ p.2.segSize := by
  induction m with
  | nil => simp only [updateSeg]; exact h
  | cons p rest ih =>
    obtain ⟨b, t⟩ := p
    intro q hq
    by_cases hba : b = a
    · rw [updateSeg_cons, if_pos hba] at hq
      rcases List.mem_cons.mp hq with hq | hq
      · subst hq
        simp only [hf]
        exact h (b, t) (by simp)
      · exact ih (fun r hr => h r (by simp [hr])) q hq
    · rw [updateSeg_cons, if_neg hba] at hq
      rcases List.mem_cons.mp hq with hq | hq
      · subst hq
        exact h (b, t) (by simp)
      · exact ih (fun r hr => h r (by simp [hr])) q hq

/-- Like `NoAdjFree`, but pairs touching offset `a` are exempt (the state in
the middle of a release, before coalescing finishes). -/
def NoAdjFreeExcept (a : Nat) (m : Mem) : Prop :=
  List.Chain' (fun p q => p.1 = a ∨ q.1 = a ∨ p.2.inUse = true ∨ q.2.inUse = true) m

theorem NoAdjFree.except {m : Mem} (a : Nat) (h : NoAdjFree m) : NoAdjFreeExcept a m := by
  refine List.Chain'.imp ?_ h
  intro p q hpq
  rcases hpq with h' | h'
  · exact Or.inr (Or.inr (Or.inl h'))
  · exact Or.inr (Or.inr (Or.inr h'))

/-- Flipping flags only at offset `a` preserves the exempted invariant. -/
theorem NoAdjFreeExcept_updateSeg {a : Nat} {m : Mem} {f : Seg → Seg}
    (h : NoAdjFreeExcept a m) : NoAdjFreeExcept a (updateSeg m a f) := by
  induction m with
  | nil => exact h
  | cons p rest ih =>
    obtain ⟨b, t⟩ := p
    cases rest with
    | nil =>
      by_cases hba : b = a <;>
        simp [NoAdjFreeExcept, updateSeg_cons, hba, updateSeg]
    | cons q rest' =>
      obtain ⟨c, u⟩ := q
      simp only [NoAdjFreeExcept, List.chain'_cons] at h
      have ih' := ih h.2
      by_cases hba : b = a
      · rw [updateSeg_cons, if_pos hba]
        by_cases hca : c = a
        · rw [updateSeg_cons, if_pos hca] at ih' ⊢
          exact List.chain'_cons.mpr ⟨Or.inl hba, ih'⟩
        · rw [updateSeg_cons, if_neg hca] at ih' ⊢
          exact List.chain'_cons.mpr ⟨Or.inl hba, ih'⟩
      · rw [updateSeg_cons, if_neg hba]
        by_cases hca : c = a
        · rw [updateSeg_cons, if_pos hca] at ih' ⊢
          exact List.chain'_cons.mpr ⟨Or.inr (Or.inl hca), ih'⟩
        · rw [updateSeg_cons, if_neg hca] at ih' ⊢
          exact List.chain'_cons.mpr ⟨h.1, ih'⟩

/-- If no entry is keyed `a`, the exempted invariant is the full one. -/
theorem NoAdjFree_of_except_not_mem {m : Mem} {a : Nat}
    (h : NoAdjFreeExcept a m) (ha : a ∉ segKeys m) : NoAdjFree m := by
  induction m with
  | nil => exact h
  | cons p rest ih =>
    obtain ⟨b, t⟩ := p
    rw [segKeys_cons, List.mem_cons] at ha
    push_neg at ha
    cases rest with
    | nil => exact List.chain'_singleton _
    | cons q rest' =>
      obtain ⟨c, u⟩ := q
      simp only [NoAdjFreeExcept, List.chain'_cons] at h
      simp only [NoAdjFree, List.chain'_cons]
      refine ⟨?_, ih h.2 ha.2⟩
      rcases h.1 with h' | h' | h' | h'
      · exact absurd h'.symm ha.1
      · refine absurd ?_ ha.2
        rw [segKeys_cons, ← h']
        exact List.mem_cons_self _ _
      · exact Or.inl h'
      · exact Or.inr h'

/-- Restore the full invariant at an entry keyed `a` once both neighbours
are known in-use. -/
theorem NoAdjFree_of_except_neighbors {m : Mem} {a : Nat}
    (h : NoAdjFreeExcept a m)
    (hL : ∀ p q mp mq, m = mp ++ p :: q :: mq → q.1 = a → p.2.inUse = true)
    (hR : ∀ p q mp mq, m = mp ++ p :: q :: mq → p.1 = a → q.2.inUse = true) :
    NoAdjFree m := by
  induction m with
  | nil => exact h
  | cons p rest ih =>
    cases rest with
    | nil => exact List.chain'_singleton _
    | cons q rest' =>
      simp only [NoAdjFreeExcept, List.chain'_cons] at h
      simp only [NoAdjFree, List.chain'_cons]
      constructor
      · rcases h.1 with h' | h' | h' | h'
        · exact Or.inr (hR p q [] rest' rfl h')
        · exact Or.inl (hL p q [] rest' rfl h')
        · exact Or.inl h'
        · exact Or.inr h'
      · refine ih h.2 ?_ ?_
        · intro p' q' mp mq hm hq
          exact hL p' q' (p :: mp) mq (by rw [hm]; rfl) hq
        · intro p' q' mp mq hm hp
          exact hR p' q' (p :: mp) mq (by rw [hm]; rfl) hp

/-! ## Splice lemmas on memories with nodup keys -/

theorem nodup_parts {m m₁ m₂ : Mem} {a : Nat} {sa : Seg}
    (hnd : (segKeys m).Nodup) (hm : m = m₁ ++ (a, sa) :: m₂) :
    a ∉ segKeys m₁ ∧ a ∉ segKeys m₂ := by
  subst hm
  rw [segKeys_append, segKeys_cons, List.nodup_append] at hnd
  obtain ⟨h₁, h₂, h₃⟩ := hnd
  rw [List.nodup_cons] at h₂
  exact ⟨fun hmem => h₃ hmem (by simp), h₂.1⟩

theorem updateSeg_splice {m₁ m₂ : Mem} {a : Nat} {sa : Seg} (f : Seg → Seg)
    (h₁ : a ∉ segKeys m₁) (h₂ : a ∉ segKeys m₂) :
    updateSeg (m₁ ++ (a, sa) :: m₂) a f = m₁ ++ (a, f sa) :: m₂ := by
  rw [updateSeg_append, updateSeg_of_not_mem _ _ h₁, updateSeg_cons, if_pos rfl,
    updateSeg_of_not_mem _ _ h₂]

theorem removeSegEntry_splice {m₁ m₂ : Mem} {b : Nat} {ns : Seg}
    (h₁ : b ∉ segKeys m₁) (h₂ : b ∉ segKeys m₂) :
    removeSegEntry (m₁ ++ (b, ns) :: m₂) b = m₁ ++ m₂ := by
  rw [removeSegEntry_append, removeSegEntry_of_not_mem _ h₁, removeSegEntry_cons,
    if_pos rfl, removeSegEntry_of_not_mem _ h₂]

theorem Tiles_absorb {total x a b : Nat} {sa ns : Seg} {m₁ m₂ : Mem}
    (h : Tiles total x (m₁ ++ (a, sa) :: (b, ns) :: m₂)) :
    Tiles total x (m₁ ++ (a, { sa with segSize := sa.segSize + ns.segSize }) :: m₂) := by
  obtain ⟨y, h₁, h₂⟩ := Tiles_append.mp h
  obtain ⟨ha, hsa, h₂⟩ := h₂
  obtain ⟨hb, hns, h₂⟩ := h₂
  refine Tiles_append.mpr ⟨y, h₁, ha, by simp only; omega, ?_⟩
  simp only
  have heq : y + (sa.segSize + ns.segSize) = y + sa.segSize + ns.segSize := by omega
  rw [heq]
  exact h₂

theorem Tiles_split_two {total x a : Nat} {sa s1 s2 : Seg} {m₁ m₂ : Mem}
    (h : Tiles total x (m₁ ++ (a, sa) :: m₂))
    (hsum : s1.segSize + s2.segSize = sa.segSize)
    (h1 : 0 < s1.segSize) (h2 : 0 < s2.segSize) :
    Tiles total x (m₁ ++ (a, s1) :: (a + s1.segSize, s2) :: m₂) := by
  obtain ⟨y, hy, hrest⟩ := Tiles_append.mp h
  obtain ⟨ha, hsa, hrest⟩ := hrest
  refine Tiles_append.mpr ⟨y, hy, ha, h1, ?_⟩
  subst ha
  refine ⟨rfl, h2, ?_⟩
  have : a + s1.segSize + s2.segSize = a + sa.segSize := by omega
  rw [this]
  exact hrest

/-! ## The forward-merge step -/

theorem NoAdjFreeExcept_forall₂ {m σ : Mem} {a : Nat} (h : List.Forall₂ EqShape m σ)
    (hn : NoAdjFreeExcept a σ) : NoAdjFreeExcept a m := by
  induction h with
  | nil => exact hn
  | cons hpq hrest ih =>
    rename_i p q mrest σrest
    cases hrest with
    | nil => exact List.chain'_singleton _
    | cons hpq2 hrest2 =>
      rename_i p2 q2 mrest2 σrest2
      simp only [NoAdjFreeExcept, List.chain'_cons] at hn ⊢
      refine ⟨?_, ih hn.2⟩
      rcases hn.1 with h' | h' | h' | h'
      · exact Or.inl (hpq.1.trans h')
      · exact Or.inr (Or.inl (hpq2.1.trans h'))
      · exact Or.inr (Or.inr (Or.inl (hpq.2.2.trans h')))
      · exact Or.inr (Or.inr (Or.inr (hpq2.2.2.trans h')))

theorem nodup_parts2 {m m₁ m₂ : Mem} {a b : Nat} {sa ns : Seg}
    (hnd : (segKeys m).Nodup) (hm : m = m₁ ++ (a, sa) :: (b, ns) :: m₂) :
    a ∉ segKeys m₁ ∧ a ∉ segKeys m₂ ∧ b ∉ segKeys m₁ ∧ b ∉ segKeys m₂ ∧ a ≠ b := by
  subst hm
  rw [segKeys_append, segKeys_cons, segKeys_cons, List.nodup_append] at hnd
  obtain ⟨h₁, h₂, h₃⟩ := hnd
  rw [List.nodup_cons] at h₂
  obtain ⟨ha2, h₂⟩ := h₂
  rw [List.nodup_cons] at h₂
  obtain ⟨hb2, h₂⟩ := h₂
  refine ⟨fun hmem => h₃ hmem (by simp), ?_, fun hmem => h₃ hmem (by simp), hb2, ?_⟩
  · intro hmem
    exact ha2 (by simp [hmem])
  · intro hab
    exact ha2 (by simp [hab])

theorem SizesOk_absorb {m m₁ m₂ : Mem} {a b : Nat} {sa ns : Seg}
    (hsz : SizesOk m) (hm : m = m₁ ++ (a, sa) :: (b, ns) :: m₂) :
    SizesOk (m₁ ++ (a, { sa with segSize := sa.segSize + ns.segSize }) :: m₂) := by
  intro p hp
  rcases List.mem_append.mp hp with hp | hp
  · exact hsz p (by rw [hm]; exact List.mem_append_left _ hp)
  rcases List.mem_cons.mp hp with hp | hp
  · subst hp
    have h1 := hsz (a, sa) (by rw [hm]; simp)
    have h2 := hsz (b, ns) (by rw [hm]; simp)
    simp only at h1 h2 ⊢
    constructor
    · omega
    · simp only [hdrSize] at h1 h2 ⊢
      omega
  · refine hsz p ?_
    rw [hm]
    refine List.mem_append_right _ ?_
    simp [hp]

theorem absorb_next_spec {st2 : AllocState} {L2 : List Nat} {a b : Nat} {sa2 ns : Seg}
    {m₁ m₂ : Mem}
    (hdec : st2.mem = m₁ ++ (a, sa2) :: (b, ns) :: m₂)
    (htiles : Tiles st2.totalRegion 0 st2.mem)
    (hsz : SizesOk st2.mem)
    (hexc : NoAdjFreeExcept a st2.mem)
    (hrep : FreeListRep st2 L2)
    (hnsfree : ns.inUse = false) :
    (absorb_next st2 a ns b).baseInit = st2.baseInit ∧
    (absorb_next st2 a ns b).totalRegion = st2.totalRegion ∧
    Tiles st2.totalRegion 0 (absorb_next st2 a ns b).mem ∧
    SizesOk (absorb_next st2 a ns b).mem ∧
    NoAdjFreeExcept a (absorb_next st2 a ns b).mem ∧
    (∃ L3, FreeListRep (absorb_next st2 a ns b) L3 ∧ ∀ x, x ∈ L3 ↔ x ∈ L2 ∧ x ≠ b) ∧
    (∀ sa3, lookupSeg (absorb_next st2 a ns b).mem a = some sa3 →
      sa3.inUse = sa2.inUse ∧ sa3.segSize = sa2.segSize + ns.segSize) ∧
    (lookupSeg (absorb_next st2 a ns b).mem a).isSome ∧
    (∀ x, x ≠ a → x ≠ b →
      (lookupSeg (absorb_next st2 a ns b).mem x).map Seg.segSize =
        (lookupSeg st2.mem x).map Seg.segSize ∧
      (lookupSeg (absorb_next st2 a ns b).mem x).map Seg.inUse =
        (lookupSeg st2.mem x).map Seg.inUse) ∧
    lookupSeg (absorb_next st2 a ns b).mem b = none ∧
    (∀ sb, lookupSeg (absorb_next st2 a ns b).mem (a + (sa2.segSize + ns.segSize)) = some sb →
      sb.inUse = true) := by
  obtain ⟨hchain, hsorted, hmemIff⟩ := hrep
  have hnd : (segKeys st2.mem).Nodup := Tiles_keys_nodup htiles
  obtain ⟨ham₁, ham₂, hbm₁, hbm₂, hab⟩ := nodup_parts2 hnd hdec
  have hba : b = a + sa2.segSize := by
    have := Tiles_adjacent_eq htiles hdec
    simpa using this
  have hlkb : lookupSeg st2.mem b = some ns := by
    refine lookupSeg_eq_of_mem hnd ?_
    rw [hdec]
    simp
  have hlka : lookupSeg st2.mem a = some sa2 := by
    refine lookupSeg_eq_of_mem hnd ?_
    rw [hdec]
    simp
  have hbL2 : b ∈ L2 := by
    rw [hmemIff b, hlkb]
    simp [hnsfree]
  -- step 1: unlink the successor from the free list
  obtain ⟨hAbase, hAtotal, hAshape, L3, hAchain, hAsorted, hAmem⟩ :=
    remove_from_free_list_spec ⟨hchain.choose, hchain.choose_spec⟩ hsorted hbL2
  set stA := remove_from_free_list st2 b with hstA
  -- the resulting memory
  have hmem_eq : (absorb_next st2 a ns b).mem =
      removeSegEntry (updateSeg stA.mem a
        fun t => { t with segSize := t.segSize + ns.segSize }) b := rfl
  have hhead_eq : (absorb_next st2 a ns b).freeHead = stA.freeHead := rfl
  have hbase_eq : (absorb_next st2 a ns b).baseInit = stA.baseInit := rfl
  have htot_eq : (absorb_next st2 a ns b).totalRegion = stA.totalRegion := rfl
  -- explicit shape of the new memory
  have haBm₂ : a ∉ segKeys ((b, ns) :: m₂) := by
    rw [segKeys_cons, List.mem_cons]
    push_neg
    exact ⟨hab, ham₂⟩
  have hbM1A : b ∉ segKeys (m₁ ++ [(a, { sa2 with segSize := sa2.segSize + ns.segSize })]) := by
    rw [segKeys_append, List.mem_append]
    push_neg
    refine ⟨hbm₁, ?_⟩
    rw [segKeys_cons, List.mem_cons]
    push_neg
    exact ⟨Ne.symm hab, by simp⟩
  have hsplice : removeSegEntry (updateSeg st2.mem a
      fun t => { t with segSize := t.segSize + ns.segSize }) b =
      m₁ ++ (a, { sa2 with segSize := sa2.segSize + ns.segSize }) :: m₂ := by
    rw [hdec, updateSeg_splice _ ham₁ haBm₂]
    have hassoc : m₁ ++ (a, { sa2 with segSize := sa2.segSize + ns.segSize }) :: (b, ns) :: m₂ =
        (m₁ ++ [(a, { sa2 with segSize := sa2.segSize + ns.segSize })]) ++ (b, ns) :: m₂ := by
      simp
    rw [hassoc, removeSegEntry_splice hbM1A hbm₂]
    simp
  have hMshape : SameShape (absorb_next st2 a ns b).mem
      (m₁ ++ (a, { sa2 with segSize := sa2.segSize + ns.segSize }) :: m₂) := by
    rw [hmem_eq, ← hsplice]
    refine SameShape_remove ?_ b
    refine SameShape_update hAshape a ?_
    intro s s' h1 h2
    constructor
    · simp only [h1]
    · simp only [h2]
  have hσtiles : Tiles st2.totalRegion 0
      (m₁ ++ (a, { sa2 with segSize := sa2.segSize + ns.segSize }) :: m₂) :=
    Tiles_absorb (hdec ▸ htiles)
  have hσnodup : (segKeys (m₁ ++ (a, { sa2 with segSize := sa2.segSize + ns.segSize }) :: m₂)).Nodup :=
    Tiles_keys_nodup hσtiles
  have hf₂ := sameShape_forall₂ hMshape hσnodup
  -- exempted invariant on the new layout
  have hσexc : NoAdjFreeExcept a
      (m₁ ++ (a, { sa2 with segSize := sa2.segSize + ns.segSize }) :: m₂) := by
    have hexc' := hdec ▸ hexc
    rw [NoAdjFreeExcept, List.chain'_append] at hexc' ⊢
    obtain ⟨h1, h2, h3⟩ := hexc'
    refine ⟨h1, ?_, ?_⟩
    · rw [List.chain'_cons']
      exact ⟨fun y hy => Or.inl rfl, h2.tail.tail⟩
    · intro x hx y hy
      rw [List.head?_cons, Option.mem_def, Option.some_inj] at hy
      subst hy
      exact Or.inr (Or.inl rfl)
  -- main conclusions
  refine ⟨by rw [hbase_eq, hAbase], by rw [htot_eq, hAtotal], ?_, ?_, ?_, ?_, ?_, ?_, ?_, ?_, ?_⟩
  · exact Tiles_forall₂ hf₂ hσtiles
  · exact sizesOk_forall₂ hf₂ (SizesOk_absorb hsz hdec)
  · exact NoAdjFreeExcept_forall₂ hf₂ hσexc
  · -- free-list representation
    refine ⟨L3, ⟨?_, hAsorted, ?_⟩, hAmem⟩
    · -- the chain survives: only sizes changed on it, and `b` is gone
      obtain ⟨eA, hsegA⟩ := hAchain
      rw [hmem_eq, hhead_eq]
      refine ⟨eA, FLSeg_frame2 (fun x hx => ?_) hsegA⟩
      have hxb : x ≠ b := ((hAmem x).mp hx).2
      rw [lookupSeg_removeSegEntry_ne _ hxb]
      by_cases hxa : x = a
      · subst hxa
        rw [lookupSeg_updateSeg_self]
        cases lookupSeg stA.mem x with
        | none => exact ⟨rfl, rfl, rfl⟩
        | some s => exact ⟨rfl, rfl, rfl⟩
      · rw [lookupSeg_updateSeg_ne _ _ hxa]
        exact ⟨rfl, rfl, rfl⟩
    · -- membership characterization in the final memory
      intro x
      rw [hAmem x, hmemIff x]
      by_cases hxb : x = b
      · subst hxb
        rw [hmem_eq, lookupSeg_removeSegEntry_self]
        simp [hlkb, hnsfree]
      · rw [hmem_eq, lookupSeg_removeSegEntry_ne _ hxb]
        by_cases hxa : x = a
        · subst hxa
          rw [lookupSeg_updateSeg_self]
          have hflag := (hAshape.2.2) x
          rw [hlka] at hflag
          cases hA : lookupSeg stA.mem x with
          | none =>
            rw [hA] at hflag
            simp at hflag
          | some s =>
            rw [hA] at hflag
            simp at hflag
            simp [hlka, hflag, hxb]
        · have hflag := (hAshape.2.2) x
          rw [lookupSeg_updateSeg_ne _ _ hxa, hflag]
          simp [hxb]
  · -- the enlarged segment
    intro sa3 hsa3
    rw [hmem_eq, lookupSeg_removeSegEntry_ne _ hab,
      lookupSeg_updateSeg_self] at hsa3
    have hsize := (hAshape.2.1) a
    have hflag := (hAshape.2.2) a
    rw [hlka] at hsize hflag
    cases hA : lookupSeg stA.mem a with
    | none =>
      rw [hA] at hsa3
      cases hsa3
    | some s =>
      rw [hA] at hsa3 hsize hflag
      simp at hsize hflag
      injection hsa3 with hsa3
      subst hsa3
      simp [hsize, hflag]
  · -- the entry at a survives
    rw [hmem_eq, lookupSeg_removeSegEntry_ne _ hab, lookupSeg_updateSeg_self]
    have hsize := (hAshape.2.1) a
    rw [hlka] at hsize
    cases hA : lookupSeg stA.mem a with
    | none =>
      rw [hA] at hsize
      simp at hsize
    | some s => simp [hA]
  · -- shape of everything else
    intro x hxa hxb
    rw [hmem_eq, lookupSeg_removeSegEntry_ne _ hxb, lookupSeg_updateSeg_ne _ _ hxa]
    exact ⟨(hAshape.2.1) x, (hAshape.2.2) x⟩
  · rw [hmem_eq, lookupSeg_removeSegEntry_self]
  · -- the new successor, if any, is in use
    intro sb hsb
    have hflag := hMshape.2.2 (a + (sa2.segSize + ns.segSize))
    rw [hsb] at hflag
    cases m₂ with
    | nil =>
      -- the enlarged segment is last: no entry can sit at its end
      exfalso
      obtain ⟨y, hy1, hy2⟩ := Tiles_append.mp hσtiles
      obtain ⟨hay, hpos, hnil⟩ := hy2
      rw [Tiles_nil_iff] at hnil
      have hnil' : y + (sa2.segSize + ns.segSize) = st2.totalRegion := hnil
      have hmem2 : (a + (sa2.segSize + ns.segSize), sb) ∈ (absorb_next st2 a ns b).mem :=
        lookupSeg_mem hsb
      have hb2 := Tiles_key_bounds (Tiles_forall₂ hf₂ hσtiles) hmem2
      have hpos2 := Tiles_mem_pos (Tiles_forall₂ hf₂ hσtiles) hmem2
      have hay' : a = y := hay
      omega
    | cons e m₂' =>
      obtain ⟨c, w⟩ := e
      -- `c` heads m₂ and abuts the enlarged segment
      have hc : c = a + (sa2.segSize + ns.segSize) := by
        have := Tiles_adjacent_eq hσtiles (rfl :
          m₁ ++ (a, { sa2 with segSize := sa2.segSize + ns.segSize }) :: (c, w) :: m₂' =
          m₁ ++ (a, { sa2 with segSize := sa2.segSize + ns.segSize }) :: (c, w) :: m₂')
        simpa using this
      -- `w` is in use by the exempted invariant on the old layout
      have hwin : w.inUse = true := by
        have hexc' := hdec ▸ hexc
        rw [NoAdjFreeExcept, List.chain'_append] at hexc'
        obtain ⟨_, h2, _⟩ := hexc'
        rw [List.chain'_cons, List.chain'_cons] at h2
        have hpair := h2.2.1
        have hca : c ≠ a := by omega
        have hba' : b ≠ a := by omega
        rcases hpair with h' | h' | h' | h'
        · exact absurd h' hba'
        · exact absurd h' hca
        · rw [hnsfree] at h'
          cases h'
        · exact h'
      have hthis : lookupSeg
          (m₁ ++ (a, { sa2 with segSize := sa2.segSize + ns.segSize }) :: (c, w) :: m₂') c =
          some w := by
        refine lookupSeg_eq_of_mem hσnodup ?_
        simp
      have hflagc := hMshape.2.2 c
      rw [hthis] at hflagc
      rw [← hc] at hsb
      rw [hsb] at hflagc
      simp at hflagc
      rw [hflagc]
      exact hwin

/-! ## The backward-merge step -/

theorem merge_backward_spec {st2 : AllocState} {L2 : List Nat} {a p : Nat} {sp sa2 : Seg}
    {n₁ n₂ : Mem}
    (hdec : st2.mem = n₁ ++ (p, sp) :: (a, sa2) :: n₂)
    (htiles : Tiles st2.totalRegion 0 st2.mem)
    (hsz : SizesOk st2.mem)
    (hexc : NoAdjFreeExcept a st2.mem)
    (hrep : FreeListRep st2 L2)
    (hspfree : sp.inUse = false)
    (hsa2free : sa2.inUse = false)
    (hsucc : ∀ e ∈ n₂.head?, e.2.inUse = true) :
    (merge_backward st2 a p).baseInit = st2.baseInit ∧
    (merge_backward st2 a p).totalRegion = st2.totalRegion ∧
    Tiles st2.totalRegion 0 (merge_backward st2 a p).mem ∧
    SizesOk (merge_backward st2 a p).mem ∧
    NoAdjFree (merge_backward st2 a p).mem ∧
    (∃ L5, FreeListRep (merge_backward st2 a p) L5 ∧ ∀ x, x ∈ L5 ↔ x ∈ L2 ∧ x ≠ a) ∧
    lookupSeg (merge_backward st2 a p).mem a = none := by
  obtain ⟨hchain, hsorted, hmemIff⟩ := hrep
  have hnd : (segKeys st2.mem).Nodup := Tiles_keys_nodup htiles
  obtain ⟨hpn₁, hpn₂, han₁, han₂, hpa⟩ := nodup_parts2 hnd hdec
  have hap : a = p + sp.segSize := by
    have := Tiles_adjacent_eq htiles hdec
    simpa using this
  have hlkp : lookupSeg st2.mem p = some sp := by
    refine lookupSeg_eq_of_mem hnd ?_
    rw [hdec]
    simp
  have hlka : lookupSeg st2.mem a = some sa2 := by
    refine lookupSeg_eq_of_mem hnd ?_
    rw [hdec]
    simp
  have hpL2 : p ∈ L2 := by
    rw [hmemIff p, hlkp]
    simp [hspfree]
  have haL2 : a ∈ L2 := by
    rw [hmemIff a, hlka]
    simp [hsa2free]
  -- step 1: unlink p
  obtain ⟨h3base, h3total, h3shape, L3, h3chain, h3sorted, h3mem⟩ :=
    remove_from_free_list_spec hchain hsorted hpL2
  set st3 := remove_from_free_list st2 p with hst3
  -- step 2: unlink a
  have haL3 : a ∈ L3 := (h3mem a).mpr ⟨haL2, Ne.symm hpa⟩
  obtain ⟨h4base, h4total, h4shape, L4, h4chain, h4sorted, h4mem⟩ :=
    remove_from_free_list_spec h3chain h3sorted haL3
  set st4 := remove_from_free_list st3 a with hst4
  have h4shape2 : SameShape st4.mem st2.mem := h4shape.trans h3shape
  -- the recorded size of the vanishing segment
  have haSize : (match lookupSeg st4.mem a with
      | some t => t.segSize
      | none => 0) = sa2.segSize := by
    have hsize := h4shape2.2.1 a
    rw [hlka] at hsize
    cases hA : lookupSeg st4.mem a with
    | none =>
      rw [hA] at hsize
      simp at hsize
    | some s =>
      rw [hA] at hsize
      simp at hsize
      simp [hsize]
  have hmb : merge_backward st2 a p =
      add_to_free_list
        { st4 with mem := removeSegEntry (updateSeg st4.mem p
            fun t => { t with segSize := t.segSize + sa2.segSize }) a } p := by
    simp only [merge_backward]
    rw [← hst3, ← hst4, haSize]
  set st5 := { st4 with mem := removeSegEntry (updateSeg st4.mem p
      fun t => { t with segSize := t.segSize + sa2.segSize }) a } with hst5
  -- facts about st5
  have h5mem_p : lookupSeg st5.mem p =
      (lookupSeg st4.mem p).map fun t => { t with segSize := t.segSize + sa2.segSize } := by
    rw [hst5]
    simp only
    rw [lookupSeg_removeSegEntry_ne _ hpa, lookupSeg_updateSeg_self]
  have h5lkp : ∃ sp5, lookupSeg st5.mem p = some sp5 ∧ sp5.inUse = false ∧
      sp5.segSize = sp.segSize + sa2.segSize := by
    have hsize := h4shape2.2.1 p
    have hflag := h4shape2.2.2 p
    rw [hlkp] at hsize hflag
    cases hA : lookupSeg st4.mem p with
    | none =>
      rw [hA] at hsize
      simp at hsize
    | some s =>
      rw [hA] at hsize hflag
      simp at hsize hflag
      refine ⟨{ s with segSize := s.segSize + sa2.segSize }, ?_, ?_, ?_⟩
      · rw [h5mem_p, hA]
        rfl
      · simp [hflag, hspfree]
      · simp [hsize]
  obtain ⟨sp5, hsp5, hsp5free, hsp5size⟩ := h5lkp
  -- the chain L4 survives into st5
  have h5chain : FLChain st5.mem st5.freeHead none L4 := by
    obtain ⟨e4, hseg4⟩ := h4chain
    refine ⟨e4, FLSeg_frame (fun x hx => ?_) hseg4⟩
    have hxa : x ≠ a := ((h4mem x).mp hx).2
    have hxp : x ≠ p := ((h3mem x).mp ((h4mem x).mp hx).1).2
    rw [hst5]
    simp only
    rw [lookupSeg_removeSegEntry_ne _ hxa, lookupSeg_updateSeg_ne _ _ hxp]
  have hpL4 : p ∉ L4 := fun hm => (((h3mem p).mp ((h4mem p).mp hm).1).2) rfl
  -- step 3: reinsert p
  obtain ⟨h6base, h6total, h6shape, L5, h6chain, h6sorted, h6mem⟩ :=
    add_to_free_list_spec h5chain h4sorted hpL4 hsp5
  -- the explicit final layout
  have haN2 : a ∉ segKeys ((a, sa2) :: n₂) → False := by
    intro h
    exact h (by simp)
  have hsplice : removeSegEntry (updateSeg st2.mem p
      fun t => { t with segSize := t.segSize + sa2.segSize }) a =
      n₁ ++ (p, { sp with segSize := sp.segSize + sa2.segSize }) :: n₂ := by
    have hpA2 : p ∉ segKeys ((a, sa2) :: n₂) := by
      rw [segKeys_cons, List.mem_cons]
      push_neg
      exact ⟨hpa, hpn₂⟩
    rw [hdec, updateSeg_splice _ hpn₁ hpA2]
    have hassoc : n₁ ++ (p, { sp with segSize := sp.segSize + sa2.segSize }) :: (a, sa2) :: n₂ =
        (n₁ ++ [(p, { sp with segSize := sp.segSize + sa2.segSize })]) ++ (a, sa2) :: n₂ := by
      simp
    have haM : a ∉ segKeys (n₁ ++ [(p, { sp with segSize := sp.segSize + sa2.segSize })]) := by
      rw [segKeys_append, List.mem_append]
      push_neg
      refine ⟨han₁, ?_⟩
      rw [segKeys_cons, List.mem_cons]
      push_neg
      exact ⟨Ne.symm hpa, by simp⟩
    rw [hassoc, removeSegEntry_splice haM han₂]
    simp
  have h5shapeσ : SameShape st5.mem
      (n₁ ++ (p, { sp with segSize := sp.segSize + sa2.segSize }) :: n₂) := by
    rw [hst5]
    simp only
    rw [← hsplice]
    refine SameShape_remove ?_ a
    refine SameShape_update h4shape2 p ?_
    intro s s' h1 h2
    constructor
    · simp only [h1]
    · simp only [h2]
  -- final shape: the reinsertion only clears the already-clear flag of p
  have h6shapeσ : SameShape (merge_backward st2 a p).mem
      (updateSeg (n₁ ++ (p, { sp with segSize := sp.segSize + sa2.segSize }) :: n₂) p
        fun t => { t with inUse := false }) := by
    rw [hmb]
    refine SameShape.trans h6shape ?_
    refine SameShape_update h5shapeσ p ?_
    intro s s' h1 h2
    exact ⟨h1, rfl⟩
  have hσ5eq : updateSeg (n₁ ++ (p, { sp with segSize := sp.segSize + sa2.segSize }) :: n₂) p
      (fun t => { t with inUse := false }) =
      n₁ ++ (p, { sp with segSize := sp.segSize + sa2.segSize, inUse := false }) :: n₂ := by
    rw [updateSeg_splice _ hpn₁ hpn₂]
  rw [hσ5eq] at h6shapeσ
  have hσtiles : Tiles st2.totalRegion 0
      (n₁ ++ (p, { sp with segSize := sp.segSize + sa2.segSize, inUse := false }) :: n₂) := by
    have h1 : Tiles st2.totalRegion 0
        (n₁ ++ (p, { sp with segSize := sp.segSize + sa2.segSize }) :: n₂) :=
      Tiles_absorb (hdec ▸ htiles)
    obtain ⟨y, hy1, hy2⟩ := Tiles_append.mp h1
    obtain ⟨hpy, hpos, hrest⟩ := hy2
    exact Tiles_append.mpr ⟨y, hy1, hpy, hpos, hrest⟩
  have hσnodup := Tiles_keys_nodup hσtiles
  have hf₂ := sameShape_forall₂ h6shapeσ hσnodup
  have hσsz : SizesOk
      (n₁ ++ (p, { sp with segSize := sp.segSize + sa2.segSize, inUse := false }) :: n₂) := by
    intro q hq
    rcases List.mem_append.mp hq with hq | hq
    · exact hsz q (by rw [hdec]; exact List.mem_append_left _ hq)
    rcases List.mem_cons.mp hq with hq | hq
    · subst hq
      have h1 := hsz (p, sp) (by rw [hdec]; simp)
      have h2 := hsz (a, sa2) (by rw [hdec]; simp)
      simp only at h1 h2 ⊢
      constructor
      · omega
      · simp only [hdrSize] at h1 h2 ⊢
        omega
    · refine hsz q ?_
      rw [hdec]
      refine List.mem_append_right _ ?_
      simp [hq]
  -- the final memory has no two adjacent free segments at all
  have hσnoadj : NoAdjFree
      (n₁ ++ (p, { sp with segSize := sp.segSize + sa2.segSize, inUse := false }) :: n₂) := by
    have hexc' := hdec ▸ hexc
    rw [NoAdjFreeExcept, List.chain'_append] at hexc'
    obtain ⟨h1, h2, h3⟩ := hexc'
    rw [NoAdjFree, List.chain'_append]
    refine ⟨?_, ?_, ?_⟩
    · -- within n₁ no pair touches a
      refine NoAdjFree_of_except_not_mem h1 han₁
    · rw [List.chain'_cons']
      refine ⟨?_, ?_⟩
      · intro y hy
        right
        exact hsucc y hy
      · -- within n₂ no pair touches a
        refine NoAdjFree_of_except_not_mem h2.tail.tail han₂
    · intro x hx y hy
      rw [List.head?_cons, Option.mem_def, Option.some_inj] at hy
      subst hy
      left
      -- the last entry of n₁ was in use already: its free neighbour p is exempt-free
      have hx' := h3 x hx ((p, sp)) (by rw [List.head?_cons]; rfl)
      have hxmem : x ∈ n₁ := List.mem_of_mem_getLast? hx
      have hxa : x.1 ≠ a := by
        intro hq
        exact han₁ (hq ▸ List.mem_map_of_mem Prod.fst hxmem)
      rcases hx' with h' | h' | h' | h'
      · exact absurd h' hxa
      · exact absurd h' hpa
      · exact h'
      · rw [hspfree] at h'
        cases h'
  refine ⟨?_, ?_, ?_, ?_, ?_, ?_, ?_⟩
  · rw [hmb, h6base, hst5]
    simp only
    rw [h4base, h4total, hst4, hst3] at *
    rw [h3base]
  · rw [hmb, h6total, hst5]
    simp only
    rw [h4total, h3total]
  · exact Tiles_forall₂ hf₂ hσtiles
  · exact sizesOk_forall₂ hf₂ hσsz
  · exact NoAdjFree_forall₂ hf₂ hσnoadj
  · refine ⟨L5, ⟨by rw [hmb] at *; exact h6chain, h6sorted, ?_⟩, ?_⟩
    · -- membership characterization in the final memory
      intro x
      rw [h6mem x, h4mem x, h3mem x]
      by_cases hxp : x = p
      · subst hxp
        have hflag := h6shapeσ.2.2 x
        have hσlk : lookupSeg
            (n₁ ++ (x, { sp with segSize := sp.segSize + sa2.segSize, inUse := false }) :: n₂) x =
            some { sp with segSize := sp.segSize + sa2.segSize, inUse := false } := by
          refine lookupSeg_eq_of_mem hσnodup ?_
          simp
        rw [hσlk] at hflag
        rw [hflag]
        simp
      · by_cases hxa : x = a
        · subst hxa
          have hflag := h6shapeσ.2.2 x
          have hσlk : lookupSeg
              (n₁ ++ (p, { sp with segSize := sp.segSize + sa2.segSize, inUse := false }) :: n₂) x =
              none := by
            cases hq : lookupSeg
                (n₁ ++ (p, { sp with segSize := sp.segSize + sa2.segSize, inUse := false }) :: n₂) x with
            | none => rfl
            | some s =>
              exfalso
              have := mem_keys_of_lookupSeg hq
              rw [segKeys_append, segKeys_cons] at this
              rcases List.mem_append.mp this with h' | h'
              · exact han₁ h'
              rcases List.mem_cons.mp h' with h' | h'
              · exact hpa h'.symm
              · exact han₂ h'
          rw [hσlk] at hflag
          rw [hmb] at *
          cases hq2 : lookupSeg (add_to_free_list st5 p).mem x with
          | none =>
            constructor
            · rintro (⟨⟨-, -⟩, hxx⟩ | hxxp)
              · exact absurd rfl hxx
              · exact absurd hxxp.symm hpa
            · intro hcon
              simp at hcon
          | some s =>
            rw [hq2] at hflag
            simp at hflag
        · have hflag := h6shapeσ.2.2 x
          have hflag2 := h5shapeσ.2.2 x
          have hσeq : lookupSeg
              (n₁ ++ (p, { sp with segSize := sp.segSize + sa2.segSize, inUse := false }) :: n₂) x =
              lookupSeg (n₁ ++ (p, { sp with segSize := sp.segSize + sa2.segSize }) :: n₂) x := by
            conv_lhs => rw [← hσ5eq]
            rw [lookupSeg_updateSeg_ne _ _ hxp]
          rw [hσeq] at hflag
          have hflag3 := h4shape2.2.2 x
          rw [hmb] at *
          rw [hflag, ← hflag2]
          have h5flag : (lookupSeg st5.mem x).map Seg.inUse =
              (lookupSeg st2.mem x).map Seg.inUse := by
            rw [hst5]
            simp only
            rw [lookupSeg_removeSegEntry_ne _ hxa, lookupSeg_updateSeg_ne _ _ hxp]
            exact hflag3
          rw [h5flag, ← hmemIff x]
          constructor
          · rintro (⟨⟨h1, _⟩, _⟩ | h1)
            · exact h1
            · exact absurd h1 hxp
          · intro h1
            exact Or.inl ⟨⟨h1, hxp⟩, hxa⟩
    · intro x
      rw [h6mem x, h4mem x, h3mem x]
      constructor
      · rintro (⟨⟨h1, h2⟩, h3⟩ | h1)
        · exact ⟨h1, h3⟩
        · subst h1
          exact ⟨hpL2, hpa⟩
      · rintro ⟨h1, h2⟩
        by_cases hxp : x = p
        · exact Or.inr hxp
        · exact Or.inl ⟨⟨h1, hxp⟩, h2⟩
  · cases hq : lookupSeg (merge_backward st2 a p).mem a with
    | none => rfl
    | some s =>
      exfalso
      have hk := mem_keys_of_lookupSeg hq
      rw [h6shapeσ.1] at hk
      rw [segKeys_append, segKeys_cons] at hk
      rcases List.mem_append.mp hk with h' | h'
      · exact han₁ h'
      rcases List.mem_cons.mp h' with h' | h'
      · exact hpa h'.symm
      · exact han₂ h'

/-! ## The scan half of merge_adjacent -/

theorem merge_scan_spec {st1 : AllocState} {L1 : List Nat} {a : Nat} {sa1 : Seg} {u₁ u₂ : Mem}
    (hdec : st1.mem = u₁ ++ (a, sa1) :: u₂)
    (htiles : Tiles st1.totalRegion 0 st1.mem)
    (hsz : SizesOk st1.mem)
    (hexc : NoAdjFreeExcept a st1.mem)
    (hrep : FreeListRep st1 L1)
    (hsafree : sa1.inUse = false)
    (hsucc : ∀ e ∈ u₂.head?, e.2.inUse = true) :
    (merge_scan st1 a).1.baseInit = st1.baseInit ∧
    (merge_scan st1 a).1.totalRegion = st1.totalRegion ∧
    Tiles st1.totalRegion 0 (merge_scan st1 a).1.mem ∧
    SizesOk (merge_scan st1 a).1.mem ∧
    NoAdjFree (merge_scan st1 a).1.mem ∧
    (∃ L5, FreeListRep (merge_scan st1 a).1 L5) ∧
    (∀ s9, lookupSeg (merge_scan st1 a).1.mem a = some s9 → s9.inUse = false) ∧
    ((∀ e ∈ u₁.getLast?, e.2.inUse = true) → merge_scan st1 a = (st1, a)) := by
  have hnd : (segKeys st1.mem).Nodup := Tiles_keys_nodup htiles
  obtain ⟨hchain, hsorted, hmemIff⟩ := hrep
  have hndL : L1.Nodup := hsorted.imp fun hlt => Nat.ne_of_lt hlt
  have hfuel : L1.length < st1.mem.length + 1 := by
    have := FLChain_length_le hchain hndL
    omega
  have hmem_a : (a, sa1) ∈ st1.mem := by
    rw [hdec]
    simp
  cases hy : u₁.getLast? with
  | none =>
    -- the freed segment heads the region: it has no address-predecessor
    have hu₁ : u₁ = [] := List.getLast?_eq_none_iff.mp hy
    subst hu₁
    rw [List.nil_append] at hdec
    have ha0 : a = 0 := by
      have := hdec ▸ htiles
      exact this.1
    have hmiss : ∀ x ∈ L1, ∀ s, lookupSeg st1.mem x = some s → x + s.segSize ≠ a := by
      intro x hx s hs hxe
      have hpos := Tiles_mem_pos htiles (lookupSeg_mem hs)
      omega
    obtain ⟨e, hseg⟩ := hchain
    have hscan : scanPrev st1.mem a st1.freeHead (st1.mem.length + 1) = none :=
      scanPrev_none hseg hfuel hmiss
    have hms : merge_scan st1 a = (st1, a) := by
      simp only [merge_scan, hscan]
    have hnoadj : NoAdjFree st1.mem := by
      refine NoAdjFree_of_except_neighbors hexc ?_ ?_
      · intro pp qq mp mq hm hq
        obtain ⟨qa, qs⟩ := qq
        simp only at hq
        rw [hq] at hm
        have hm' : st1.mem = (mp ++ [pp]) ++ (a, qs) :: mq := by
          rw [hm]
          simp
        obtain ⟨h1, _, _⟩ := split_unique_key hnd hm'
          (show st1.mem = [] ++ (a, sa1) :: u₂ by rw [hdec]; rfl)
        exact absurd h1 (by simp)
      · intro pp qq mp mq hm hp
        obtain ⟨pa, ps⟩ := pp
        simp only at hp
        rw [hp] at hm
        have hm' : st1.mem = mp ++ (a, ps) :: qq :: mq := hm
        obtain ⟨h1, h2, h3⟩ := split_unique_key hnd hm'
          (show st1.mem = [] ++ (a, sa1) :: u₂ by rw [hdec]; rfl)
        refine hsucc qq ?_
        rw [← h3]
        rfl
    rw [hms]
    have hlka1 : lookupSeg st1.mem a = some sa1 := lookupSeg_eq_of_mem hnd hmem_a
    exact ⟨rfl, rfl, htiles, hsz, hnoadj, ⟨L1, ⟨e, hseg⟩, hsorted, hmemIff⟩,
      fun s9 hs9 => by rw [hlka1] at hs9; cases hs9; exact hsafree,
      fun _ => rfl⟩
  | some y =>
    obtain ⟨t, s_t⟩ := y
    obtain ⟨n₁, hn₁⟩ := exists_append_singleton_of_getLast hy
    have hdec2 : st1.mem = n₁ ++ (t, s_t) :: (a, sa1) :: u₂ := by
      rw [hdec, hn₁]
      simp
    have hta : a = t + s_t.segSize := by
      have := Tiles_adjacent_eq htiles hdec2
      simpa using this
    have hlkt : lookupSeg st1.mem t = some s_t := by
      refine lookupSeg_eq_of_mem hnd ?_
      rw [hdec2]
      simp
    have hpredu : ∀ x s, lookupSeg st1.mem x = some s → x + s.segSize = a → x = t := by
      intro x s hx hxe
      exact Tiles_pred_unique htiles (lookupSeg_mem hx)
        (by rw [hdec2]; simp : (t, s_t) ∈ st1.mem) hmem_a hxe (by omega)
    by_cases hts : s_t.inUse = false
    · -- the scan finds the free predecessor and the two segments merge
      have htL1 : t ∈ L1 := by
        rw [hmemIff t, hlkt]
        simp [hts]
      rcases exists_first_split
          (fun x => ∃ s, lookupSeg st1.mem x = some s ∧ x + s.segSize = a) L1 with
        hall | ⟨P, x0, Q, hPQ, hPmiss, hx0⟩
      · exact absurd ⟨s_t, hlkt, by omega⟩ (hall t htL1)
      · obtain ⟨sx0, hsx0, hx0e⟩ := hx0
        have hx0t : x0 = t := hpredu x0 sx0 hsx0 hx0e
        subst hx0t
        have hchain' : FLChain st1.mem st1.freeHead none L1 := hchain
        obtain ⟨e, hseg⟩ := hchain
        rw [hPQ] at hseg
        have hscan : scanPrev st1.mem a st1.freeHead (st1.mem.length + 1) = some x0 := by
          refine scanPrev_found hseg ?_ ?_ ?_
          · rw [← hPQ]
            exact hfuel
          · intro x hx s hs hxe
            exact hPmiss x hx ⟨s, hs, hxe⟩
          · intro s hs
            rw [hlkt] at hs
            cases hs
            omega
        have hms : merge_scan st1 a = (merge_backward st1 a x0, x0) := by
          simp only [merge_scan, hscan]
        obtain ⟨mb1, mb2, mb3, mb4, mb5, ⟨L5, mb6, mb6m⟩, mbnone⟩ :=
          merge_backward_spec hdec2 htiles hsz hexc ⟨hchain', hsorted, hmemIff⟩
            hts hsafree hsucc
        rw [hms]
        refine ⟨mb1, mb2, mb3, mb4, mb5, ⟨L5, mb6⟩, ?_, ?_⟩
        · intro s9 hs9
          rw [mbnone] at hs9
          cases hs9
        · intro hpred
          have hcon := hpred (x0, s_t) rfl
          rw [hts] at hcon
          simp at hcon
    · -- the address-predecessor is in use: the scan comes back empty
      have hts' : s_t.inUse = true := by
        revert hts
        cases s_t.inUse <;> simp
      have hmiss : ∀ x ∈ L1, ∀ s, lookupSeg st1.mem x = some s → x + s.segSize ≠ a := by
        intro x hx s hs hxe
        have hxt := hpredu x s hs hxe
        subst hxt
        have hfree := (hmemIff x).mp hx
        rw [hlkt] at hs hfree
        cases hs
        simp at hfree
        exact hts hfree
      obtain ⟨e, hseg⟩ := hchain
      have hscan : scanPrev st1.mem a st1.freeHead (st1.mem.length + 1) = none :=
        scanPrev_none hseg hfuel hmiss
      have hms : merge_scan st1 a = (st1, a) := by
        simp only [merge_scan, hscan]
      have hnoadj : NoAdjFree st1.mem := by
        refine NoAdjFree_of_except_neighbors hexc ?_ ?_
        · intro pp qq mp mq hm hq
          obtain ⟨qa, qs⟩ := qq
          simp only at hq
          rw [hq] at hm
          have hm' : st1.mem = (mp ++ [pp]) ++ (a, qs) :: mq := by
            rw [hm]
            simp
          have hdec' : st1.mem = (n₁ ++ [(t, s_t)]) ++ (a, sa1) :: u₂ := by
            rw [hdec2]
            simp
          obtain ⟨h1, _, _⟩ := split_unique_key hnd hm' hdec'
          have hlast := congrArg List.getLast? h1
          rw [List.getLast?_concat, List.getLast?_concat] at hlast
          injection hlast with hlast
          rw [hlast]
          exact hts'
        · intro pp qq mp mq hm hp
          obtain ⟨pa, ps⟩ := pp
          simp only at hp
          rw [hp] at hm
          have hm' : st1.mem = mp ++ (a, ps) :: qq :: mq := hm
          obtain ⟨h1, h2, h3⟩ := split_unique_key hnd hm' hdec
          refine hsucc qq ?_
          rw [← h3]
          rfl
      rw [hms]
      have hlka1 : lookupSeg st1.mem a = some sa1 := lookupSeg_eq_of_mem hnd hmem_a
      exact ⟨rfl, rfl, htiles, hsz, hnoadj, ⟨L1, ⟨e, hseg⟩, hsorted, hmemIff⟩,
        fun s9 hs9 => by rw [hlka1] at hs9; cases hs9; exact hsafree,
        fun _ => rfl⟩

/-- If all sizes and flags below `a` agree between two tiled memories that
both carry an entry at `a`, an in-use physical predecessor of `a` in the
first memory forces the physical predecessor in the second to be in use. -/
theorem pred_last_transfer {st st1 : AllocState} {a : Nat} {sa sa1 : Seg}
    {m₁ m₂ u₁ u₂ : Mem}
    (hdec : st.mem = m₁ ++ (a, sa) :: m₂)
    (htiles : Tiles st.totalRegion 0 st.mem)
    (hdec1 : st1.mem = u₁ ++ (a, sa1) :: u₂)
    (htiles1 : Tiles st1.totalRegion 0 st1.mem)
    (hmaps : ∀ x, x < a →
      (lookupSeg st1.mem x).map Seg.segSize = (lookupSeg st.mem x).map Seg.segSize ∧
      (lookupSeg st1.mem x).map Seg.inUse = (lookupSeg st.mem x).map Seg.inUse)
    (hpred : ∀ e ∈ m₁.getLast?, e.2.inUse = true) :
    ∀ e ∈ u₁.getLast?, e.2.inUse = true := by
  intro e he
  obtain ⟨t, s_t⟩ := e
  obtain ⟨n₁, hn₁⟩ := exists_append_singleton_of_getLast he
  have hdec2 : st1.mem = n₁ ++ (t, s_t) :: (a, sa1) :: u₂ := by
    rw [hdec1, hn₁]
    simp
  have hnd1 : (segKeys st1.mem).Nodup := Tiles_keys_nodup htiles1
  have hta : a = t + s_t.segSize := by
    have := Tiles_adjacent_eq htiles1 hdec2
    simpa using this
  have hmem1 : (t, s_t) ∈ st1.mem := by
    rw [hdec2]
    simp
  have hpos : 0 < s_t.segSize := Tiles_mem_pos htiles1 hmem1
  have hlk1 : lookupSeg st1.mem t = some s_t := lookupSeg_eq_of_mem hnd1 hmem1
  obtain ⟨hmapsz, hmapfl⟩ := hmaps t (by omega)
  rw [hlk1] at hmapsz hmapfl
  cases hlk0 : lookupSeg st.mem t with
  | none =>
    rw [hlk0] at hmapsz
    simp at hmapsz
  | some s0 =>
    rw [hlk0] at hmapsz hmapfl
    simp at hmapsz hmapfl
    have hmem0 : (t, s0) ∈ st.mem := lookupSeg_mem hlk0
    have hmema : (a, sa) ∈ st.mem := by
      rw [hdec]
      simp
    obtain ⟨w₁, w₂, hw⟩ := Tiles_consecutive htiles hmem0 hmema (by omega)
    have hw' : st.mem = (w₁ ++ [(t, s0)]) ++ (a, sa) :: w₂ := by
      rw [hw]
      simp
    obtain ⟨h1, _, _⟩ := split_unique_key (Tiles_keys_nodup htiles) hw' hdec
    have hlast := congrArg List.getLast? h1
    rw [List.getLast?_concat] at hlast
    have := hpred (t, s0) (by rw [← hlast]; rfl)
    simp only at this ⊢
    rw [hmapfl, this]

/-! ## merge_adjacent -/

theorem merge_adjacent_spec {st : AllocState} {L : List Nat} {a : Nat} {sa : Seg}
    {m₁ m₂ : Mem}
    (hdec : st.mem = m₁ ++ (a, sa) :: m₂)
    (htiles : Tiles st.totalRegion 0 st.mem)
    (hsz : SizesOk st.mem)
    (hexc : NoAdjFreeExcept a st.mem)
    (hrep : FreeListRep st L)
    (hsafree : sa.inUse = false) :
    (merge_adjacent st a).1.baseInit = st.baseInit ∧
    (merge_adjacent st a).1.totalRegion = st.totalRegion ∧
    Tiles st.totalRegion 0 (merge_adjacent st a).1.mem ∧
    SizesOk (merge_adjacent st a).1.mem ∧
    NoAdjFree (merge_adjacent st a).1.mem ∧
    (∃ L5, FreeListRep (merge_adjacent st a).1 L5) ∧
    (∀ s9, lookupSeg (merge_adjacent st a).1.mem a = some s9 → s9.inUse = false) ∧
    ((∀ e ∈ m₁.getLast?, e.2.inUse = true) →
      ((merge_adjacent st a).2 = a ∧
        ∃ L5 sr, FreeListRep (merge_adjacent st a).1 L5 ∧ a ∈ L5 ∧
          lookupSeg (merge_adjacent st a).1.mem a = some sr ∧ sr.inUse = false ∧
          sa.segSize ≤ sr.segSize ∧
          ∀ x, x < a →
            ((lookupSeg (merge_adjacent st a).1.mem x).map Seg.segSize =
                (lookupSeg st.mem x).map Seg.segSize ∧
              (lookupSeg (merge_adjacent st a).1.mem x).map Seg.inUse =
                (lookupSeg st.mem x).map Seg.inUse ∧
              (x ∈ L5 ↔ x ∈ L)))) := by
  have hnd : (segKeys st.mem).Nodup := Tiles_keys_nodup htiles
  have hlka : lookupSeg st.mem a = some sa := by
    refine lookupSeg_eq_of_mem hnd ?_
    rw [hdec]
    simp
  have haL : a ∈ L := by
    rw [hrep.2.2 a, hlka]
    simp [hsafree]
  cases m₂ with
  | nil =>
    -- the freed segment reaches the end of the region: no forward merge
    have hend : a + sa.segSize = st.totalRegion := by
      have h1 := hdec ▸ htiles
      obtain ⟨y, hy1, hy2⟩ := Tiles_append.mp h1
      obtain ⟨hya, _, hy3⟩ := hy2
      rw [Tiles_nil_iff] at hy3
      omega
    have hcond : ¬ a + sa.segSize < st.totalRegion := by omega
    have hEq : merge_adjacent st a = merge_scan st a := by
      simp only [merge_adjacent, hlka]
      rw [if_neg hcond]
    obtain ⟨ms1, ms2, ms3, ms4, ms5, ms6, msA, ms7⟩ :=
      merge_scan_spec hdec htiles hsz hexc hrep hsafree (by simp)
    rw [hEq]
    refine ⟨ms1, ms2, ms3, ms4, ms5, ms6, msA, ?_⟩
    intro hpred
    have hms := ms7 hpred
    rw [hms]
    exact ⟨rfl, L, sa, hrep, haL, hlka, hsafree, le_refl _,
      fun x _ => ⟨rfl, rfl, Iff.rfl⟩⟩
  | cons q m₂x =>
    obtain ⟨b, ns⟩ := q
    have hba : b = a + sa.segSize := by
      have := Tiles_adjacent_eq htiles hdec
      simpa using this
    have hmemb : (b, ns) ∈ st.mem := by
      rw [hdec]
      simp
    have hblt : b < st.totalRegion := by
      have h1 := (Tiles_key_bounds htiles hmemb).2
      have h2 := Tiles_mem_pos htiles hmemb
      omega
    have hcond : a + sa.segSize < st.totalRegion := by omega
    have hlkb : lookupSeg st.mem (a + sa.segSize) = some ns := by
      rw [← hba]
      exact lookupSeg_eq_of_mem hnd hmemb
    by_cases hns : ns.inUse = false
    · -- forward merge fires
      have hEq : merge_adjacent st a = merge_scan (absorb_next st a ns (a + sa.segSize)) a := by
        simp only [merge_adjacent, hlka]
        rw [if_pos hcond]
        simp only [hlkb]
        rw [if_pos hns]
      have hdecA : st.mem = m₁ ++ (a, sa) :: (b, ns) :: m₂x := hdec
      rw [hba] at hdecA
      obtain ⟨ab1, ab2, ab3, ab4, ab5, ⟨L3, ab6, ab6m⟩, ab7, ab8, ab9, ab10, ab11⟩ :=
        absorb_next_spec hdecA htiles hsz hexc hrep hns
      set st1 := absorb_next st a ns (a + sa.segSize) with hst1
      have hnd1 : (segKeys st1.mem).Nodup := Tiles_keys_nodup ab3
      obtain ⟨sa1, hlka1⟩ := Option.isSome_iff_exists.mp ab8
      obtain ⟨hfl1, hsz1⟩ := ab7 sa1 hlka1
      obtain ⟨u₁, u₂, hdec1, hu₁, hu₂⟩ := split_at_key hnd1 hlka1
      have htiles1 : Tiles st1.totalRegion 0 st1.mem := by
        rw [ab2]
        exact ab3
      have hsucc1 : ∀ e ∈ u₂.head?, e.2.inUse = true := by
        intro e he
        cases hu2c : u₂ with
        | nil =>
          rw [hu2c] at he
          simp at he
        | cons e0 u₂x =>
          rw [hu2c] at he
          rw [List.head?_cons, Option.mem_def, Option.some_inj] at he
          subst he
          have hdece : st1.mem = u₁ ++ (a, sa1) :: e0 :: u₂x := by
            rw [hdec1, hu2c]
          have hekey : e0.1 = a + sa1.segSize := by
            have := Tiles_adjacent_eq ab3 hdece
            simpa using this
          have hlke : lookupSeg st1.mem e0.1 = some e0.2 := by
            refine lookupSeg_eq_of_mem hnd1 ?_
            rw [hdece]
            simp
          refine ab11 e0.2 ?_
          rw [← hsz1, ← hekey]
          exact hlke
      obtain ⟨ms1, ms2, ms3, ms4, ms5, ms6, msA, ms7⟩ :=
        merge_scan_spec hdec1 htiles1 (fun p hp => ab4 p hp) ab5 ab6 (hfl1.trans hsafree)
          hsucc1
      rw [hEq]
      have hmaps : ∀ x, x < a →
          (lookupSeg st1.mem x).map Seg.segSize = (lookupSeg st.mem x).map Seg.segSize ∧
          (lookupSeg st1.mem x).map Seg.inUse = (lookupSeg st.mem x).map Seg.inUse := by
        intro x hx
        exact ab9 x (by omega) (by omega)
      refine ⟨ms1.trans ab1, by rw [ms2, ab2], by rw [← ab2]; exact ms3, ms4, ms5, ms6, msA, ?_⟩
      intro hpred
      have hpred1 : ∀ e ∈ u₁.getLast?, e.2.inUse = true :=
        pred_last_transfer hdec htiles hdec1 htiles1 hmaps hpred
      have hms := ms7 hpred1
      rw [hms]
      refine ⟨rfl, L3, sa1, ab6, ?_, hlka1, hfl1.trans hsafree, by omega, ?_⟩
      · rw [ab6.2.2 a, hlka1]
        simp [hfl1, hsafree]
      · intro x hx
        obtain ⟨hm1, hm2⟩ := hmaps x hx
        refine ⟨hm1, hm2, ?_⟩
        rw [ab6m x]
        constructor
        · rintro ⟨h1, _⟩
          exact h1
        · intro h1
          exact ⟨h1, by omega⟩
    · -- the physical successor is in use: no forward merge
      have hEq : merge_adjacent st a = merge_scan st a := by
        simp only [merge_adjacent, hlka]
        rw [if_pos hcond]
        simp only [hlkb]
        rw [if_neg hns]
      have hsucc : ∀ e ∈ ((b, ns) :: m₂x).head?, e.2.inUse = true := by
        intro e he
        rw [List.head?_cons, Option.mem_def, Option.some_inj] at he
        rw [← he]
        simp only
        revert hns
        cases ns.inUse <;> simp
      obtain ⟨ms1, ms2, ms3, ms4, ms5, ms6, msA, ms7⟩ :=
        merge_scan_spec hdec htiles hsz hexc hrep hsafree hsucc
      rw [hEq]
      refine ⟨ms1, ms2, ms3, ms4, ms5, ms6, msA, ?_⟩
      intro hpred
      have hms := ms7 hpred
      rw [hms]
      exact ⟨rfl, L, sa, hrep, haL, hlka, hsafree, le_refl _,
        fun x _ => ⟨rfl, rfl, Iff.rfl⟩⟩

/-! ## sfree -/

theorem sfree_eq_merge {st : AllocState} {a : Nat} {s : Seg}
    (hinit : st.baseInit = true)
    (hlka : lookupSeg st.mem a = some s)
    (hinuse : s.inUse = true) :
    sfree st (some (a + hdrSize)) = (merge_adjacent (add_to_free_list st a) a).1 := by
  simp only [sfree, hinit]
  rw [if_neg (by simp)]
  rw [if_neg (show ¬ a + hdrSize < hdrSize by omega)]
  simp only [Nat.add_sub_cancel, hlka]
  rw [if_neg (by simp [hinuse])]

theorem sfree_live_spec {st : AllocState} {L : List Nat} {a : Nat} {s : Seg}
    (htiles : Tiles st.totalRegion 0 st.mem)
    (hsz : SizesOk st.mem)
    (hnoadj : NoAdjFree st.mem)
    (hrep : FreeListRep st L)
    (hlka : lookupSeg st.mem a = some s)
    (hinuse : s.inUse = true) :
    (merge_adjacent (add_to_free_list st a) a).1.baseInit = st.baseInit ∧
    (merge_adjacent (add_to_free_list st a) a).1.totalRegion = st.totalRegion ∧
    Tiles st.totalRegion 0 (merge_adjacent (add_to_free_list st a) a).1.mem ∧
    SizesOk (merge_adjacent (add_to_free_list st a) a).1.mem ∧
    NoAdjFree (merge_adjacent (add_to_free_list st a) a).1.mem ∧
    (∃ L5, FreeListRep (merge_adjacent (add_to_free_list st a) a).1 L5) ∧
    (∀ s9, lookupSeg (merge_adjacent (add_to_free_list st a) a).1.mem a = some s9 →
      s9.inUse = false) ∧
    ((∀ t s_t, lookupSeg st.mem t = some s_t → t + s_t.segSize = a → s_t.inUse = true) →
      ∃ L5 sr, FreeListRep (merge_adjacent (add_to_free_list st a) a).1 L5 ∧ a ∈ L5 ∧
        lookupSeg (merge_adjacent (add_to_free_list st a) a).1.mem a = some sr ∧
        sr.inUse = false ∧ s.segSize ≤ sr.segSize ∧
        ∀ x, x < a →
          ((lookupSeg (merge_adjacent (add_to_free_list st a) a).1.mem x).map Seg.segSize =
              (lookupSeg st.mem x).map Seg.segSize ∧
            (lookupSeg (merge_adjacent (add_to_free_list st a) a).1.mem x).map Seg.inUse =
              (lookupSeg st.mem x).map Seg.inUse ∧
            (x ∈ L5 ↔ x ∈ L))) := by
  obtain ⟨hchain, hsorted, hmemIff⟩ := hrep
  have hnotin : a ∉ L := by
    intro h
    have := (hmemIff a).mp h
    rw [hlka] at this
    simp [hinuse] at this
  obtain ⟨ad1, ad2, ad3, L1, ad4, ad5, ad6⟩ :=
    add_to_free_list_spec hchain hsorted hnotin hlka
  set st1 := add_to_free_list st a with hst1
  have hσa : lookupSeg (updateSeg st.mem a fun t => { t with inUse := false }) a =
      some { s with inUse := false } := by
    rw [lookupSeg_updateSeg_self, hlka]
    rfl
  have hσne : ∀ x, x ≠ a →
      lookupSeg (updateSeg st.mem a fun t => { t with inUse := false }) x =
        lookupSeg st.mem x := fun x hx => lookupSeg_updateSeg_ne st.mem _ hx
  have htilesσ : Tiles st.totalRegion 0
      (updateSeg st.mem a fun t => { t with inUse := false }) :=
    Tiles_updateSeg (fun _ => rfl) htiles
  have hszσ : SizesOk (updateSeg st.mem a fun t => { t with inUse := false }) :=
    sizesOk_updateSeg (fun _ => rfl) hsz
  have hexcσ : NoAdjFreeExcept a (updateSeg st.mem a fun t => { t with inUse := false }) :=
    NoAdjFreeExcept_updateSeg (hnoadj.except a)
  have hndσ := Tiles_keys_nodup htilesσ
  have hf₂ := sameShape_forall₂ ad3 hndσ
  have htiles1 : Tiles st.totalRegion 0 st1.mem := Tiles_forall₂ hf₂ htilesσ
  have hsz1 : SizesOk st1.mem := sizesOk_forall₂ hf₂ hszσ
  have hexc1 : NoAdjFreeExcept a st1.mem := NoAdjFreeExcept_forall₂ hf₂ hexcσ
  have hnd1 : (segKeys st1.mem).Nodup := Tiles_keys_nodup htiles1
  have hflag1 := ad3.2.2
  have hsize1 := ad3.2.1
  have hmaps1 : ∀ x, x ≠ a →
      (lookupSeg st1.mem x).map Seg.segSize = (lookupSeg st.mem x).map Seg.segSize ∧
      (lookupSeg st1.mem x).map Seg.inUse = (lookupSeg st.mem x).map Seg.inUse := by
    intro x hx
    refine ⟨?_, ?_⟩
    · rw [hsize1 x, hσne x hx]
    · rw [hflag1 x, hσne x hx]
  have hrep1 : FreeListRep st1 L1 := by
    refine ⟨ad4, ad5, ?_⟩
    intro x
    rw [ad6 x]
    by_cases hx : x = a
    · subst hx
      rw [hflag1 x, hσa]
      simp
    · rw [(hmaps1 x hx).2, ← hmemIff x]
      simp [hx]
  have hlka1x : (lookupSeg st1.mem a).map Seg.inUse = some false := by
    rw [hflag1 a, hσa]
    rfl
  obtain ⟨sa1, hlka1, hsa1free⟩ := freeFlagIff.mp hlka1x
  have hsa1size : sa1.segSize = s.segSize := by
    have := hsize1 a
    rw [hσa, hlka1] at this
    simpa using this
  obtain ⟨m₁, m₂, hdec1, hm₁, hm₂⟩ := split_at_key hnd1 hlka1
  have htiles1' : Tiles st1.totalRegion 0 st1.mem := by
    rw [ad2]
    exact htiles1
  obtain ⟨ma1, ma2, ma3, ma4, ma5, ma6, maA, ma7⟩ :=
    merge_adjacent_spec hdec1 htiles1' hsz1 hexc1 hrep1 hsa1free
  refine ⟨ma1.trans ad1, ma2.trans ad2, ?_, ma4, ma5, ma6, maA, ?_⟩
  · rw [← ad2]
    exact ma3
  · intro hptw
    have hpred : ∀ e ∈ m₁.getLast?, e.2.inUse = true := by
      intro e he
      obtain ⟨t, s_t⟩ := e
      obtain ⟨n₁, hn₁⟩ := exists_append_singleton_of_getLast he
      have hdec2 : st1.mem = n₁ ++ (t, s_t) :: (a, sa1) :: m₂ := by
        rw [hdec1, hn₁]
        simp
      have hta : a = t + s_t.segSize := by
        have := Tiles_adjacent_eq htiles1 hdec2
        simpa using this
      have hmem1 : (t, s_t) ∈ st1.mem := by
        rw [hdec2]
        simp
      have hpos : 0 < s_t.segSize := Tiles_mem_pos htiles1 hmem1
      have hlkt : lookupSeg st1.mem t = some s_t := lookupSeg_eq_of_mem hnd1 hmem1
      obtain ⟨hms, hmf⟩ := hmaps1 t (by omega)
      rw [hlkt] at hms hmf
      cases hlk0 : lookupSeg st.mem t with
      | none =>
        rw [hlk0] at hms
        simp at hms
      | some s0 =>
        rw [hlk0] at hms hmf
        simp at hms hmf
        have := hptw t s0 hlk0 (by omega)
        simp only
        rw [hmf, this]
    obtain ⟨_, L5, sr, hrep5, haL5, hlkr, hfr, hszr, hmaps5⟩ := ma7 hpred
    refine ⟨L5, sr, hrep5, haL5, hlkr, hfr, by omega, ?_⟩
    intro x hx
    obtain ⟨h5s, h5f, h5m⟩ := hmaps5 x hx
    obtain ⟨h1s, h1f⟩ := hmaps1 x (by omega)
    refine ⟨h5s.trans h1s, h5f.trans h1f, ?_⟩
    rw [h5m, ad6 x]
    simp only [or_iff_left_iff_imp]
    intro hxa
    omega

theorem sfree_Inv {st : AllocState} (hinv : Inv st) (ptr : Option Nat) :
    Inv (sfree st ptr) ∧ (sfree st ptr).totalRegion = st.totalRegion ∧
    (sfree st ptr).baseInit = st.baseInit := by
  obtain ⟨hinit, htiles, hsz, hnoadj, L, hrep⟩ := hinv
  cases ptr with
  | none => exact ⟨Inv.mk hinit htiles hsz hnoadj ⟨L, hrep⟩, rfl, rfl⟩
  | some pOff =>
    simp only [sfree, hinit]
    rw [if_neg (by simp)]
    by_cases hp : pOff < hdrSize
    · rw [if_pos hp]
      exact ⟨Inv.mk hinit htiles hsz hnoadj ⟨L, hrep⟩, rfl, hinit⟩
    · rw [if_neg hp]
      split
      · exact ⟨Inv.mk hinit htiles hsz hnoadj ⟨L, hrep⟩, rfl, hinit⟩
      · rename_i s hlk
        by_cases hs : s.inUse = false
        · rw [if_pos hs]
          exact ⟨Inv.mk hinit htiles hsz hnoadj ⟨L, hrep⟩, rfl, hinit⟩
        · rw [if_neg hs]
          have hsT : s.inUse = true := by
            revert hs
            cases s.inUse <;> simp
          obtain ⟨l1, l2, l3, l4, l5, ⟨L5, hrep5⟩, _, _⟩ :=
            sfree_live_spec htiles hsz hnoadj hrep hlk hsT
          refine ⟨Inv.mk (l1.trans hinit) ?_ l4 l5 ⟨L5, hrep5⟩, l2, l1.trans hinit⟩
          rw [l2]
          exact l3

/-! ## The first-fit search at the smalloc level -/

/-- In a tiling, distinct entries have disjoint extents: a later key lies at
or beyond the end of an earlier entry. -/
theorem Tiles_key_gap {total x : Nat} {m : Mem} (h : Tiles total x m)
    {a k : Nat} {sa sk : Seg} (ha : (a, sa) ∈ m) (hk : (k, sk) ∈ m) (hlt : a < k) :
    a + sa.segSize ≤ k := by
  induction m generalizing x with
  | nil => simp at ha
  | cons p rest ih =>
    obtain ⟨b, u⟩ := p
    obtain ⟨hb, hu, hrest⟩ := h
    subst hb
    rcases List.mem_cons.mp ha with ha' | ha'
    · obtain ⟨h1, h2⟩ := Prod.ext_iff.mp ha'
      simp only at h1 h2
      rcases List.mem_cons.mp hk with hk' | hk'
      · obtain ⟨h3, _⟩ := Prod.ext_iff.mp hk'
        simp only at h3
        omega
      · have := (Tiles_key_bounds hrest hk').1
        have h2sz : sa.segSize = u.segSize := by rw [h2]
        omega
    · rcases List.mem_cons.mp hk with hk' | hk'
      · obtain ⟨h3, _⟩ := Prod.ext_iff.mp hk'
        simp only at h3
        have := (Tiles_key_bounds hrest ha').1
        omega
      · exact ih hrest ha' hk'

theorem search_for_fit_spec {st : AllocState} {L : List Nat} {needed : Nat}
    (hrep : FreeListRep st L) :
    (∃ P a Q, L = P ++ a :: Q ∧
      (∀ x ∈ P, ∀ s, lookupSeg st.mem x = some s → s.segSize < needed) ∧
      (∃ s, lookupSeg st.mem a = some s ∧ needed ≤ s.segSize) ∧
      search_for_fit st needed = (some a, P.length)) ∨
    ((∀ x ∈ L, ∀ s, lookupSeg st.mem x = some s → s.segSize < needed) ∧
      search_for_fit st needed = (none, L.length)) := by
  obtain ⟨hchain, hsorted, hmemIff⟩ := hrep
  have hndL : L.Nodup := hsorted.imp fun hlt => Nat.ne_of_lt hlt
  have hfuel : L.length < st.mem.length + 1 := by
    have := FLChain_length_le hchain hndL
    omega
  obtain ⟨e, hseg⟩ := hchain
  rcases exists_first_split
      (fun x => ∃ s, lookupSeg st.mem x = some s ∧ needed ≤ s.segSize) L with
    hall | ⟨P, a, Q, hPQ, hPmiss, s0, hs0, hfit0⟩
  · have hmiss' : ∀ x ∈ L, ∀ s, lookupSeg st.mem x = some s → s.segSize < needed := by
      intro x hx s hsl
      by_contra hge
      exact hall x hx ⟨s, hsl, by omega⟩
    refine Or.inr ⟨hmiss', ?_⟩
    have hres : search_aux st.mem needed st.freeHead 0 (st.mem.length + 1) =
        (none, 0 + L.length) := search_aux_none hseg hfuel hmiss'
    rw [search_for_fit, hres]
    simp
  · have hmiss' : ∀ x ∈ P, ∀ s, lookupSeg st.mem x = some s → s.segSize < needed := by
      intro x hx s hsl
      by_contra hge
      exact hPmiss x hx ⟨s, hsl, by omega⟩
    have hfit' : ∀ s, lookupSeg st.mem a = some s → needed ≤ s.segSize := by
      intro s hsl
      rw [hs0] at hsl
      cases hsl
      exact hfit0
    refine Or.inl ⟨P, a, Q, hPQ, hmiss', ⟨s0, hs0, hfit0⟩, ?_⟩
    rw [hPQ] at hseg
    have hres : search_aux st.mem needed st.freeHead 0 (st.mem.length + 1) =
        (some a, 0 + P.length) :=
      search_aux_found hseg (by rw [← hPQ]; exact hfuel) hmiss' hfit'
    rw [search_for_fit, hres]
    simp

/-! ## The allocation step after a successful search -/

theorem NoAdjFree_updateSeg_used {a : Nat} {m : Mem} {f : Seg → Seg}
    (hf : ∀ s, (f s).inUse = true) (h : NoAdjFree m) : NoAdjFree (updateSeg m a f) := by
  induction m with
  | nil => exact h
  | cons p rest ih =>
    obtain ⟨b, t⟩ := p
    cases rest with
    | nil =>
      by_cases hba : b = a <;>
        simp [NoAdjFree, updateSeg_cons, hba, updateSeg]
    | cons q rest' =>
      obtain ⟨c, u⟩ := q
      simp only [NoAdjFree, List.chain'_cons] at h
      have ih' := ih h.2
      by_cases hba : b = a
      · rw [updateSeg_cons, if_pos hba]
        by_cases hca : c = a
        · rw [updateSeg_cons, if_pos hca] at ih' ⊢
          exact List.chain'_cons.mpr ⟨Or.inl (hf t), ih'⟩
        · rw [updateSeg_cons, if_neg hca] at ih' ⊢
          exact List.chain'_cons.mpr ⟨Or.inl (hf t), ih'⟩
      · rw [updateSeg_cons, if_neg hba]
        by_cases hca : c = a
        · rw [updateSeg_cons, if_pos hca] at ih' ⊢
          exact List.chain'_cons.mpr ⟨Or.inr (hf u), ih'⟩
        · rw [updateSeg_cons, if_neg hca] at ih' ⊢
          exact List.chain'_cons.mpr ⟨h.1, ih'⟩

/-- In a tiling of 8-aligned segments starting at an 8-aligned offset,
every segment start is 8-aligned. -/
theorem Tiles_key_mod8 {total x : Nat} {m : Mem} (h : Tiles total x m)
    (hx : x % 8 = 0) (hsz : SizesOk m) {a : Nat} {s : Seg} (ha : (a, s) ∈ m) :
    a % 8 = 0 := by
  induction m generalizing x with
  | nil => simp at ha
  | cons p rest ih =>
    obtain ⟨b, t⟩ := p
    obtain ⟨hb, ht, hrest⟩ := h
    subst hb
    rcases List.mem_cons.mp ha with ha' | ha'
    · obtain ⟨h1, _⟩ := Prod.ext_iff.mp ha'
      simp only at h1
      omega
    · have hmod : t.segSize % 8 = 0 := (hsz (b, t) (by simp)).1
      refine ih hrest (by omega) ?_ ha'
      intro p hp
      exact hsz p (by simp [hp])

/-- The state surgery `smalloc` performs once the search has chosen the
segment at `a` (of recorded size `S`) for an aligned request of `R` bytes:
unlink it, split it if the remainder can hold a header, and mark it used. -/
def alloc_at (st : AllocState) (a R S : Nat) : AllocState :=
  let st1 := remove_from_free_list st a
  let st2 :=
    if hdrSize ≤ S - R then
      split_seg st1 a R (S - R)
    else st1
  { st2 with mem := updateSeg st2.mem a fun t => { t with inUse := true } }

theorem smalloc_eq_of_found {st : AllocState} {payload_size a hops : Nat} {s : Seg}
    (hinit : st.baseInit = true)
    (hsearch : search_for_fit st (align_value (hdrSize + payload_size) 8) = (some a, hops))
    (hlka : lookupSeg st.mem a = some s) :
    smalloc st payload_size =
      (alloc_at st a (align_value (hdrSize + payload_size) 8) s.segSize,
       some (a + hdrSize),
       { success := true, payload_offset := ((a + hdrSize : Nat) : Int),
         hops := (hops : Int) }) := by
  simp only [smalloc, hinit]
  rw [if_neg (by simp)]
  rw [hsearch]
  simp only [hlka, alloc_at]

theorem alloc_at_spec {st : AllocState} {L : List Nat} {a R : Nat} {s : Seg}
    (htiles : Tiles st.totalRegion 0 st.mem)
    (hsz : SizesOk st.mem)
    (hnoadj : NoAdjFree st.mem)
    (hrep : FreeListRep st L)
    (hlka : lookupSeg st.mem a = some s)
    (hfree : s.inUse = false)
    (hfit : R ≤ s.segSize)
    (hRmod : R % 8 = 0)
    (hRhdr : hdrSize ≤ R) :
    (alloc_at st a R s.segSize).baseInit = st.baseInit ∧
    (alloc_at st a R s.segSize).totalRegion = st.totalRegion ∧
    Tiles st.totalRegion 0 (alloc_at st a R s.segSize).mem ∧
    SizesOk (alloc_at st a R s.segSize).mem ∧
    NoAdjFree (alloc_at st a R s.segSize).mem ∧
    (∃ L9, FreeListRep (alloc_at st a R s.segSize) L9 ∧
      ∀ x, x ∈ L9 ↔ (x ∈ L ∧ x ≠ a) ∨ (hdrSize ≤ s.segSize - R ∧ x = a + R)) ∧
    (hdrSize ≤ s.segSize - R →
      ∃ sa3 sf, lookupSeg (alloc_at st a R s.segSize).mem a = some sa3 ∧
        sa3.segSize = R ∧ sa3.inUse = true ∧
        lookupSeg (alloc_at st a R s.segSize).mem (a + R) = some sf ∧
        sf.segSize = s.segSize - R ∧ sf.inUse = false) ∧
    (¬ hdrSize ≤ s.segSize - R →
      ∃ sa3, lookupSeg (alloc_at st a R s.segSize).mem a = some sa3 ∧
        sa3.segSize = s.segSize ∧ sa3.inUse = true) := by
  have hnd := Tiles_keys_nodup htiles
  obtain ⟨hchain, hsorted, hmemIff⟩ := hrep
  have haL : a ∈ L := by
    rw [hmemIff a, hlka]
    simp [hfree]
  obtain ⟨rm1, rm2, rm3, L1, rm4, rm5, rm6⟩ := remove_from_free_list_spec hchain hsorted haL
  set st1 := remove_from_free_list st a with hst1
  have hf₂ := sameShape_forall₂ rm3 hnd
  have htiles1 : Tiles st.totalRegion 0 st1.mem := Tiles_forall₂ hf₂ htiles
  have hsz1 : SizesOk st1.mem := sizesOk_forall₂ hf₂ hsz
  have hnoadj1 : NoAdjFree st1.mem := NoAdjFree_forall₂ hf₂ hnoadj
  have hnd1 := Tiles_keys_nodup htiles1
  have hSmod : s.segSize % 8 = 0 := (hsz (a, s) (lookupSeg_mem hlka)).1
  have hex1 : ∃ s1, lookupSeg st1.mem a = some s1 ∧ s1.segSize = s.segSize ∧
      s1.inUse = false := by
    have hsz_a := rm3.2.1 a
    have hfl_a := rm3.2.2 a
    rw [hlka] at hsz_a hfl_a
    cases hlk1 : lookupSeg st1.mem a with
    | none =>
      rw [hlk1] at hsz_a
      simp at hsz_a
    | some s1 =>
      rw [hlk1] at hsz_a hfl_a
      simp at hsz_a hfl_a
      exact ⟨s1, rfl, hsz_a, by rw [hfl_a, hfree]⟩
  obtain ⟨s1, hlk1, hs1sz, hs1fl⟩ := hex1
  obtain ⟨w₁, w₂, hdec1, hw₁, hw₂⟩ := split_at_key hnd1 hlk1
  have hnadj1' := hdec1 ▸ hnoadj1
  rw [NoAdjFree, List.chain'_append] at hnadj1'
  obtain ⟨c1, c2, c3⟩ := hnadj1'
  have hleft : ∀ e ∈ w₁.getLast?, e.2.inUse = true := by
    intro e he
    have h' := c3 e he (a, s1) (by rw [List.head?_cons]; rfl)
    rcases h' with h' | h'
    · exact h'
    · simp only at h'
      rw [hs1fl] at h'
      cases h'
  have hright : ∀ e ∈ w₂.head?, e.2.inUse = true := by
    intro e he
    rw [List.chain'_cons'] at c2
    have h' := c2.1 e he
    rcases h' with h' | h'
    · simp only at h'
      rw [hs1fl] at h'
      cases h'
    · exact h'
  have hL1a : a ∉ L1 := fun h => ((rm6 a).mp h).2 rfl
  have hL1keys : ∀ x ∈ L1, x ∈ segKeys st1.mem := by
    intro x hx
    obtain ⟨e0, hseg⟩ := rm4
    obtain ⟨sx, hsx, _⟩ := FLSeg_mem_free hseg hx
    exact mem_keys_of_lookupSeg hsx
  have hmem_a1 : (a, s1) ∈ st1.mem := by
    rw [hdec1]
    simp
  -- ordering of the physical neighbours
  have hsorted1 : List.Pairwise (· < ·) (segKeys st1.mem) := Tiles_keys_sorted htiles1
  have hkw₁ : ∀ k ∈ segKeys w₁, k < a := by
    intro k hk
    have hs' := hdec1 ▸ hsorted1
    rw [segKeys_append, segKeys_cons, List.pairwise_append] at hs'
    exact hs'.2.2 k hk a (by simp)
  have hh24 : hdrSize = 24 := rfl
  have hkw₂ : ∀ k ∈ segKeys w₂, a + s1.segSize ≤ k := by
    intro k hk
    obtain ⟨p, hkmem, hkeq⟩ := List.mem_map.mp hk
    have hpe : (k, p.2) = p := by
      rw [← hkeq]
    have hkmem1 : (k, p.2) ∈ st1.mem := by
      rw [hdec1]
      refine List.mem_append_right _ ?_
      refine List.mem_cons_of_mem _ ?_
      rw [hpe]
      exact hkmem
    have hka : a < k := by
      have hs' := hdec1 ▸ hsorted1
      rw [segKeys_append, segKeys_cons, List.pairwise_append] at hs'
      have := hs'.2.1
      rw [List.pairwise_cons] at this
      rw [← hkeq]
      exact this.1 p.1 (List.mem_map_of_mem Prod.fst hkmem)
    exact Tiles_key_gap htiles1 hmem_a1 hkmem1 hka
  have hnotkey : a + R < a + s.segSize → a + R ∉ segKeys st1.mem := by
    intro hRS hmem
    obtain ⟨sk, hsk⟩ := lookupSeg_isSome_of_mem_keys hmem
    have := Tiles_key_gap htiles1 hmem_a1 (lookupSeg_mem hsk) (by omega)
    omega
  by_cases hsplit : hdrSize ≤ s.segSize - R
  · -- split path
    have hRS : R + hdrSize ≤ s.segSize := by omega
    have hRltS : R < s.segSize := by omega
    have hank : a + R ∉ segKeys st1.mem := hnotkey (by omega)
    set nf : Seg := { segSize := s.segSize - R, inUse := false, next := none, prev := none }
      with hnf
    set stB : AllocState := { st1 with
      mem := updateSeg (insertSegEntry st1.mem (a + R) nf) a
        fun t => { t with segSize := R } } with hstB
    have hinsert : insertSegEntry st1.mem (a + R) nf =
        w₁ ++ (a, s1) :: (a + R, nf) :: w₂ := by
      have h₁ : ∀ k ∈ segKeys (w₁ ++ [(a, s1)]), ¬ a + R < k := by
        intro k hk
        rw [segKeys_append] at hk
        rcases List.mem_append.mp hk with hk | hk
        · have := hkw₁ k hk
          omega
        · rw [segKeys_cons] at hk
          rcases List.mem_cons.mp hk with hk | hk
          · omega
          · simp at hk
      have h₂ : ∀ k ∈ segKeys w₂, a + R < k := by
        intro k hk
        have := hkw₂ k hk
        omega
      calc insertSegEntry st1.mem (a + R) nf
          = insertSegEntry ((w₁ ++ [(a, s1)]) ++ w₂) (a + R) nf := by rw [hdec1]; simp
        _ = (w₁ ++ [(a, s1)]) ++ (a + R, nf) :: w₂ :=
            insertSegEntry_middle (w₁ ++ [(a, s1)]) w₂ (a + R) nf h₁ h₂
        _ = w₁ ++ (a, s1) :: (a + R, nf) :: w₂ := by simp
    have haRa : a ≠ a + R := by omega
    have hacons : a ∉ segKeys ((a + R, nf) :: w₂) := by
      rw [segKeys_cons, List.mem_cons]
      push_neg
      refine ⟨haRa, ?_⟩
      intro hmem
      have := hkw₂ a hmem
      have := Tiles_mem_pos htiles1 hmem_a1
      omega
    have hstBmem : stB.mem = w₁ ++ (a, { s1 with segSize := R }) :: (a + R, nf) :: w₂ := by
      rw [hstB]
      simp only
      rw [hinsert, updateSeg_splice _ hw₁ hacons]
    -- free-list chain of the intermediate state
    have hlookB : ∀ x, x ≠ a → x ≠ a + R → lookupSeg stB.mem x = lookupSeg st1.mem x := by
      intro x hxa hxar
      rw [hstB]
      simp only
      rw [lookupSeg_updateSeg_ne _ _ hxa, lookupSeg_insertSegEntry_ne _ _ hxar]
    have hchainB : FLChain stB.mem stB.freeHead none L1 := by
      obtain ⟨e0, hseg⟩ := rm4
      refine ⟨e0, FLSeg_frame (fun x hx => ?_) hseg⟩
      have hxa : x ≠ a := fun h => hL1a (h ▸ hx)
      have hxar : x ≠ a + R := fun h => hank (h ▸ hL1keys x hx)
      exact hlookB x hxa hxar
    have hnotinB : a + R ∉ L1 := fun h => hank (hL1keys _ h)
    have hlkB : lookupSeg stB.mem (a + R) = some nf := by
      rw [hstB]
      simp only
      rw [lookupSeg_updateSeg_ne _ _ (Ne.symm haRa)]
      exact lookupSeg_insertSegEntry_self _ _ hank
    obtain ⟨adB1, adB2, adB3, L2, adB4, adB5, adB6⟩ :=
      add_to_free_list_spec hchainB rm5 hnotinB hlkB
    set st2 : AllocState := add_to_free_list stB (a + R) with hst2
    have halloc : alloc_at st a R s.segSize =
        { st2 with mem := updateSeg st2.mem a fun t => { t with inUse := true } } := by
      simp only [alloc_at, split_seg]
      rw [if_pos hsplit]
    -- shape of the final memory
    have hupdB : updateSeg stB.mem (a + R) (fun t => { t with inUse := false }) = stB.mem := by
      rw [hstBmem]
      have hank2 : a + R ∉ segKeys (w₁ ++ [(a, { s1 with segSize := R })]) := by
        rw [segKeys_append, List.mem_append]
        push_neg
        constructor
        · intro hmem
          have := hkw₁ _ hmem
          omega
        · rw [segKeys_cons, List.mem_cons]
          push_neg
          exact ⟨Ne.symm haRa, by simp⟩
      have hw₂' : a + R ∉ segKeys w₂ := by
        intro hmem
        have := hkw₂ _ hmem
        omega
      calc updateSeg (w₁ ++ (a, { s1 with segSize := R }) :: (a + R, nf) :: w₂) (a + R)
            (fun t => { t with inUse := false })
          = updateSeg ((w₁ ++ [(a, { s1 with segSize := R })]) ++ (a + R, nf) :: w₂) (a + R)
            (fun t => { t with inUse := false }) := by simp
        _ = (w₁ ++ [(a, { s1 with segSize := R })]) ++
            (a + R, { nf with inUse := false }) :: w₂ := updateSeg_splice _ hank2 hw₂'
        _ = w₁ ++ (a, { s1 with segSize := R }) :: (a + R, nf) :: w₂ := by
            simp [hnf]
    have hshape2 : SameShape st2.mem stB.mem := by
      rw [← hupdB]
      exact adB3
    have hσ3 : updateSeg stB.mem a (fun t => { t with inUse := true }) =
        w₁ ++ (a, { s1 with segSize := R, inUse := true }) :: (a + R, nf) :: w₂ := by
      rw [hstBmem, updateSeg_splice _ hw₁ hacons]
    have hshape3 : SameShape (alloc_at st a R s.segSize).mem
        (w₁ ++ (a, { s1 with segSize := R, inUse := true }) :: (a + R, nf) :: w₂) := by
      rw [halloc]
      simp only
      rw [← hσ3]
      refine SameShape_update hshape2 a ?_
      intro u u' h1 h2
      exact ⟨h1, rfl⟩
    have hσtiles : Tiles st.totalRegion 0
        (w₁ ++ (a, { s1 with segSize := R, inUse := true }) :: (a + R, nf) :: w₂) := by
      have hbase : Tiles st.totalRegion 0 (w₁ ++ (a, s1) :: w₂) := hdec1 ▸ htiles1
      have h2 := Tiles_split_two hbase
        (show ({ s1 with segSize := R, inUse := true } : Seg).segSize + nf.segSize = s1.segSize
          by simp [hnf]; omega)
        (by simp; omega) (by simp [hnf]; omega)
      simpa using h2
    have hσnodup := Tiles_keys_nodup hσtiles
    have hσsz : SizesOk
        (w₁ ++ (a, { s1 with segSize := R, inUse := true }) :: (a + R, nf) :: w₂) := by
      intro q hq
      rcases List.mem_append.mp hq with hq | hq
      · exact hsz1 q (by rw [hdec1]; exact List.mem_append_left _ hq)
      rcases List.mem_cons.mp hq with hq | hq
      · subst hq
        simp only
        constructor
        · exact hRmod
        · exact hRhdr
      rcases List.mem_cons.mp hq with hq | hq
      · subst hq
        simp only [hnf]
        constructor
        · omega
        · omega
      · exact hsz1 q (by rw [hdec1]; refine List.mem_append_right _ ?_; simp [hq])
    have hσnoadj : NoAdjFree
        (w₁ ++ (a, { s1 with segSize := R, inUse := true }) :: (a + R, nf) :: w₂) := by
      rw [NoAdjFree, List.chain'_append]
      refine ⟨c1, ?_, ?_⟩
      · rw [List.chain'_cons]
        refine ⟨Or.inl rfl, ?_⟩
        rw [List.chain'_cons']
        refine ⟨fun y hy => Or.inr (hright y hy), ?_⟩
        exact c2.tail
      · intro x hx y hy
        rw [List.head?_cons, Option.mem_def, Option.some_inj] at hy
        subst hy
        exact Or.inl (hleft x hx)
    have hf₂3 := sameShape_forall₂ hshape3 hσnodup
    -- final free-list representation
    have hlook3 : ∀ x, x ≠ a →
        lookupSeg (alloc_at st a R s.segSize).mem x = lookupSeg st2.mem x := by
      intro x hxa
      rw [halloc]
      simp only
      rw [lookupSeg_updateSeg_ne _ _ hxa]
    have hchain3 : FLChain (alloc_at st a R s.segSize).mem
        (alloc_at st a R s.segSize).freeHead none L2 := by
      obtain ⟨e0, hseg⟩ := adB4
      refine ⟨e0, ?_⟩
      have hfh : (alloc_at st a R s.segSize).freeHead = st2.freeHead := by
        rw [halloc]
      rw [hfh]
      refine FLSeg_frame (fun x hx => ?_) hseg
      have hxa : x ≠ a := by
        rcases (adB6 x).mp hx with h' | h'
        · exact fun h => hL1a (h ▸ h')
        · omega
      exact hlook3 x hxa
    have hmem3 : ∀ x, x ∈ L2 ↔
        (lookupSeg (alloc_at st a R s.segSize).mem x).map Seg.inUse = some false := by
      intro x
      rw [adB6 x]
      by_cases hxa : x = a
      · rw [hxa]
        have hfl := hshape3.2.2 a
        have hσlk : lookupSeg
            (w₁ ++ (a, { s1 with segSize := R, inUse := true }) :: (a + R, nf) :: w₂) a =
            some { s1 with segSize := R, inUse := true } := by
          refine lookupSeg_eq_of_mem hσnodup ?_
          simp
        rw [hσlk] at hfl
        rw [hfl]
        simp only [Option.map_some']
        constructor
        · rintro (h' | h')
          · exact absurd h' hL1a
          · omega
        · intro h'
          simp at h'
      · by_cases hxar : x = a + R
        · rw [hxar]
          have hfl := hshape3.2.2 (a + R)
          have hσlk : lookupSeg
              (w₁ ++ (a, { s1 with segSize := R, inUse := true }) :: (a + R, nf) :: w₂)
              (a + R) = some nf := by
            refine lookupSeg_eq_of_mem hσnodup ?_
            simp
          rw [hσlk] at hfl
          rw [hfl]
          simp [hnf]
        · have h1 := hlook3 x hxa
          have h2 := hshape2.2.2 x
          have h3 := hlookB x hxa hxar
          have h4 := rm3.2.2 x
          rw [h1, h2, h3, h4, ← hmemIff x]
          constructor
          · rintro (h' | h')
            · exact ((rm6 x).mp h').1
            · exact absurd h' hxar
          · intro h'
            exact Or.inl ((rm6 x).mpr ⟨h', hxa⟩)
    refine ⟨?_, ?_, ?_, ?_, ?_, ?_, ?_, ?_⟩
    · rw [halloc]
      exact adB1.trans rm1
    · rw [halloc]
      exact adB2.trans rm2
    · exact Tiles_forall₂ hf₂3 hσtiles
    · exact sizesOk_forall₂ hf₂3 hσsz
    · exact NoAdjFree_forall₂ hf₂3 hσnoadj
    · refine ⟨L2, ⟨hchain3, adB5, hmem3⟩, ?_⟩
      intro x
      rw [adB6 x, rm6 x]
      constructor
      · rintro (h' | h')
        · exact Or.inl h'
        · exact Or.inr ⟨hsplit, h'⟩
      · rintro (h' | ⟨_, h'⟩)
        · exact Or.inl h'
        · exact Or.inr h'
    · intro _
      have hfl := hshape3.2.2 a
      have hsz3 := hshape3.2.1 a
      have hσlk : lookupSeg
          (w₁ ++ (a, { s1 with segSize := R, inUse := true }) :: (a + R, nf) :: w₂) a =
          some { s1 with segSize := R, inUse := true } := by
        refine lookupSeg_eq_of_mem hσnodup ?_
        simp
      rw [hσlk] at hfl hsz3
      have hflr := hshape3.2.2 (a + R)
      have hszr := hshape3.2.1 (a + R)
      have hσlkr : lookupSeg
          (w₁ ++ (a, { s1 with segSize := R, inUse := true }) :: (a + R, nf) :: w₂) (a + R) =
          some nf := by
        refine lookupSeg_eq_of_mem hσnodup ?_
        simp
      rw [hσlkr] at hflr hszr
      cases hq : lookupSeg (alloc_at st a R s.segSize).mem a with
      | none =>
        rw [hq] at hsz3
        simp at hsz3
      | some sa3 =>
        rw [hq] at hfl hsz3
        simp at hfl hsz3
        cases hqr : lookupSeg (alloc_at st a R s.segSize).mem (a + R) with
        | none =>
          rw [hqr] at hszr
          simp at hszr
        | some sf =>
          rw [hqr] at hflr hszr
          simp at hflr hszr
          exact ⟨sa3, sf, rfl, by simp [hsz3], by simp [hfl], rfl, by simp [hszr, hnf],
            by simp [hflr, hnf]⟩
    · intro h
      exact absurd hsplit h
  · -- no-split path
    have halloc : alloc_at st a R s.segSize =
        { st1 with mem := updateSeg st1.mem a fun t => { t with inUse := true } } := by
      simp only [alloc_at, split_seg]
      rw [if_neg hsplit]
    have hmem3lk : lookupSeg (alloc_at st a R s.segSize).mem a =
        some { s1 with inUse := true } := by
      rw [halloc]
      simp only
      rw [lookupSeg_updateSeg_self, hlk1]
      rfl
    have hlook3 : ∀ x, x ≠ a →
        lookupSeg (alloc_at st a R s.segSize).mem x = lookupSeg st1.mem x := by
      intro x hxa
      rw [halloc]
      simp only
      rw [lookupSeg_updateSeg_ne _ _ hxa]
    refine ⟨?_, ?_, ?_, ?_, ?_, ?_, ?_, ?_⟩
    · rw [halloc]
      exact rm1
    · rw [halloc]
      exact rm2
    · rw [halloc]
      simp only
      exact Tiles_updateSeg (fun _ => rfl) htiles1
    · rw [halloc]
      simp only
      exact sizesOk_updateSeg (fun _ => rfl) hsz1
    · rw [halloc]
      simp only
      exact NoAdjFree_updateSeg_used (fun _ => rfl) hnoadj1
    · refine ⟨L1, ⟨?_, rm5, ?_⟩, ?_⟩
      · obtain ⟨e0, hseg⟩ := rm4
        refine ⟨e0, ?_⟩
        have hfh : (alloc_at st a R s.segSize).freeHead = st1.freeHead := by
          rw [halloc]
        rw [hfh]
        refine FLSeg_frame (fun x hx => ?_) hseg
        exact hlook3 x (fun h => hL1a (h ▸ hx))
      · intro x
        by_cases hxa : x = a
        · subst hxa
          rw [hmem3lk]
          simp only [Option.map_some']
          constructor
          · intro h'
            exact absurd h' hL1a
          · intro h'
            simp at h'
        · rw [hlook3 x hxa, rm6 x, rm3.2.2 x, ← hmemIff x]
          simp [hxa]
      · intro x
        rw [rm6 x]
        constructor
        · intro h'
          exact Or.inl h'
        · rintro (h' | ⟨h', _⟩)
          · exact h'
          · exact absurd h' hsplit
    · intro h
      exact absurd h hsplit
    · intro _
      exact ⟨{ s1 with inUse := true }, hmem3lk, by simp [hs1sz], rfl⟩

theorem smalloc_uninit {st : AllocState} (h : st.baseInit = false) (p : Nat) :
    smalloc st p = (st, none, { success := false, payload_offset := -1, hops := -1 }) := by
  simp only [smalloc, h]
  rw [if_pos trivial]

theorem smalloc_nofit_spec {st : AllocState} {L : List Nat} {payload_size : Nat}
    (hinit : st.baseInit = true)
    (hrep : FreeListRep st L)
    (hmiss : ∀ x ∈ L, ∀ s, lookupSeg st.mem x = some s →
      s.segSize < align_value (hdrSize + payload_size) 8) :
    smalloc st payload_size =
      (st, none, { success := false, payload_offset := -1, hops := -1 }) := by
  rcases @search_for_fit_spec st L (align_value (hdrSize + payload_size) 8) hrep with
    ⟨P, a, Q, hPQ, _, ⟨s0, hs0, hfit0⟩, _⟩ | ⟨_, hres⟩
  · exfalso
    have haL : a ∈ L := by
      rw [hPQ]
      simp
    have := hmiss a haL s0 hs0
    omega
  · simp only [smalloc, hinit]
    rw [if_neg (by simp), hres]

theorem smalloc_found_eq {st : AllocState} {L P Q : List Nat} {a payload_size : Nat} {s : Seg}
    (hinit : st.baseInit = true)
    (hrep : FreeListRep st L)
    (hPQ : L = P ++ a :: Q)
    (hmissP : ∀ x ∈ P, ∀ sx, lookupSeg st.mem x = some sx →
      sx.segSize < align_value (hdrSize + payload_size) 8)
    (hlka : lookupSeg st.mem a = some s)
    (hfit : align_value (hdrSize + payload_size) 8 ≤ s.segSize) :
    smalloc st payload_size =
      (alloc_at st a (align_value (hdrSize + payload_size) 8) s.segSize,
       some (a + hdrSize),
       { success := true, payload_offset := ((a + hdrSize : Nat) : Int),
         hops := (P.length : Int) }) := by
  obtain ⟨hchain, hsorted, hmemIff⟩ := hrep
  have hndL : L.Nodup := hsorted.imp fun hlt => Nat.ne_of_lt hlt
  have hfuel : L.length < st.mem.length + 1 := by
    have := FLChain_length_le hchain hndL
    omega
  obtain ⟨e, hseg⟩ := hchain
  rw [hPQ] at hseg
  have hres : search_aux st.mem (align_value (hdrSize + payload_size) 8) st.freeHead 0
      (st.mem.length + 1) = (some a, 0 + P.length) := by
    refine search_aux_found hseg (by rw [← hPQ]; exact hfuel) hmissP ?_
    intro sx hsx
    rw [hlka] at hsx
    cases hsx
    exact hfit
  have hsearch : search_for_fit st (align_value (hdrSize + payload_size) 8) =
      (some a, P.length) := by
    rw [search_for_fit, hres]
    simp
  exact smalloc_eq_of_found hinit hsearch hlka

theorem smalloc_Inv {st : AllocState} (hinv : Inv st) (p : Nat) :
    Inv (smalloc st p).1 ∧ (smalloc st p).1.totalRegion = st.totalRegion ∧
    (smalloc st p).1.baseInit = st.baseInit := by
  obtain ⟨hinit, htiles, hsz, hnoadj, L, hrep⟩ := hinv
  rcases @search_for_fit_spec st L (align_value (hdrSize + p) 8) hrep with
    ⟨P, a, Q, hPQ, hmissP, ⟨s0, hs0, hfit0⟩, hres⟩ | ⟨hmiss, hres⟩
  · have heq := smalloc_eq_of_found hinit hres hs0
    rw [heq]
    have hfree : s0.inUse = false := by
      have := (hrep.2.2 a).mp (by rw [hPQ]; simp)
      rw [hs0] at this
      simpa using this
    obtain ⟨al1, al2, al3, al4, al5, ⟨L9, hrep9, _⟩, _, _⟩ :=
      alloc_at_spec htiles hsz hnoadj hrep hs0 hfree hfit0 (align_value_8_mod _)
        (hdrSize_le_align _)
    refine ⟨Inv.mk (al1.trans hinit) ?_ al4 al5 ⟨L9, hrep9⟩, al2, al1⟩
    rw [al2]
    exact al3
  · rw [smalloc_nofit_spec hinit hrep hmiss]
    exact ⟨Inv.mk hinit htiles hsz hnoadj ⟨L, hrep⟩, rfl, rfl⟩

/-! ## Initialization and reachability -/

theorem my_init_Inv {n : Nat} (hn : 0 < n) :
    Inv (my_init n) ∧ (my_init n).totalRegion = align_value n 4096 := by
  have hpos : 4096 ≤ align_value n 4096 := align_value_4096_pos hn
  have hmod : align_value n 4096 % 8 = 0 := align_value_4096_mod8 n
  refine ⟨Inv.mk rfl ?_ ?_ ?_ ⟨[0], ?_, ?_, ?_⟩, rfl⟩
  · show Tiles (my_init n).totalRegion 0 (my_init n).mem
    simp only [my_init]
    exact ⟨rfl, (by omega : 0 < align_value n 4096),
      (by omega : 0 + align_value n 4096 = align_value n 4096)⟩
  · intro q hq
    simp only [my_init, List.mem_singleton] at hq
    subst hq
    simp only [hdrSize]
    omega
  · exact List.chain'_singleton _
  · exact ⟨some 0, rfl,
      { segSize := align_value n 4096, inUse := false, next := none, prev := none },
      rfl, rfl, rfl, rfl, rfl⟩
  · simp
  · intro x
    by_cases hx : x = 0
    · subst hx
      simp [my_init, lookupSeg]
    · simp only [my_init, List.mem_singleton]
      rw [lookupSeg_cons, if_neg (by omega)]
      simp [hx, lookupSeg]

theorem Step_Inv {st st' : AllocState} (h : Step st st') (hinv : Inv st) :
    Inv st' ∧ st'.totalRegion = st.totalRegion := by
  cases h with
  | alloc p =>
    obtain ⟨h1, h2, _⟩ := smalloc_Inv hinv p
    exact ⟨h1, h2⟩
  | free ptr =>
    obtain ⟨h1, h2, _⟩ := sfree_Inv hinv ptr
    exact ⟨h1, h2⟩

theorem ReachableFrom_Inv {n : Nat} {st : AllocState} (hn : 0 < n)
    (h : ReachableFrom n st) :
    Inv st ∧ st.totalRegion = align_value n 4096 := by
  induction h with
  | refl => exact my_init_Inv hn
  | tail hstep hlast ih =>
    obtain ⟨hinv, htot⟩ := ih
    obtain ⟨hinv', htot'⟩ := Step_Inv hlast hinv
    exact ⟨hinv', by rw [htot', htot]⟩

theorem Reachable_Inv {st : AllocState} (h : Reachable st) : Inv st := by
  obtain ⟨n, hn, hr⟩ := h
  exact (ReachableFrom_Inv hn hr).1

/-! ## Guard branches of sfree, and the initial free list -/

theorem sfree_none (st : AllocState) : sfree st none = st := rfl

theorem sfree_uninit {st : AllocState} (h : st.baseInit = false) (ptr : Option Nat) :
    sfree st ptr = st := by
  cases ptr with
  | none => rfl
  | some pOff =>
    simp only [sfree, h]
    rw [if_pos trivial]

theorem sfree_low {st : AllocState} (hinit : st.baseInit = true) {pOff : Nat}
    (h : pOff < hdrSize) : sfree st (some pOff) = st := by
  simp only [sfree, hinit]
  rw [if_neg (by simp), if_pos h]

theorem sfree_stale {st : AllocState} (hinit : st.baseInit = true) {pOff : Nat}
    (hge : ¬ pOff < hdrSize) (h : lookupSeg st.mem (pOff - hdrSize) = none) :
    sfree st (some pOff) = st := by
  simp only [sfree, hinit]
  rw [if_neg (by simp), if_neg hge]
  simp only [h]

theorem sfree_already_free {st : AllocState} (hinit : st.baseInit = true) {pOff : Nat}
    {s : Seg} (hge : ¬ pOff < hdrSize) (h : lookupSeg st.mem (pOff - hdrSize) = some s)
    (hfree : s.inUse = false) : sfree st (some pOff) = st := by
  simp only [sfree, hinit]
  rw [if_neg (by simp), if_neg hge]
  simp only [h]
  rw [if_pos hfree]

theorem my_init_rep (n : Nat) : FreeListRep (my_init n) [0] := by
  refine ⟨⟨some 0, rfl,
    { segSize := align_value n 4096, inUse := false, next := none, prev := none },
    rfl, rfl, rfl, rfl, rfl⟩, by simp, ?_⟩
  intro x
  by_cases hx : x = 0
  · subst hx
    simp [my_init, lookupSeg]
  · simp only [my_init, List.mem_singleton]
    rw [lookupSeg_cons, if_neg (by omega)]
    simp [hx, lookupSeg]

theorem my_init_lookup (n x : Nat) :
    lookupSeg (my_init n).mem x =
      if 0 = x then
        some { segSize := align_value n 4096, inUse := false, next := none, prev := none }
      else none := rfl

/-! ## The claims -/

/-- C1: after every `free` call issued in any reachable state (initialization
followed by any sequence of `alloc`/`free` calls), no two address-adjacent
segments of the region are both free: coalescing is complete, including
merges of remainder segments created by the allocation split path. -/
theorem C1_coalescing_complete (st : AllocState) (ptr : Option Nat)
    (h : Reachable st) : NoAdjFree (sfree st ptr).mem :=
  ((sfree_Inv (Reachable_Inv h) ptr).1).noAdj

theorem C1_coalescing_complete_witness :
    Reachable (smalloc (my_init 4096) 8).1 ∧
    NoAdjFree (sfree (smalloc (my_init 4096) 8).1 (some 24)).mem :=
  have hr : Reachable (smalloc (my_init 4096) 8).1 :=
    ⟨4096, by decide, Relation.ReflTransGen.single (Step.alloc (my_init 4096) 8)⟩
  ⟨hr, C1_coalescing_complete _ (some 24) hr⟩

/-- C2: for every successful `init(s)` (`s > 0`) and every subsequent
sequence of `alloc`/`free` calls, the sum of `seg_size` over all recorded
segments equals `align_value s 4096`, the page-rounded region size
recorded at init. -/
theorem C2_region_sum {n : Nat} {st : AllocState} (hn : 0 < n)
    (h : ReachableFrom n st) : sumSizes st.mem = align_value n 4096 := by
  obtain ⟨hinv, htot⟩ := ReachableFrom_Inv hn h
  have hsum := Tiles_sum hinv.tiles
  omega

theorem C2_region_sum_witness :
    0 < 4096 ∧ sumSizes (smalloc (my_init 4096) 8).1.mem = align_value 4096 4096 :=
  ⟨by decide, C2_region_sum (by decide)
    (Relation.ReflTransGen.single (Step.alloc (my_init 4096) 8))⟩

/-- C7: in every reachable state the free list is well formed: the pointer
walk from `free_list_head` (each node a free header whose `prev` points back
to the node the walk arrived from, the head's `prev` being NULL, the walk
ending at NULL) visits exactly a strictly address-ascending list of offsets,
which holds exactly the free segments. -/
theorem C7_freelist_wellformed (st : AllocState) (h : Reachable st) :
    ∃ L, FLChain st.mem st.freeHead none L ∧ List.Pairwise (· < ·) L ∧
      ∀ x, x ∈ L ↔ (lookupSeg st.mem x).map Seg.inUse = some false := by
  obtain ⟨L, hrep⟩ := (Reachable_Inv h).rep
  exact ⟨L, hrep.1, hrep.2.1, hrep.2.2⟩

theorem C7_freelist_wellformed_witness :
    Reachable (smalloc (my_init 4096) 8).1 ∧
    ∃ L, FLChain (smalloc (my_init 4096) 8).1.mem (smalloc (my_init 4096) 8).1.freeHead
        none L ∧ List.Pairwise (· < ·) L ∧
      ∀ x, x ∈ L ↔ (lookupSeg (smalloc (my_init 4096) 8).1.mem x).map Seg.inUse =
        some false :=
  have hr : Reachable (smalloc (my_init 4096) 8).1 :=
    ⟨4096, by decide, Relation.ReflTransGen.single (Step.alloc (my_init 4096) 8)⟩
  ⟨hr, C7_freelist_wellformed _ hr⟩

/-- C3 (amended): when some free-list entry fits, `hops` in the returned
status equals the number of free-list entries strictly before the first
fitting one — the matching segment itself is not counted, because the C
loop increments `*steps` only after a segment fails to fit.  When no entry
fits, the search's internal step counter (`*steps`, the second component of
`search_for_fit`) ends at the full free-list length, and the status
returned by `alloc` carries `hops = -1` with `success = false`. -/
theorem C3_hops_strictly_before {st : AllocState} {L : List Nat} {payload_size : Nat}
    (hinit : st.baseInit = true)
    (hrep : FreeListRep st L) :
    (∀ P a Q s, L = P ++ a :: Q →
      (∀ x ∈ P, ∀ sx, lookupSeg st.mem x = some sx →
        sx.segSize < align_value (hdrSize + payload_size) 8) →
      lookupSeg st.mem a = some s →
      align_value (hdrSize + payload_size) 8 ≤ s.segSize →
      (smalloc st payload_size).2.2.success = true ∧
      (smalloc st payload_size).2.2.hops = (P.length : Int)) ∧
    ((∀ x ∈ L, ∀ sx, lookupSeg st.mem x = some sx →
        sx.segSize < align_value (hdrSize + payload_size) 8) →
      search_for_fit st (align_value (hdrSize + payload_size) 8) = (none, L.length) ∧
      (smalloc st payload_size).2.2.success = false ∧
      (smalloc st payload_size).2.2.hops = -1) := by
  constructor
  · intro P a Q s hPQ hmissP hlka hfit
    rw [smalloc_found_eq hinit hrep hPQ hmissP hlka hfit]
    exact ⟨rfl, rfl⟩
  · intro hmiss
    have heq := smalloc_nofit_spec hinit hrep hmiss
    rcases @search_for_fit_spec st L (align_value (hdrSize + payload_size) 8) hrep with
      ⟨P, a, Q, hPQ, _, ⟨s0, hs0, hfit0⟩, _⟩ | ⟨_, hres⟩
    · exfalso
      have haL : a ∈ L := by
        rw [hPQ]
        simp
      have := hmiss a haL s0 hs0
      omega
    · rw [heq]
      exact ⟨hres, rfl, rfl⟩

theorem C3_hops_strictly_before_witness :
    ((smalloc (my_init 4096) 8).2.2.success = true ∧
      (smalloc (my_init 4096) 8).2.2.hops = ((0 : Nat) : Int)) ∧
    (search_for_fit (my_init 4096) (align_value (hdrSize + 8000) 8) = (none, 1) ∧
      (smalloc (my_init 4096) 8000).2.2.success = false ∧
      (smalloc (my_init 4096) 8000).2.2.hops = -1) := by
  refine ⟨?_, ?_⟩
  · have h := (@C3_hops_strictly_before (my_init 4096) [0] 8 rfl (my_init_rep 4096)).1
      [] 0 []
      { segSize := align_value 4096 4096, inUse := false, next := none, prev := none }
      rfl (by simp) rfl (by decide)
    simpa using h
  · have h := (@C3_hops_strictly_before (my_init 4096) [0] 8000 rfl (my_init_rep 4096)).2 ?_
    · simpa using h
    · intro x hx sx hs
      simp only [List.mem_singleton] at hx
      subst hx
      rw [my_init_lookup, if_pos rfl] at hs
      cases hs
      decide

/-- C3, counterexample to the claimed property: in the fresh region the very
first allocation finds its fit at the first free-list entry, so the count
of entries inspected "up to and including the match" is 1, yet the
reported `hops` is 0 — the match does not count as a final step. -/
theorem C3_counterexample :
    (smalloc (my_init 4096) 8).2.2.success = true ∧
    (smalloc (my_init 4096) 8).2.2.hops = 0 ∧
    (∃ L, FreeListRep (my_init 4096) L ∧ L.length = 1) := by
  refine ⟨by decide, by decide, [0], my_init_rep 4096, rfl⟩

/-- C4: in an initialized state where no free segment can hold the aligned
request, `alloc` fails with the sentinel status and the state — free list
and every segment — is exactly unchanged. -/
theorem C4_nofit_unchanged {st : AllocState} {L : List Nat} {payload_size : Nat}
    (hinit : st.baseInit = true)
    (hrep : FreeListRep st L)
    (hmiss : ∀ x s, lookupSeg st.mem x = some s → s.inUse = false →
      s.segSize < align_value (hdrSize + payload_size) 8) :
    smalloc st payload_size =
      (st, none, { success := false, payload_offset := -1, hops := -1 }) := by
  refine smalloc_nofit_spec hinit hrep ?_
  intro x hx s hs
  have hfree : s.inUse = false := by
    have := (hrep.2.2 x).mp hx
    rw [hs] at this
    simpa using this
  exact hmiss x s hs hfree

theorem C4_nofit_unchanged_witness :
    smalloc (my_init 4096) 8000 =
      (my_init 4096, none, { success := false, payload_offset := -1, hops := -1 }) := by
  refine C4_nofit_unchanged rfl (my_init_rep 4096) ?_
  intro x s hs hfree
  rw [my_init_lookup] at hs
  by_cases h0 : (0 : Nat) = x
  · rw [if_pos h0] at hs
    cases hs
    decide
  · rw [if_neg h0] at hs
    cases hs

/-- C5: a successful `alloc` that selects the free segment at `a` (recorded
size `S = s.segSize`) for the aligned request `R`: if `S - R` can hold a
header, the chosen segment shrinks to exactly `R` and a new free segment of
size `S - R` appears immediately after it, inserted into the free list;
otherwise the whole segment stays in use at its original size, and the
internal fragmentation `S - R` is below `headerSize`. -/
theorem C5_split_behavior {st : AllocState} {L P Q : List Nat}
    {a payload_size : Nat} {s : Seg}
    (hinit : st.baseInit = true)
    (htiles : Tiles st.totalRegion 0 st.mem)
    (hsz : SizesOk st.mem)
    (hnoadj : NoAdjFree st.mem)
    (hrep : FreeListRep st L)
    (hPQ : L = P ++ a :: Q)
    (hmissP : ∀ x ∈ P, ∀ sx, lookupSeg st.mem x = some sx →
      sx.segSize < align_value (hdrSize + payload_size) 8)
    (hlka : lookupSeg st.mem a = some s)
    (hfit : align_value (hdrSize + payload_size) 8 ≤ s.segSize) :
    (hdrSize ≤ s.segSize - align_value (hdrSize + payload_size) 8 →
      ∃ sa3 sf L9,
        lookupSeg (smalloc st payload_size).1.mem a = some sa3 ∧
        sa3.segSize = align_value (hdrSize + payload_size) 8 ∧ sa3.inUse = true ∧
        lookupSeg (smalloc st payload_size).1.mem
          (a + align_value (hdrSize + payload_size) 8) = some sf ∧
        sf.segSize = s.segSize - align_value (hdrSize + payload_size) 8 ∧
        sf.inUse = false ∧
        FreeListRep (smalloc st payload_size).1 L9 ∧
        a + align_value (hdrSize + payload_size) 8 ∈ L9) ∧
    (s.segSize - align_value (hdrSize + payload_size) 8 < hdrSize →
      (∃ sa3, lookupSeg (smalloc st payload_size).1.mem a = some sa3 ∧
        sa3.segSize = s.segSize ∧ sa3.inUse = true) ∧
      s.segSize < align_value (hdrSize + payload_size) 8 + hdrSize) := by
  have hfree : s.inUse = false := by
    have := (hrep.2.2 a).mp (by rw [hPQ]; simp)
    rw [hlka] at this
    simpa using this
  rw [smalloc_found_eq hinit hrep hPQ hmissP hlka hfit]
  obtain ⟨al1, al2, al3, al4, al5, al6, al7, al8⟩ :=
    alloc_at_spec htiles hsz hnoadj hrep hlka hfree hfit (align_value_8_mod _)
      (hdrSize_le_align _)
  constructor
  · intro hc
    obtain ⟨sa3, sf, h1, h2, h3, h4, h5, h6⟩ := al7 hc
    obtain ⟨L9, hrep9, hm9⟩ := al6
    exact ⟨sa3, sf, L9, h1, h2, h3, h4, h5, h6, hrep9, (hm9 _).mpr (Or.inr ⟨hc, rfl⟩)⟩
  · intro hc
    have hnc : ¬ hdrSize ≤ s.segSize - align_value (hdrSize + payload_size) 8 := by omega
    obtain ⟨sa3, h1, h2, h3⟩ := al8 hnc
    exact ⟨⟨sa3, h1, h2, h3⟩, by omega⟩

theorem C5_split_behavior_witness :
    ∃ sa3 sf L9,
      lookupSeg (smalloc (my_init 4096) 8).1.mem 0 = some sa3 ∧
      sa3.segSize = 32 ∧ sa3.inUse = true ∧
      lookupSeg (smalloc (my_init 4096) 8).1.mem 32 = some sf ∧
      sf.segSize = 4064 ∧ sf.inUse = false ∧
      FreeListRep (smalloc (my_init 4096) 8).1 L9 ∧ 32 ∈ L9 := by
  have h := (@C5_split_behavior (my_init 4096) [0] [] [] 0 8
    { segSize := align_value 4096 4096, inUse := false, next := none, prev := none }
    rfl (my_init_Inv (by decide)).1.tiles (my_init_Inv (by decide)).1.sizesOk
    (my_init_Inv (by decide)).1.noAdj (my_init_rep 4096) rfl (by simp) rfl
    (by decide)).1 (by decide)
  simpa using h

/-- C10: `alloc(0)` is accepted: whenever the free list holds a segment of
size at least `align_value headerSize 8 = 24` bytes, the call succeeds and
returns a handle, and whenever the chosen segment is split, the occupied
segment's recorded size is exactly `align_value (headerSize + 0) 8`. -/
theorem C10_zero_alloc {st : AllocState} {L : List Nat} {y : Nat} {sy : Seg}
    (hinit : st.baseInit = true)
    (htiles : Tiles st.totalRegion 0 st.mem)
    (hsz : SizesOk st.mem)
    (hnoadj : NoAdjFree st.mem)
    (hrep : FreeListRep st L)
    (hy : lookupSeg st.mem y = some sy)
    (hyfree : sy.inUse = false)
    (hyfit : align_value (hdrSize + 0) 8 ≤ sy.segSize) :
    (smalloc st 0).2.2.success = true ∧
    ∃ a s0, lookupSeg st.mem a = some s0 ∧
      (smalloc st 0).2.1 = some (a + hdrSize) ∧
      (hdrSize ≤ s0.segSize - align_value (hdrSize + 0) 8 →
        ∃ sa3, lookupSeg (smalloc st 0).1.mem a = some sa3 ∧
          sa3.segSize = align_value (hdrSize + 0) 8 ∧ sa3.inUse = true) := by
  rcases @search_for_fit_spec st L (align_value (hdrSize + 0) 8) hrep with
    ⟨P, a, Q, hPQ, hmissP, ⟨s0, hs0, hfit0⟩, hres⟩ | ⟨hmiss, hres⟩
  · have hfree0 : s0.inUse = false := by
      have := (hrep.2.2 a).mp (by rw [hPQ]; simp)
      rw [hs0] at this
      simpa using this
    obtain ⟨al1, al2, al3, al4, al5, al6, al7, al8⟩ :=
      alloc_at_spec htiles hsz hnoadj hrep hs0 hfree0 hfit0 (align_value_8_mod _)
        (hdrSize_le_align _)
    rw [smalloc_found_eq hinit hrep hPQ hmissP hs0 hfit0]
    refine ⟨rfl, a, s0, hs0, rfl, ?_⟩
    intro hc
    obtain ⟨sa3, sf, h1, h2, h3, _⟩ := al7 hc
    exact ⟨sa3, h1, h2, h3⟩
  · exfalso
    have hyL : y ∈ L := by
      rw [hrep.2.2 y, hy]
      simp [hyfree]
    have := hmiss y hyL sy hy
    omega

theorem C10_zero_alloc_witness :
    (smalloc (my_init 4096) 0).2.2.success = true ∧
    ∃ a s0, lookupSeg (my_init 4096).mem a = some s0 ∧
      (smalloc (my_init 4096) 0).2.1 = some (a + hdrSize) ∧
      (hdrSize ≤ s0.segSize - align_value (hdrSize + 0) 8 →
        ∃ sa3, lookupSeg (smalloc (my_init 4096) 0).1.mem a = some sa3 ∧
          sa3.segSize = align_value (hdrSize + 0) 8 ∧ sa3.inUse = true) :=
  C10_zero_alloc rfl (my_init_Inv (by decide)).1.tiles (my_init_Inv (by decide)).1.sizesOk
    (my_init_Inv (by decide)).1.noAdj (my_init_rep 4096)
    (show lookupSeg (my_init 4096).mem 0 = some
      { segSize := align_value 4096 4096, inUse := false, next := none, prev := none }
      from rfl) rfl (by decide)

/-- C6 (amended): in every reachable state a successful `alloc` returns a
payload offset that is 8-aligned and lies in `[0, regionSize]` — the upper
bound is reached: a zero-size payload carved at the end of the region is
handed out as `payloadOffset = regionSize`, one past the last byte the
caller may touch, so the claimed strict bound `< regionSize` does not hold. -/
theorem C6_payload_aligned_bounded {st : AllocState} {payload_size : Nat}
    (h : Reachable st)
    (hsuccess : (smalloc st payload_size).2.2.success = true) :
    0 ≤ (smalloc st payload_size).2.2.payload_offset ∧
    (smalloc st payload_size).2.2.payload_offset ≤ (st.totalRegion : Int) ∧
    (smalloc st payload_size).2.2.payload_offset % 8 = 0 := by
  obtain ⟨hinit, htiles, hsz, hnoadj, L, hrep⟩ := Reachable_Inv h
  rcases @search_for_fit_spec st L (align_value (hdrSize + payload_size) 8) hrep with
    ⟨P, a, Q, hPQ, hmissP, ⟨s0, hs0, hfit0⟩, hres⟩ | ⟨hmiss, hres⟩
  · have heq := smalloc_found_eq hinit hrep hPQ hmissP hs0 hfit0
    rw [heq]
    have hmem0 : (a, s0) ∈ st.mem := lookupSeg_mem hs0
    have hbound := (Tiles_key_bounds htiles hmem0).2
    have hhdr : hdrSize ≤ s0.segSize := (hsz (a, s0) hmem0).2
    have ha8 : a % 8 = 0 := Tiles_key_mod8 htiles (by decide) hsz hmem0
    have hh24 : hdrSize = 24 := rfl
    refine ⟨?_, ?_, ?_⟩
    · show (0 : Int) ≤ ((a + hdrSize : Nat) : Int)
      omega
    · show ((a + hdrSize : Nat) : Int) ≤ (st.totalRegion : Int)
      omega
    · show ((a + hdrSize : Nat) : Int) % 8 = 0
      omega
  · rw [smalloc_nofit_spec hinit hrep hmiss] at hsuccess
    cases hsuccess

theorem C6_payload_aligned_bounded_witness :
    (smalloc (my_init 4096) 8).2.2.success = true ∧
    0 ≤ (smalloc (my_init 4096) 8).2.2.payload_offset ∧
    (smalloc (my_init 4096) 8).2.2.payload_offset ≤ ((my_init 4096).totalRegion : Int) ∧
    (smalloc (my_init 4096) 8).2.2.payload_offset % 8 = 0 :=
  have hs : (smalloc (my_init 4096) 8).2.2.success = true := by decide
  ⟨hs, C6_payload_aligned_bounded ⟨4096, by decide, Relation.ReflTransGen.refl⟩ hs⟩

/-- C6, counterexample to the claimed property: after filling the region so
that its last 24 bytes form the final free segment, a successful `alloc(0)`
returns `payloadOffset = regionSize = 4096`, violating the claimed strict
bound `payloadOffset < regionSize`.  The pre-state is reachable. -/
theorem C6_counterexample :
    Reachable (smalloc (smalloc (my_init 4096) 4024).1 0).1 ∧
    (smalloc (smalloc (smalloc (my_init 4096) 4024).1 0).1 0).2.2.success = true ∧
    (smalloc (smalloc (smalloc (my_init 4096) 4024).1 0).1 0).2.2.payload_offset =
      ((my_init 4096).totalRegion : Int) ∧
    ¬ (smalloc (smalloc (smalloc (my_init 4096) 4024).1 0).1 0).2.2.payload_offset <
      ((my_init 4096).totalRegion : Int) := by
  refine ⟨⟨4096, by decide, Relation.ReflTransGen.tail
    (Relation.ReflTransGen.single (Step.alloc (my_init 4096) 4024))
    (Step.alloc (smalloc (my_init 4096) 4024).1 0)⟩, by decide, by decide, by decide⟩

/-- C8 (amended): `free(p)` immediately followed by `alloc(x)` returns the
same payload offset `p`, provided additionally that the freed segment's
physical predecessor is in use (or absent) — so no backward coalescing
relocates the freed space — and that no free-list entry at a lower address
can satisfy the request — so the first-fit scan cannot stop earlier. -/
theorem C8_first_fit_reuse {st : AllocState} {L : List Nat} {a x : Nat} {s : Seg}
    (hinit : st.baseInit = true)
    (htiles : Tiles st.totalRegion 0 st.mem)
    (hsz : SizesOk st.mem)
    (hnoadj : NoAdjFree st.mem)
    (hrep : FreeListRep st L)
    (hlka : lookupSeg st.mem a = some s)
    (hinuse : s.inUse = true)
    (hpred : ∀ t s_t, lookupSeg st.mem t = some s_t → t + s_t.segSize = a →
      s_t.inUse = true)
    (hfitx : align_value (hdrSize + x) 8 ≤ s.segSize)
    (hnoearly : ∀ y ∈ L, y < a → ∀ sy, lookupSeg st.mem y = some sy →
      sy.segSize < align_value (hdrSize + x) 8) :
    (smalloc (sfree st (some (a + hdrSize))) x).2.1 = some (a + hdrSize) := by
  rw [sfree_eq_merge hinit hlka hinuse]
  obtain ⟨f1, f2, f3, f4, f5, _, _, fcond⟩ :=
    sfree_live_spec htiles hsz hnoadj hrep hlka hinuse
  obtain ⟨L5, sr, hrep5, haL5, hlkr, hfr, hszr, hmaps5⟩ := fcond hpred
  obtain ⟨P, Q, hPQ⟩ := List.append_of_mem haL5
  have hsorted5 := hrep5.2.1
  have hPlt : ∀ y ∈ P, y < a := by
    rw [hPQ, List.pairwise_append] at hsorted5
    intro y hy
    exact hsorted5.2.2 y hy a (by simp)
  have hmissP : ∀ y ∈ P, ∀ sy,
      lookupSeg (merge_adjacent (add_to_free_list st a) a).1.mem y = some sy →
      sy.segSize < align_value (hdrSize + x) 8 := by
    intro y hy sy hsy
    have hylt := hPlt y hy
    obtain ⟨hms, hmf, hmL⟩ := hmaps5 y hylt
    rw [hsy] at hms
    cases hlk0 : lookupSeg st.mem y with
    | none =>
      rw [hlk0] at hms
      simp at hms
    | some sy0 =>
      rw [hlk0] at hms
      simp at hms
      have hyL : y ∈ L := by
        refine hmL.mp ?_
        rw [hPQ]
        exact List.mem_append_left _ hy
      have := hnoearly y hyL hylt sy0 hlk0
      omega
  have hbase5 : (merge_adjacent (add_to_free_list st a) a).1.baseInit = true :=
    f1.trans hinit
  have h := smalloc_found_eq hbase5 hrep5 hPQ hmissP hlkr (le_trans hfitx hszr)
  rw [h]

theorem C8_first_fit_reuse_witness :
    (smalloc (sfree
      { baseInit := true, freeHead := none, totalRegion := 4096,
        mem := [(0, { segSize := 4096, inUse := true, next := none, prev := none })] }
      (some (0 + hdrSize))) 4072).2.1 = some (0 + hdrSize) := by
  refine @C8_first_fit_reuse
    { baseInit := true, freeHead := none, totalRegion := 4096,
      mem := [(0, { segSize := 4096, inUse := true, next := none, prev := none })] }
    [] 0 4072 { segSize := 4096, inUse := true, next := none, prev := none }
    rfl ⟨rfl, by decide, rfl⟩ ?_ (List.chain'_singleton _) ⟨⟨none, rfl, rfl⟩, by simp, ?_⟩
    rfl rfl ?_ (by decide) (by simp)
  · intro p hp
    simp only [List.mem_singleton] at hp
    subst hp
    exact ⟨by decide, by decide⟩
  · intro y
    simp only [List.not_mem_nil, false_iff]
    intro hcon
    rw [lookupSeg_cons] at hcon
    by_cases h0 : (0 : Nat) = y
    · rw [if_pos h0] at hcon
      simp at hcon
    · rw [if_neg h0] at hcon
      simp [lookupSeg] at hcon
  · intro t s_t hlk hend
    rw [lookupSeg_cons] at hlk
    by_cases h0 : (0 : Nat) = t
    · rw [if_pos h0] at hlk
      cases hlk
      rfl
    · rw [if_neg h0] at hlk
      simp [lookupSeg] at hlk

/-- C8, counterexample to the claimed property: allocate three 8-byte blocks
(handles 24, 56, 88), free the first and the third, then free the middle
one — both of its physical neighbours are free, so the backward merge folds
everything into the segment at offset 0.  Re-allocating the same size now
returns handle 24, not the freed handle 56: first-fit reuse of the
just-freed space fails once coalescing has moved the space to a lower
address. -/
theorem C8_counterexample :
    (smalloc (smalloc (my_init 4096) 8).1 8).2.1 = some 56 ∧
    (smalloc (sfree (sfree (sfree
        (smalloc (smalloc (smalloc (my_init 4096) 8).1 8).1 8).1
      (some 24)) (some 88)) (some 56)) 8).2.1 = some 24 ∧
    (some 24 : Option Nat) ≠ some 56 := by
  exact ⟨by decide, by decide, by decide⟩

/-- C9: invalid use is handled silently — `alloc` before init fails with
the sentinel status and changes nothing; `free` of a NULL handle, `free`
before init, and `free` of an already-free handle each return with the
state unchanged; and in any reachable state a second `free` of the same
handle is a no-op. -/
theorem C9_invalid_use (st : AllocState) (p : Nat) (ptr : Option Nat) (pOff : Nat) :
    (st.baseInit = false →
      smalloc st p = (st, none, { success := false, payload_offset := -1, hops := -1 }) ∧
      sfree st ptr = st) ∧
    sfree st none = st ∧
    (∀ s, st.baseInit = true → hdrSize ≤ pOff →
      lookupSeg st.mem (pOff - hdrSize) = some s → s.inUse = false →
      sfree st (some pOff) = st) ∧
    (Reachable st → sfree (sfree st (some pOff)) (some pOff) = sfree st (some pOff)) := by
  refine ⟨?_, sfree_none st, ?_, ?_⟩
  · intro h
    exact ⟨smalloc_uninit h p, sfree_uninit h ptr⟩
  · intro s hinit hge hlk hfree
    exact sfree_already_free hinit (by omega) hlk hfree
  · intro hr
    obtain ⟨hinit, htiles, hsz, hnoadj, L, hrep⟩ := Reachable_Inv hr
    by_cases hp : pOff < hdrSize
    · rw [sfree_low hinit hp, sfree_low hinit hp]
    · cases hlk : lookupSeg st.mem (pOff - hdrSize) with
      | none => rw [sfree_stale hinit hp hlk, sfree_stale hinit hp hlk]
      | some s =>
        by_cases hfree : s.inUse = false
        · rw [sfree_already_free hinit hp hlk hfree,
            sfree_already_free hinit hp hlk hfree]
        · have hsT : s.inUse = true := by
            revert hfree
            cases s.inUse <;> simp
          have hpa : (pOff - hdrSize) + hdrSize = pOff := by omega
          have hfirst : sfree st (some pOff) =
              (merge_adjacent (add_to_free_list st (pOff - hdrSize))
                (pOff - hdrSize)).1 := by
            conv_lhs => rw [← hpa]
            exact sfree_eq_merge hinit hlk hsT
          obtain ⟨l1, l2, l3, l4, l5, _, lA, _⟩ :=
            sfree_live_spec htiles hsz hnoadj hrep hlk hsT
          rw [hfirst]
          have hinit' : (merge_adjacent (add_to_free_list st (pOff - hdrSize))
              (pOff - hdrSize)).1.baseInit = true := l1.trans hinit
          cases hlk' : lookupSeg (merge_adjacent (add_to_free_list st (pOff - hdrSize))
              (pOff - hdrSize)).1.mem (pOff - hdrSize) with
          | none => exact sfree_stale hinit' hp hlk'
          | some s9 => exact sfree_already_free hinit' hp hlk' (lA s9 hlk')

theorem C9_invalid_use_witness :
    sfree (sfree (smalloc (my_init 4096) 8).1 (some 24)) (some 24) =
      sfree (smalloc (my_init 4096) 8).1 (some 24) :=
  (C9_invalid_use _ 0 none 24).2.2.2
    ⟨4096, by decide, Relation.ReflTransGen.single (Step.alloc (my_init 4096) 8)⟩

end SMalloc
